import Mathlib

/-!
# Catalog generator (`scripts/gen_catalog.go`)

A shallow embedding of the catalog generator and of the parts of the Go
standard library it calls, followed by the properties proved about it.

* Go strings are sequences of Unicode code points (`String`, handled through
  `String.data`); comparing two strings byte by byte, as Go does, orders them
  as comparing their code points does.
* `sort.Slice` is the pattern-defeating quicksort of `sort/zsortfunc.go`
  (Go 1.19 and later), on a list with index reads and swaps.
* `float64` is IEEE-754 binary64 with round-to-nearest-even, written out on
  integers (`F64`).
* Loops carry a fuel argument where their variable does not go down to zero;
  the fuel handed in is shown to be enough where a result depends on it.
-/

set_option autoImplicit false

namespace GenCatalog

/-! ## `sort.Slice` -/

section SortSlice

variable {α : Type} [Inhabited α] (lt : α → α → Bool)

/-- Element of the slice at index `i` (Go: `data[i]`). -/
def get (data : List α) (i : Nat) : α := data.getD i default

/-- Go: `data.Swap(i, j)`. -/
def swap (data : List α) (i j : Nat) : List α :=
  if i < data.length ∧ j < data.length then
    (data.set i (get data j)).set j (get data i)
  else data

/-- Go: `data.Less(i, j)`, the comparison closure applied to two indices of the
current slice. -/
def less (data : List α) (i j : Nat) : Bool := lt (get data i) (get data j)

/-- Inner loop of `insertionSort_func`:
`for j := i; j > a && data.Less(j, j-1); j-- { data.Swap(j, j-1) }`. -/
def insertionSort_inner (a : Nat) : List α → Nat → List α
  | data, 0 => data
  | data, j + 1 =>
    if j + 1 > a ∧ less lt data (j + 1) j then
      insertionSort_inner a (swap data (j + 1) j) j
    else data

/-- Outer loop of `insertionSort_func`: `for i := a + 1; i < b; i++`. -/
def insertionSort_outer (a b : Nat) : Nat → List α → Nat → List α
  | 0, data, _ => data
  | fuel + 1, data, i =>
    if i < b then
      insertionSort_outer a b fuel (insertionSort_inner lt a data i) (i + 1)
    else data

/-- Go: `insertionSort_func(data, a, b)` sorts `data[a:b]` by insertion. -/
def insertionSort_func (data : List α) (a b : Nat) : List α :=
  insertionSort_outer lt a b (b - a) data (a + 1)

/-- Loop of `siftDown_func`, `root` being the loop variable. -/
def siftDown_loop (hi first : Nat) : Nat → List α → Nat → List α
  | 0, data, _ => data
  | fuel + 1, data, root =>
    let child := 2 * root + 1
    if child ≥ hi then data
    else
      let child :=
        if child + 1 < hi ∧ less lt data (first + child) (first + child + 1) then child + 1
        else child
      if !less lt data (first + root) (first + child) then data
      else siftDown_loop hi first fuel (swap data (first + root) (first + child)) child

/-- Go: `siftDown_func(data, lo, hi, first)`. -/
def siftDown_func (data : List α) (lo hi first : Nat) : List α :=
  siftDown_loop lt hi first hi data lo

/-- First loop of `heapSort_func`:
`for i := (hi - 1) / 2; i >= 0; i-- { siftDown_func(data, i, hi, first) }`. -/
def heapSort_build (hi first : Nat) : List α → Nat → List α
  | data, 0 => siftDown_func lt data 0 hi first
  | data, i + 1 => heapSort_build hi first (siftDown_func lt data (i + 1) hi first) i

/-- Second loop of `heapSort_func`:
`for i := hi - 1; i >= 0; i-- { data.Swap(first, first+i); siftDown_func(data, lo, i, first) }`;
the argument counts the iterations left, the loop variable being one less. -/
def heapSort_pop (first : Nat) : List α → Nat → List α
  | data, 0 => data
  | data, i + 1 =>
    heapSort_pop first (siftDown_func lt (swap data first (first + i)) 0 i first) i

/-- Go: `heapSort_func(data, a, b)`. -/
def heapSort_func (data : List α) (a b : Nat) : List α :=
  let first := a
  let hi := b - a
  heapSort_pop lt first (heapSort_build lt hi first data ((hi - 1) / 2)) hi

/-- Go: `for i <= j && data.Less(i, a) { i++ }` (fuel bounds the iterations). -/
def scanLess (a j : Nat) (data : List α) : Nat → Nat → Nat
  | 0, i => i
  | fuel + 1, i => if i ≤ j ∧ less lt data i a then scanLess a j data fuel (i + 1) else i

/-- Go: `for i <= j && !data.Less(j, a) { j-- }`. -/
def scanNotLess (a i : Nat) (data : List α) : Nat → Nat
  | 0 => 0
  | j + 1 => if i ≤ j + 1 ∧ !less lt data (j + 1) a then scanNotLess a i data j else j + 1

/-- The `for { ... }` loop of `partition_func`; returns the slice and the final `j`. -/
def partition_loop (a : Nat) : Nat → List α → Nat → Nat → List α × Nat
  | 0, data, _, j => (data, j)
  | fuel + 1, data, i, j =>
    let i := scanLess lt a j data (j + 1 - i) i
    let j := scanNotLess lt a i data j
    if i > j then (data, j)
    else partition_loop a fuel (swap data i j) (i + 1) (j - 1)

/-- Go: `partition_func(data, a, b, pivot)`; returns the slice, the new pivot
index and `alreadyPartitioned`. -/
def partition_func (data : List α) (a b pivot : Nat) : List α × Nat × Bool :=
  let data := swap data a pivot
  let i := a + 1
  let j := b - 1
  let i := scanLess lt a j data (j + 1 - i) i
  let j := scanNotLess lt a i data j
  if i > j then (swap data j a, j, true)
  else
    let data := swap data i j
    let r := partition_loop lt a (j + 1 - i) data (i + 1) (j - 1)
    (swap r.1 r.2 a, r.2, false)

/-- Go: `for i <= j && !data.Less(a, i) { i++ }`. -/
def scanNotGreater (a j : Nat) (data : List α) : Nat → Nat → Nat
  | 0, i => i
  | fuel + 1, i =>
    if i ≤ j ∧ !less lt data a i then scanNotGreater a j data fuel (i + 1) else i

/-- Go: `for i <= j && data.Less(a, j) { j-- }`. -/
def scanGreater (a i : Nat) (data : List α) : Nat → Nat
  | 0 => 0
  | j + 1 => if i ≤ j + 1 ∧ less lt data a (j + 1) then scanGreater a i data j else j + 1

/-- The loop of `partitionEqual_func`; returns the slice and the final `i`. -/
def partitionEqual_loop (a : Nat) : Nat → List α → Nat → Nat → List α × Nat
  | 0, data, i, _ => (data, i)
  | fuel + 1, data, i, j =>
    let i := scanNotGreater lt a j data (j + 1 - i) i
    let j := scanGreater lt a i data j
    if i > j then (data, i)
    else partitionEqual_loop a fuel (swap data i j) (i + 1) (j - 1)

/-- Go: `partitionEqual_func(data, a, b, pivot)`. -/
def partitionEqual_func (data : List α) (a b pivot : Nat) : List α × Nat :=
  let data := swap data a pivot
  partitionEqual_loop lt a (b - a) data (a + 1) (b - 1)

/-- Go: `for i < b && !data.Less(i, i-1) { i++ }`. -/
def scanOrdered (b : Nat) (data : List α) : Nat → Nat → Nat
  | 0, i => i
  | fuel + 1, i => if i < b ∧ !less lt data i (i - 1) then scanOrdered b data fuel (i + 1) else i

/-- Go: `for j := i - 1; j >= 1; j-- { if !data.Less(j, j-1) { break }; data.Swap(j, j-1) }`. -/
def shiftLeft : List α → Nat → List α
  | data, 0 => data
  | data, j + 1 =>
    if !less lt data (j + 1) j then data else shiftLeft (swap data (j + 1) j) j

/-- Go: `for j := i + 1; j < b; j++ { if !data.Less(j, j-1) { break }; data.Swap(j, j-1) }`. -/
def shiftRight (b : Nat) : Nat → List α → Nat → List α
  | 0, data, _ => data
  | fuel + 1, data, j =>
    if j < b then
      if !less lt data j (j - 1) then data else shiftRight b fuel (swap data j (j - 1)) (j + 1)
    else data

/-- The loop `for j := 0; j < maxSteps; j++` of `partialInsertionSort_func`;
the first argument counts the steps left. -/
def partialInsertionSort_loop (a b : Nat) : Nat → List α → Nat → List α × Bool
  | 0, data, _ => (data, false)
  | steps + 1, data, i =>
    let i := scanOrdered lt b data (b - i) i
    if i = b then (data, true)
    else if b - a < 50 then (data, false)
    else
      let data := swap data i (i - 1)
      let data := if i - a ≥ 2 then shiftLeft lt data (i - 1) else data
      let data := if b - i ≥ 2 then shiftRight lt b (b - i) data (i + 1) else data
      partialInsertionSort_loop a b steps data i

/-- Go: `partialInsertionSort_func(data, a, b)`, with `maxSteps = 5` and
`shortestShifting = 50`. -/
def partialInsertionSort_func (data : List α) (a b : Nat) : List α × Bool :=
  partialInsertionSort_loop lt a b 5 data (a + 1)

/-- Go: `bits.Len(uint(n))`, the number of bits needed to write `n`. -/
def bitsLen : Nat → Nat → Nat
  | 0, _ => 0
  | fuel + 1, n => if n = 0 then 0 else bitsLen fuel (n / 2) + 1

/-- Go: `(*xorshift).Next` on a 64-bit state. -/
def xorshiftNext (r : Nat) : Nat :=
  let r := Nat.xor r ((r <<< 13) % 2 ^ 64)
  let r := Nat.xor r (r >>> 7)
  Nat.xor r ((r <<< 17) % 2 ^ 64)

/-- Go: `nextPowerOfTwo(length)`, that is `1 << bits.Len(uint(length))`. -/
def nextPowerOfTwo (length : Nat) : Nat := 2 ^ bitsLen (length + 1) length

/-- The loop `for i := 0; i < 3; i++` of `breakPatterns_func`; the first
argument counts the iterations left. -/
def breakPatterns_loop (a length modulus idx : Nat) : Nat → List α → Nat → Nat → List α
  | 0, data, _, _ => data
  | n + 1, data, random, i =>
    let random := xorshiftNext random
    let other := random &&& (modulus - 1)
    let other := if other ≥ length then other - length else other
    breakPatterns_loop a length modulus idx n (swap data (idx + i) (a + other)) random (i + 1)

/-- Go: `breakPatterns_func(data, a, b)`. -/
def breakPatterns_func (data : List α) (a b : Nat) : List α :=
  let length := b - a
  if length ≥ 8 then
    let random := length
    let modulus := nextPowerOfTwo length
    let idx := a + (length / 4) * 2 - 1
    breakPatterns_loop a length modulus idx 3 data random 0
  else data

/-- Go: `sortedHint`. -/
inductive sortedHint where
  | unknownHint
  | increasingHint
  | decreasingHint
  deriving DecidableEq, Repr

/-- Go: `order2_func(data, a, b, swaps)`; the updated counter is returned third. -/
def order2_func (data : List α) (a b swaps : Nat) : Nat × Nat × Nat :=
  if less lt data b a then (b, a, swaps + 1) else (a, b, swaps)

/-- Go: `median_func(data, a, b, c, swaps)`. -/
def median_func (data : List α) (a b c swaps : Nat) : Nat × Nat :=
  let r1 := order2_func lt data a b swaps
  let r2 := order2_func lt data r1.2.1 c r1.2.2
  let r3 := order2_func lt data r1.1 r2.1 r2.2.2
  (r3.2.1, r3.2.2)

/-- Go: `medianAdjacent_func(data, a, swaps)`. -/
def medianAdjacent_func (data : List α) (a swaps : Nat) : Nat × Nat :=
  median_func lt data (a - 1) a (a + 1) swaps

/-- Go: `choosePivot_func(data, a, b)`, with `shortestNinther = 50` and
`maxSwaps = 4 * 3`. -/
def choosePivot_func (data : List α) (a b : Nat) : Nat × sortedHint :=
  let l := b - a
  let i := a + l / 4 * 1
  let j := a + l / 4 * 2
  let k := a + l / 4 * 3
  let r :=
    if l ≥ 8 then
      if l ≥ 50 then
        let ri := medianAdjacent_func lt data i 0
        let rj := medianAdjacent_func lt data j ri.2
        let rk := medianAdjacent_func lt data k rj.2
        median_func lt data ri.1 rj.1 rk.1 rk.2
      else median_func lt data i j k 0
    else (j, 0)
  if r.2 = 0 then (r.1, sortedHint.increasingHint)
  else if r.2 = 12 then (r.1, sortedHint.decreasingHint)
  else (r.1, sortedHint.unknownHint)

/-- The loop `for i < j` of `reverseRange_func`. -/
def reverseRange_loop : Nat → List α → Nat → Nat → List α
  | 0, data, _, _ => data
  | fuel + 1, data, i, j =>
    if i < j then reverseRange_loop fuel (swap data i j) (i + 1) (j - 1) else data

/-- Go: `reverseRange_func(data, a, b)`. -/
def reverseRange_func (data : List α) (a b : Nat) : List α :=
  reverseRange_loop (b - a) data a (b - 1)

/-- Go: `pdqsort_func(data, a, b, limit)`. The `for` loop and the recursive
calls both go through this function; `fuel` bounds their nesting, and the two
booleans are the loop's `wasBalanced` and `wasPartitioned`. -/
def pdqsort_loop : Nat → List α → Nat → Nat → Nat → Bool → Bool → List α
  | 0, data, _, _, _, _, _ => data
  | fuel + 1, data, a, b, limit, wasBalanced, wasPartitioned =>
    let length := b - a
    if length ≤ 12 then insertionSort_func lt data a b
    else if limit = 0 then heapSort_func lt data a b
    else
      let data := if !wasBalanced then breakPatterns_func data a b else data
      let limit := if !wasBalanced then limit - 1 else limit
      let ph := choosePivot_func lt data a b
      let decreasing := decide (ph.2 = sortedHint.decreasingHint)
      let data := if decreasing then reverseRange_func data a b else data
      let pivot := if decreasing then (b - 1) - (ph.1 - a) else ph.1
      let hint := if decreasing then sortedHint.increasingHint else ph.2
      let ps :=
        if wasBalanced && wasPartitioned && decide (hint = sortedHint.increasingHint) then
          partialInsertionSort_func lt data a b
        else (data, false)
      if ps.2 then ps.1
      else
        let data := ps.1
        if a > 0 ∧ !less lt data (a - 1) pivot then
          let pe := partitionEqual_func lt data a b pivot
          pdqsort_loop fuel pe.1 pe.2 b limit wasBalanced wasPartitioned
        else
          let pt := partition_func lt data a b pivot
          let mid := pt.2.1
          let wasPartitioned := pt.2.2
          let leftLen := mid - a
          let rightLen := b - mid
          let balanceThreshold := length / 8
          if leftLen < rightLen then
            let wasBalanced := decide (leftLen ≥ balanceThreshold)
            let data := pdqsort_loop fuel pt.1 a mid limit true true
            pdqsort_loop fuel data (mid + 1) b limit wasBalanced wasPartitioned
          else
            let wasBalanced := decide (rightLen ≥ balanceThreshold)
            let data := pdqsort_loop fuel pt.1 (mid + 1) b limit true true
            pdqsort_loop fuel data a mid limit wasBalanced wasPartitioned

/-- Go: `pdqsort_func(data, a, b, limit)` as called from outside. -/
def pdqsort_func (data : List α) (a b limit : Nat) : List α :=
  pdqsort_loop lt (b - a + 1) data a b limit true true

/-- Go: `sort.Slice(x, less)`, where `less(i, j)` compares the elements that
are at `i` and `j` when it is called. -/
def sortSlice (x : List α) : List α :=
  let length := x.length
  let limit := bitsLen (length + 1) length
  pdqsort_func lt x 0 length limit

end SortSlice


/-! ## Strings -/

/-- Go: `unicode.IsSpace`; `isSpace` of `fmt/scan.go` accepts the same set. -/
def isSpace (c : Char) : Bool :=
  let n := c.toNat
  (0x09 ≤ n && n ≤ 0x0d) || n == 0x20 || n == 0x85 || n == 0xa0 || n == 0x1680 ||
    (0x2000 ≤ n && n ≤ 0x200a) || n == 0x2028 || n == 0x2029 || n == 0x202f ||
    n == 0x205f || n == 0x3000

/-- Go: `strings.TrimSpace` on the code points of a string. -/
def trimSpaceChars (s : List Char) : List Char :=
  ((s.dropWhile isSpace).reverse.dropWhile isSpace).reverse

/-- Go: `strings.TrimSpace`. -/
def trimSpace (s : String) : String := String.mk (trimSpaceChars s.data)

/-- Go: `unicode.ToLower` on one code point. ASCII letters are shifted; the
lower-case mapping of the code points above ASCII is the table `table` of the
Unicode tables. -/
def toLowerRune (table : Char → Char) (c : Char) : Char :=
  if c.toNat < 0x80 then
    if 0x41 ≤ c.toNat ∧ c.toNat ≤ 0x5a then Char.ofNat (c.toNat + 0x20) else c
  else table c

/-- Go: `strings.ToLower`. -/
def toLower (table : Char → Char) (s : String) : String :=
  String.mk (s.data.map (toLowerRune table))

/-- Lexicographic comparison of two sequences of code points. -/
def ltChars : List Char → List Char → Bool
  | _, [] => false
  | [], _ :: _ => true
  | a :: as, b :: bs =>
    if a.toNat < b.toNat then true
    else if b.toNat < a.toNat then false
    else ltChars as bs

/-- Go: `a < b` on strings. -/
def stringLess (a b : String) : Bool := ltChars a.data b.data

/-! ## `float64` -/

/-- A `float64`. `fin neg m e` is the number `(-1)^neg * m * 2^e`; the values
the operations below produce have `m < 2^53`, `-1074 ≤ e ≤ 971`, and
`2^52 ≤ m` unless `e = -1074` (zero is `m = 0`, `e = -1074`). -/
inductive F64 where
  | nan : F64
  | inf (neg : Bool) : F64
  | fin (neg : Bool) (m : Nat) (e : Int) : F64
  deriving DecidableEq, Repr

/-- Nearest natural number to `n / d`, ties to even. -/
def roundHalfEven (n d : Nat) : Nat :=
  let q := n / d
  let r := n % d
  if 2 * r > d ∨ (2 * r = d ∧ q % 2 = 1) then q + 1 else q

/-- The integer part of the binary logarithm of `n / d`. -/
def floorLog2 (n d : Nat) : Int :=
  let k : Int := (bitsLen (n + 1) n : Int) - (bitsLen (d + 1) d : Int)
  if k ≥ 0 then (if n ≥ d * 2 ^ k.toNat then k else k - 1)
  else (if n * 2 ^ (-k).toNat ≥ d then k else k - 1)

/-- The `float64` nearest to `(-1)^neg * (num / den)`, ties to even, for
`num` other than zero; infinite when the rounded value is out of range. -/
def roundRatio (neg : Bool) (num den : Nat) : F64 :=
  let q := max (floorLog2 num den - 52) (-1074)
  let m :=
    if q ≥ 0 then roundHalfEven num (den * 2 ^ q.toNat)
    else roundHalfEven (num * 2 ^ (-q).toNat) den
  let q1 := if m = 2 ^ 53 then q + 1 else q
  let m1 := if m = 2 ^ 53 then 2 ^ 52 else m
  if q1 > 971 then F64.inf neg else F64.fin neg m1 q1

/-- The `float64` nearest to `(-1)^neg * (n / d) * 2^e`, ties to even;
infinite when the rounded value is out of range. -/
def roundF64 (neg : Bool) (n d : Nat) (e : Int) : F64 :=
  if n = 0 then F64.fin neg 0 (-1074)
  else
    roundRatio neg (if e ≥ 0 then n * 2 ^ e.toNat else n)
      (if e ≥ 0 then d else d * 2 ^ (-e).toNat)

namespace F64

/-- Positive zero, the zero value of a `float64` variable. -/
def zero : F64 := fin false 0 (-1074)

/-- Conversion of an integer constant to `float64`. -/
def ofNat (n : Nat) : F64 := roundF64 false n 1 0

/-- The integer `(-1)^neg * m * 2^(e - k)`, for `k ≤ e`. -/
def scaled (k : Int) (neg : Bool) (m : Nat) (e : Int) : Int :=
  if neg then -((m * 2 ^ (e - k).toNat : Nat) : Int) else ((m * 2 ^ (e - k).toNat : Nat) : Int)

/-- Go: `x * y` on `float64`. -/
def mul : F64 → F64 → F64
  | nan, _ => nan
  | _, nan => nan
  | inf s, inf t => inf (s != t)
  | inf s, fin t m _ => if m = 0 then nan else inf (s != t)
  | fin s m _, inf t => if m = 0 then nan else inf (s != t)
  | fin s m e, fin t n f => roundF64 (s != t) (m * n) 1 (e + f)

/-- Go: `x + y` on `float64`. -/
def add : F64 → F64 → F64
  | nan, _ => nan
  | _, nan => nan
  | inf s, inf t => if s = t then inf s else nan
  | inf s, fin _ _ _ => inf s
  | fin _ _ _, inf t => inf t
  | fin s m e, fin t n f =>
    let k := min e f
    let v := scaled k s m e + scaled k t n f
    if v = 0 then fin (s && t) 0 (-1074)
    else roundF64 (decide (v < 0)) v.natAbs 1 k

/-- Go: `x / y` on `float64`. -/
def div : F64 → F64 → F64
  | nan, _ => nan
  | _, nan => nan
  | inf _, inf _ => nan
  | inf s, fin t _ _ => inf (s != t)
  | fin s _ _, inf t => fin (s != t) 0 (-1074)
  | fin s m e, fin t n f =>
    if n = 0 then (if m = 0 then nan else inf (s != t))
    else roundF64 (s != t) m n (e - f)

/-- Go: `x >= y` on `float64`. -/
def ge : F64 → F64 → Bool
  | nan, _ => false
  | _, nan => false
  | inf s, inf t => !s || t
  | inf s, fin _ _ _ => !s
  | fin _ _ _, inf t => t
  | fin s m e, fin t n f =>
    let k := min e f
    decide (scaled k s m e ≥ scaled k t n f)

/-- Go: the value of an `int` sum, which wraps at 64 bits. -/
def wrapInt64 (x : Int) : Int := (x + 2 ^ 63) % 2 ^ 64 - 2 ^ 63

/-- Go: `math.Ldexp(x, k)`, that is `x * 2^k`. The library adds `k` and the
binary exponent of `x` as `int`s, so the sum wraps; below -1075 the result is
a zero and above 1023 an infinity. -/
def ldexp : F64 → Int → F64
  | nan, _ => nan
  | inf s, _ => inf s
  | fin s m e, k =>
    if m = 0 then fin s m e
    else
      let ex := floorLog2 m 1 + e
      let exp := wrapInt64 (k + ex)
      if exp < -1075 then fin s 0 (-1074)
      else if exp > 1023 then inf s
      else roundF64 s m 1 (e + (exp - ex))

end F64

/-- Digits of `n`, padded with zeros on the left to `width` characters. -/
def zeroPad (width n : Nat) : String :=
  String.mk (List.replicate (width - (Nat.repr n).length) '0') ++ Nat.repr n

/-- Go: `fmt.Sprintf("%.<prec>f", x)`: the exact value rounded to `prec`
decimals, ties to even. -/
def formatFloat (prec : Nat) : F64 → String
  | F64.nan => "NaN"
  | F64.inf false => "+Inf"
  | F64.inf true => "-Inf"
  | F64.fin neg m e =>
    let num := if e ≥ 0 then m * 2 ^ e.toNat else m
    let den := if e ≥ 0 then 1 else 2 ^ (-e).toNat
    let q := roundHalfEven (num * 10 ^ prec) den
    (if neg then "-" else "") ++ Nat.repr (q / 10 ^ prec) ++
      (if prec = 0 then "" else "." ++ zeroPad prec (q % 10 ^ prec))

/-! ## `strconv.ParseFloat` -/

/-- Go: `lower(c)` of `strconv`, `c | ('x' - 'X')` on an ASCII byte. The bytes
of a code point above ASCII never equal a letter or a digit. -/
def lower (c : Char) : Char :=
  if c.toNat < 0x80 then Char.ofNat (c.toNat ||| 0x20) else c

/-- Go: `commonPrefixLenIgnoreCase(s, prefix)`, `pre` being in lower case. -/
def commonPrefixLenIgnoreCase : List Char → List Char → Nat
  | c :: s, p :: pre =>
    let c1 := if 0x41 ≤ c.toNat ∧ c.toNat ≤ 0x5a then Char.ofNat (c.toNat + 0x20) else c
    if c1 = p then commonPrefixLenIgnoreCase s pre + 1 else 0
  | _, _ => 0

/-- Go: `special(s)`: the value and the number of characters read when `s`
starts with an infinity or a NaN. -/
def special (s : List Char) : Option (F64 × Nat) :=
  match s with
  | [] => none
  | c :: rest =>
    if c = '+' ∨ c = '-' then
      let n := commonPrefixLenIgnoreCase rest "infinity".data
      let n := if 3 < n ∧ n < 8 then 3 else n
      if n = 3 ∨ n = 8 then some (F64.inf (c = '-'), 1 + n) else none
    else if c = 'i' ∨ c = 'I' then
      let n := commonPrefixLenIgnoreCase s "infinity".data
      let n := if 3 < n ∧ n < 8 then 3 else n
      if n = 3 ∨ n = 8 then some (F64.inf false, n) else none
    else if c = 'n' ∨ c = 'N' then
      if commonPrefixLenIgnoreCase s "nan".data = 3 then some (F64.nan, 3) else none
    else none

/-- Go: the character classes of `underscoreOK`. -/
inductive Saw where
  | start
  | digit
  | underscore
  | other
  deriving DecidableEq

/-- The loop of `underscoreOK`. -/
def underscoreOK_loop (hex : Bool) : Saw → List Char → Bool
  | saw, [] => saw ≠ Saw.underscore
  | saw, c :: s =>
    if (0x30 ≤ c.toNat ∧ c.toNat ≤ 0x39) ∨
        (hex = true ∧ 0x61 ≤ (lower c).toNat ∧ (lower c).toNat ≤ 0x66) then
      underscoreOK_loop hex Saw.digit s
    else if c = '_' then
      if saw ≠ Saw.digit then false else underscoreOK_loop hex Saw.underscore s
    else if saw = Saw.underscore then false
    else underscoreOK_loop hex Saw.other s

/-- Go: `underscoreOK(s)`. -/
def underscoreOK (s : List Char) : Bool :=
  let s :=
    match s with
    | c :: rest => if c = '-' ∨ c = '+' then rest else s
    | [] => s
  match s with
  | c0 :: c1 :: rest =>
    if c0 = '0' ∧ (lower c1 = 'b' ∨ lower c1 = 'o' ∨ lower c1 = 'x') then
      underscoreOK_loop (lower c1 = 'x') Saw.digit rest
    else underscoreOK_loop false Saw.start s
  | _ => underscoreOK_loop false Saw.start s

/-- The variables of the mantissa loop of `readFloat`. The mantissa keeps
every digit: where Go cuts it off after nineteen digits it remembers that it
did and rounds the full decimal instead. -/
structure Mantissa where
  mant : Nat
  nd : Nat
  dp : Int
  sawdot : Bool
  sawdigits : Bool
  underscores : Bool

/-- The mantissa loop of `readFloat`; returns the variables and the text left. -/
def readMantissa (base : Nat) : Mantissa → List Char → Mantissa × List Char
  | st, [] => (st, [])
  | st, c :: s =>
    if c = '_' then readMantissa base { st with underscores := true } s
    else if c = '.' then
      if st.sawdot then (st, c :: s)
      else readMantissa base { st with sawdot := true, dp := st.nd } s
    else if 0x30 ≤ c.toNat ∧ c.toNat ≤ 0x39 then
      if c = '0' ∧ st.nd = 0 then
        readMantissa base { st with sawdigits := true, dp := st.dp - 1 } s
      else
        readMantissa base
          { st with sawdigits := true, nd := st.nd + 1, mant := st.mant * base + (c.toNat - 0x30) } s
    else if base = 16 ∧ 0x61 ≤ (lower c).toNat ∧ (lower c).toNat ≤ 0x66 then
      readMantissa base
        { st with sawdigits := true, nd := st.nd + 1,
                  mant := st.mant * 16 + ((lower c).toNat - 0x61 + 10) } s
    else (st, c :: s)

/-- The exponent digits of `readFloat`: `e` stops growing at 10000. Returns
`e`, whether an underscore was seen, and the text left. -/
def readExponent : Nat → Bool → List Char → Nat × Bool × List Char
  | e, u, [] => (e, u, [])
  | e, u, c :: s =>
    if c = '_' then readExponent e true s
    else if 0x30 ≤ c.toNat ∧ c.toNat ≤ 0x39 then
      readExponent (if e < 10000 then e * 10 + (c.toNat - 0x30) else e) u s
    else (e, u, c :: s)

/-- What `readFloat` reads: the sign, the base, the mantissa as a natural
number and the exponent of the base (ten, or two for a hexadecimal mantissa)
to multiply it with. -/
structure Literal where
  neg : Bool
  hex : Bool
  mant : Nat
  exp : Int
  deriving DecidableEq

/-- Go: `i+2 < len(s) && s[i] == '0' && lower(s[i+1]) == 'x'`, the test of
`readFloat` for a hexadecimal mantissa. -/
def hasHexPrefix : List Char → Bool
  | c0 :: c1 :: _ :: _ => decide (c0 = '0' ∧ lower c1 = 'x')
  | _ => false

/-- The exponent part of `readFloat`, entered where the mantissa loop has
stopped: the position of the point with the exponent added, whether an
underscore was seen, and the text left; `none` where `readFloat` returns with
`ok = false`. -/
def readFloat_exponent (hex : Bool) (dp : Int) (underscores : Bool) (rest : List Char) :
    Option (Int × Bool × List Char) :=
  match rest with
  | c :: s1 =>
    if lower c = (if hex then 'p' else 'e') then
      match s1 with
      | [] => none
      | c1 :: s2 =>
        let esign : Int := if c1 = '-' then -1 else 1
        let s3 := if c1 = '+' ∨ c1 = '-' then s2 else c1 :: s2
        match s3 with
        | [] => none
        | c2 :: _ =>
          if 0x30 ≤ c2.toNat ∧ c2.toNat ≤ 0x39 then
            let x := readExponent 0 underscores s3
            some (dp + (x.1 : Int) * esign, x.2.1, x.2.2)
          else none
    else if hex then none
    else some (dp, underscores, rest)
  | [] => if hex then none else some (dp, underscores, [])

/-- Go: `readFloat(s)`; `none` when it reports `ok = false`. Returns the
literal and the text left after it. -/
def readFloat (s : List Char) : Option (Literal × List Char) :=
  let full := s
  let neg := decide (s.head? = some '-')
  let s := if s.head? = some '+' ∨ s.head? = some '-' then s.tail else s
  let hex := hasHexPrefix s
  let s := if hex then s.drop 2 else s
  let base := if hex then 16 else 10
  let r := readMantissa base ⟨0, 0, 0, false, false, false⟩ s
  let st := r.1
  if !st.sawdigits then none
  else
    let dp : Int := if st.sawdot then st.dp else st.nd
    let dp : Int := if hex then dp * 4 else dp
    let ndMant : Int := if hex then st.nd * 4 else st.nd
    match readFloat_exponent hex dp st.underscores r.2 with
    | none => none
    | some (dp, underscores, left) =>
      let read := full.take (full.length - left.length)
      if underscores ∧ !underscoreOK read then none
      else some (⟨neg, hex, st.mant, dp - ndMant⟩, left)

/-- Go: `strconv.ParseFloat(s, 64)`; `none` when it returns an error (a syntax
error, or a range error for a value that rounds to an infinity). -/
def parseFloat (s : List Char) : Option F64 :=
  match special s with
  | some (v, n) => if n = s.length then some v else none
  | none =>
    match readFloat s with
    | some (lit, []) =>
      let v :=
        if lit.hex then roundF64 lit.neg lit.mant 1 lit.exp
        else if lit.exp ≥ 0 then roundF64 lit.neg (lit.mant * 10 ^ lit.exp.toNat) 1 0
        else roundF64 lit.neg lit.mant (10 ^ (-lit.exp).toNat) 0
      match v with
      | F64.fin _ _ _ => some v
      | _ => none
    | _ => none

/-- Go: `strconv.Atoi(s)`; `none` when it returns an error. -/
def atoi (s : List Char) : Option Int :=
  let neg := decide (s.head? = some '-')
  let digits := if s.head? = some '+' ∨ s.head? = some '-' then s.tail else s
  if digits = [] ∨ !digits.all (fun c => 0x30 ≤ c.toNat ∧ c.toNat ≤ 0x39) then none
  else
    let n : Nat := digits.foldl (fun acc c => acc * 10 + (c.toNat - 0x30)) 0
    let v : Int := if neg then -(n : Int) else (n : Int)
    if -(2 : Int) ^ 63 ≤ v ∧ v < (2 : Int) ^ 63 then some v else none

/-! ## `fmt.Sscanf` -/

/-- The scanner of `fmt`: the token being collected and the input left. -/
structure Scanner where
  buf : List Char
  input : List Char

/-- Go: `(*ss).accept(ok)`: reads the next character into the token when it
is one of `ok`. -/
def accept (ok : List Char) (s : Scanner) : Bool × Scanner :=
  match s.input with
  | [] => (false, s)
  | c :: rest => if c ∈ ok then (true, ⟨s.buf ++ [c], rest⟩) else (false, s)

/-- Go: `for s.accept(ok) { }`. -/
def acceptAll (ok : List Char) : List Char → List Char → Scanner
  | buf, [] => ⟨buf, []⟩
  | buf, c :: rest => if c ∈ ok then acceptAll ok (buf ++ [c]) rest else ⟨buf, c :: rest⟩

/-- Go: `s.accept(a) && s.accept(b) && s.accept(c)`: what one of the three
calls reads stays read when a later one fails. -/
def accept3 (a b c : List Char) (s : Scanner) : Bool × Scanner :=
  let r1 := accept a s
  let r2 := if r1.1 then accept b r1.2 else (false, r1.2)
  if r2.1 then accept c r2.2 else (false, r2.2)

/-- The part of `(*ss).floatToken()` that reads the digits, the fraction and
the exponent. -/
def floatDigits (s : Scanner) : Scanner :=
  let z := accept "0".data s
  let x := if z.1 then accept "xX".data z.2 else (false, z.2)
  let digits := if x.1 then "0123456789aAbBcCdDeEfF_".data else "0123456789_".data
  let exp := if x.1 then "pP".data else "eEpP".data
  let s2 := acceptAll digits x.2.buf x.2.input
  let dot := accept ".".data s2
  let s3 := if dot.1 then acceptAll digits dot.2.buf dot.2.input else dot.2
  let ex := accept exp s3
  if ex.1 then
    let sg := (accept "+-".data ex.2).2
    acceptAll "0123456789_".data sg.buf sg.input
  else ex.2

/-- Go: `(*ss).floatToken()`; returns the token and the input left. -/
def floatToken (input : List Char) : List Char × List Char :=
  let n := accept3 "nN".data "aA".data "nN".data ⟨[], input⟩
  if n.1 then (n.2.buf, n.2.input)
  else
    let s1 := (accept "+-".data n.2).2
    let i := accept3 "iI".data "nN".data "fF".data s1
    if i.1 then (i.2.buf, i.2.input)
    else
      let s2 := floatDigits i.2
      (s2.buf, s2.input)

/-- Go: `(*ss).convertFloat(str, 64)`; `none` when it raises a scan error. -/
def convertFloat (str : List Char) : Option F64 :=
  if 'p' ∈ str ∧ !(str.any (fun c => c = 'x' ∨ c = 'X')) then
    match parseFloat (str.takeWhile (fun c => c ≠ 'p')) with
    | none => none
    | some f =>
      match atoi ((str.dropWhile (fun c => c ≠ 'p')).drop 1) with
      | none => none
      | some m => some (F64.ldexp f m)
  else parseFloat str

/-- Go: `(*ss).SkipSpace()` when a newline is not a space (`Sscanf`); `none`
when it raises "unexpected newline". -/
def skipSpace : List Char → Option (List Char)
  | [] => some []
  | c :: rest =>
    if c = '\n' then none
    else if isSpace c then skipSpace rest
    else some (c :: rest)

/-- The verb `%f` with a `*float64` operand: the value and the input left,
`none` on a scan error. -/
def scanFloat (input : List Char) : Option (F64 × List Char) :=
  match skipSpace input with
  | none => none
  | some [] => none
  | some (c :: rest) =>
    let t := floatToken (c :: rest)
    match convertFloat t.1 with
    | none => none
    | some v => some (v, t.2)

/-- Go: `for isSpace(inputc) && inputc != '\n' { inputc = s.getRune() }`,
the character that ends the run being put back. -/
def skipBlanks : List Char → List Char
  | [] => []
  | c :: rest => if isSpace c ∧ c ≠ '\n' then skipBlanks rest else c :: rest

/-- Go: `(*ss).advance` on the blank of the format `"%f %s"`: the input must
go on with a space other than a newline, or end. -/
def advanceBlank : List Char → Option (List Char)
  | [] => some []
  | c :: rest =>
    if !isSpace c then none
    else if c = '\n' then none
    else some (skipBlanks rest)

/-- The verb `%s` with a `*string` operand: the word read and the input left,
`none` on a scan error. -/
def scanString (input : List Char) : Option (List Char × List Char) :=
  match skipSpace input with
  | none => none
  | some [] => none
  | some (c :: rest) =>
    some ((c :: rest).takeWhile (fun r => !isSpace r), (c :: rest).dropWhile (fun r => !isSpace r))

/-- Go: `fmt.Sscanf(size, "%f %s", &value, &unit)` with `value` and `unit` at
their zero values: what the two variables hold afterwards. The error `Sscanf`
returns is dropped by the caller; an operand that was not reached keeps its
zero value. The limit of 2^30 characters per operand is not modelled. -/
def sscanfSize (input : List Char) : F64 × String :=
  match scanFloat input with
  | none => (F64.zero, "")
  | some (value, rest) =>
    match advanceBlank rest with
    | none => (value, "")
    | some rest1 =>
      match scanString rest1 with
      | none => (value, "")
      | some (unit, _) => (value, String.mk unit)

/-! ## The program -/

def KB : Nat := 1024
def MB : Nat := 1024 * KB
def GB : Nat := 1024 * MB

/-- Go: `File`. -/
structure File where
  URL : String
  Size : String
  deriving DecidableEq, Inhabited

/-- Go: the type of the field `Model.Files`; `Proj` is `none` for a nil pointer. -/
structure Files where
  Models : List File
  Proj : Option File
  deriving DecidableEq, Inhabited

/-- Go: the type of the field `Model.Capabilities`. -/
structure Capabilities where
  Streaming : Bool
  Reasoning : Bool
  Audio : Bool
  Video : Bool
  Tooling : Bool
  Images : Bool
  Embedding : Bool
  Rerank : Bool
  deriving DecidableEq, Inhabited

/-- Go: a `time.Time`, seen through the calendar date that `Time.Date`
returns for it (in the time's own location). -/
structure Time where
  year : Int
  month : Nat
  day : Nat
  deriving DecidableEq

/-- The zero value of `time.Time`: January 1 of the year 1. -/
instance : Inhabited Time := ⟨⟨1, 1, 1⟩⟩

/-- Go: the type of the field `Model.Metadata`. -/
structure Metadata where
  Created : Time
  Description : String
  deriving DecidableEq, Inhabited

/-- Go: the type of the field `Model.Config`; `ContextWindow` is a Go `int`. -/
structure Config where
  ContextWindow : Int
  deriving DecidableEq, Inhabited

/-- Go: `Model`. -/
structure Model where
  ID : String
  Category : String
  OwnedBy : String
  GatedModel : Bool
  WebPage : String
  Files : Files
  Capabilities : Capabilities
  Metadata : Metadata
  Config : Config
  deriving DecidableEq, Inhabited

/-- Go: `Catalog`; the field `Name` is Go's `Catalog.Catalog`. -/
structure Catalog where
  Name : String
  Models : List Model
  deriving DecidableEq, Inhabited

/-- Go: `parseSizeToBytes(size)`. -/
def parseSizeToBytes (table : Char → Char) (size : String) : F64 :=
  let size := trimSpace size
  let scanned := sscanfSize size.data
  let value := scanned.1
  let unit := toLower table scanned.2
  if unit = "GB" ∨ unit = "gb" then F64.mul value (F64.ofNat GB)
  else if unit = "MB" ∨ unit = "mb" then F64.mul value (F64.ofNat MB)
  else if unit = "kib" ∨ unit = "kb" then F64.mul value (F64.ofNat KB)
  else value

/-- The sum that `calculateTotalSize` forms in `totalBytes`. -/
def totalBytes (table : Char → Char) (files : Files) : F64 :=
  let total :=
    files.Models.foldl (fun acc model => F64.add acc (parseSizeToBytes table model.Size)) F64.zero
  match files.Proj with
  | some proj => F64.add total (parseSizeToBytes table proj.Size)
  | none => total

/-- Go: `calculateTotalSize(files)`. -/
def calculateTotalSize (table : Char → Char) (files : Files) : String :=
  let total := totalBytes table files
  if F64.ge total (F64.ofNat GB) then formatFloat 1 (F64.div total (F64.ofNat GB)) ++ " GB"
  else formatFloat 0 (F64.div total (F64.ofNat MB)) ++ " MB"

/-- Go: `boolToMark(b)`. -/
def boolToMark (b : Bool) : String := if b then "✓" else ""

/-- Go: `fmt.Sprintf("%d", n)` on an `int`. -/
def formatInt : Int → String
  | Int.ofNat n => Nat.repr n
  | Int.negSucc n => "-" ++ Nat.repr (n + 1)

/-- Go: `formatContextWindow(size)`; `size/KB` on `int` rounds towards zero. -/
def formatContextWindow (size : Int) : String :=
  if size = 0 then "-"
  else if size ≥ (KB : Int) then formatInt (Int.tdiv size (KB : Int)) ++ "K"
  else formatInt size

/-- Go: `formatDescription(desc)`; `strings.ReplaceAll(desc, "\n", " ")` turns
every newline into a blank. -/
def formatDescription (desc : String) : String :=
  if desc = "" then ""
  else
    let desc := trimSpace desc
    let desc := String.mk (desc.data.map (fun c => if c = '\n' then ' ' else c))
    "<details><summary>Show</summary>" ++ desc ++ "</details>"

/-- Go: `t.Format("2006-01-02")`. -/
def formatDate (t : Time) : String :=
  (match t.year with
    | Int.ofNat y => zeroPad 4 y
    | Int.negSucc y => "-" ++ zeroPad 4 (y + 1)) ++
    "-" ++ zeroPad 2 t.month ++ "-" ++ zeroPad 2 t.day

/-- The line that one iteration of the row loop of `main` writes:
`fmt.Fprintf(f, "| %s | %s | ... | %s |\n", id, category, ..., video)`. -/
def renderRow (table : Char → Char) (model : Model) : String :=
  let id := "[" ++ model.ID ++ "](" ++ model.WebPage ++ ")"
  let category := model.Category
  let owner := model.OwnedBy
  let size := calculateTotalSize table model.Files
  let context := formatContextWindow model.Config.ContextWindow
  let created := formatDate model.Metadata.Created
  let description := formatDescription model.Metadata.Description
  let audio := boolToMark model.Capabilities.Audio
  let gated := boolToMark model.GatedModel
  let reason := boolToMark model.Capabilities.Reasoning
  let stream := boolToMark model.Capabilities.Streaming
  let tool := boolToMark model.Capabilities.Tooling
  let video := boolToMark model.Capabilities.Video
  "| " ++ id ++ " | " ++ category ++ " | " ++ owner ++ " | " ++ size ++ " | " ++ context ++
    " | " ++ created ++ " | " ++ description ++ " | " ++ audio ++ " | " ++ gated ++ " | " ++
    reason ++ " | " ++ stream ++ " | " ++ tool ++ " | " ++ video ++ " |\n"

/-- The four lines that `main` writes before the rows. -/
def header : String :=
  "# Model Catalog\n" ++ "\n" ++
  "| ID | Category | Owner | Size | Context | Created | Description | a<br>u<br>d<br>i<br>o | g<br>a<br>t<br>e<br>d | r<br>e<br>a<br>s<br>o<br>n | s<br>t<br>r<br>e<br>a<br>m | t<br>o<br>o<br>l | v<br>i<br>d<br>e<br>o |\n" ++
  "|---|---|---|---|---|---|---|:---:|:---:|:---:|:---:|:---:|:---:|\n"

/-- The rows of the document, one for each model, in the order of the list. -/
def renderRows (table : Char → Char) (models : List Model) : List String :=
  models.map (renderRow table)

/-- The document that `main` writes for the sorted models. -/
def render (table : Char → Char) (models : List Model) : String :=
  header ++ String.join (renderRows table models)

/-- What `os.ReadFile` and `yaml.Unmarshal` make of one file of the catalog
directory. -/
inductive Source where
  | unreadable : Source
  | malformed : Source
  | parsed (catalog : Catalog) : Source

/-- The loop `for _, file := range files` of `main`: the models gathered, or
`none` when a file makes the program exit. -/
def loadModels : List Source → List Model → Option (List Model)
  | [], allModels => some allModels
  | Source.parsed catalog :: files, allModels => loadModels files (allModels ++ catalog.Models)
  | Source.unreadable :: _, _ => none
  | Source.malformed :: _, _ => none

/-- The comparison that `main` hands to `sort.Slice`. -/
def modelLess (table : Char → Char) (x y : Model) : Bool :=
  stringLess (toLower table x.ID) (toLower table y.ID)

/-- The models in the order in which `main` renders them. -/
def sortModels (table : Char → Char) (allModels : List Model) : List Model :=
  sortSlice (modelLess table) allModels

/-- What a run of `main` leaves behind: the exit status, the content of the
output file (`none` when there is no such file) and what was printed. -/
structure Run where
  exitCode : Nat
  outputFile : Option String
  stdout : String
  deriving DecidableEq

/-- Go: `main()`. `glob` is the result of `filepath.Glob` (`none` for an
error) with what reading and decoding each file gives, in the order of the
enumeration; `canCreate` tells whether `os.Create` succeeds; `before` is the
output file before the run. -/
def main (table : Char → Char) (glob : Option (List Source)) (canCreate : Bool)
    (before : Option String) : Run :=
  match glob with
  | none => ⟨1, before, ""⟩
  | some files =>
    match loadModels files [] with
    | none => ⟨1, before, ""⟩
    | some allModels =>
      let allModels := sortModels table allModels
      if canCreate then
        ⟨0, some (render table allModels),
          "Generated CATALOG.md with " ++ Nat.repr allModels.length ++ " models\n"⟩
      else ⟨1, before, ""⟩

/-! ## Notions used in the statements about `sort.Slice` -/

section SortDefs
variable {α : Type} [Inhabited α] (lt : α → α → Bool)

/-- The comparison is a strict weak order: it is asymmetric, and "not less"
is transitive. -/
structure StrictWeakOrder (lt : α → α → Bool) : Prop where
  asymm : ∀ x y, lt x y = true → lt y x = false
  ntrans : ∀ x y z, lt x y = false → lt y z = false → lt x z = false

/-- `data1` is a permutation of `data` that leaves the elements outside
`[a, b)` in place and fills `[a, b)` with elements of `data[a:b]`. -/
def Frame (data data1 : List α) (a b : Nat) : Prop :=
  data1.Perm data ∧
  (∀ k, k < a ∨ b ≤ k → get data1 k = get data k) ∧
  (∀ k, a ≤ k → k < b → ∃ k0, a ≤ k0 ∧ k0 < b ∧ get data1 k = get data k0)

/-- No element of `data[a:b]` is less than an element before it in `data[a:b]`. -/
def SortedOn (data : List α) (a b : Nat) : Prop :=
  ∀ p q, a ≤ p → p < q → q < b → lt (get data q) (get data p) = false

end SortDefs

section PartitionDefs
variable {α : Type} [Inhabited α] (lt : α → α → Bool)

/-- The state of the scans of `partition_func`: the pivot is at `a`, the
elements of `[a + 1, i)` are less than it, those of `(j, b)` are not. -/
def PartInv (data : List α) (a b i j : Nat) : Prop :=
  a + 1 ≤ i ∧ i ≤ j + 1 ∧ j < b ∧ b ≤ data.length ∧
  (∀ k, a + 1 ≤ k → k < i → lt (get data k) (get data a) = true) ∧
  (∀ k, j < k → k < b → lt (get data k) (get data a) = false)

/-- The scans of `partition_func` have met at `j`. -/
def PartPost (data : List α) (a b j : Nat) : Prop :=
  a ≤ j ∧ j < b ∧
  (∀ k, a + 1 ≤ k → k ≤ j → lt (get data k) (get data a) = true) ∧
  (∀ k, j < k → k < b → lt (get data k) (get data a) = false)

end PartitionDefs

section PartitionEqualDefs
variable {α : Type} [Inhabited α] (lt : α → α → Bool)

/-- The state of the scans of `partitionEqual_func`: the pivot is at `a`, it is
not less than the elements of `[a + 1, i)` and less than those of `(j, b)`. -/
def PartEqInv (data : List α) (a b i j : Nat) : Prop :=
  a + 1 ≤ i ∧ i ≤ j + 1 ∧ j < b ∧ b ≤ data.length ∧
  (∀ k, a + 1 ≤ k → k < i → lt (get data a) (get data k) = false) ∧
  (∀ k, j < k → k < b → lt (get data a) (get data k) = true)

/-- The scans of `partitionEqual_func` have met before `m`. -/
def PartEqPost (data : List α) (a b m : Nat) : Prop :=
  a + 1 ≤ m ∧ m ≤ b ∧
  (∀ k, a + 1 ≤ k → k < m → lt (get data a) (get data k) = false) ∧
  (∀ k, m ≤ k → k < b → lt (get data a) (get data k) = true)

end PartitionEqualDefs

section BoundDefs
variable {α : Type} [Inhabited α] (lt : α → α → Bool)

/-- No element of `data[a:b]` is less than an element before `a`. -/
def LowerBnd (data : List α) (a b : Nat) : Prop :=
  ∀ k i, k < a → a ≤ i → i < b → lt (get data i) (get data k) = false

end BoundDefs

section HeapDefs
variable {α : Type} [Inhabited α] (lt : α → α → Bool)

/-- In the heap `data[first : first + hi]`, no node from `lo` on is less than
one of its children. -/
def Heap (data : List α) (first hi lo : Nat) : Prop :=
  ∀ k c, lo ≤ k → (c = 2 * k + 1 ∨ c = 2 * k + 2) → c < hi →
    lt (get data (first + k)) (get data (first + c)) = false

/-- As `Heap`, but for the node `r`. -/
def HeapExcept (data : List α) (first hi lo r : Nat) : Prop :=
  ∀ k c, lo ≤ k → k ≠ r → (c = 2 * k + 1 ∨ c = 2 * k + 2) → c < hi →
    lt (get data (first + k)) (get data (first + c)) = false

/-- The parent of `r`, when it is a node from `lo` on, is not less than the
children of `r`. -/
def HeapSkip (data : List α) (first hi lo r : Nat) : Prop :=
  ∀ p c, lo ≤ p → (r = 2 * p + 1 ∨ r = 2 * p + 2) → (c = 2 * r + 1 ∨ c = 2 * r + 2) → c < hi →
    lt (get data (first + p)) (get data (first + c)) = false

end HeapDefs

section CounterexampleDefs

/-- A catalog document with the one model `a`. -/
def docLower : Catalog := ⟨"one", [{ (default : Model) with ID := "a" }]⟩

/-- A catalog document with the one model `A`. -/
def docUpper : Catalog := ⟨"two", [{ (default : Model) with ID := "A" }]⟩

/-- A catalog document with the one model `b`. -/
def docOther : Catalog := ⟨"three", [{ (default : Model) with ID := "b" }]⟩

end CounterexampleDefs

section StabilityDefs

/-- The records of a list whose identifier in lower case is `key`, in the
order of the list. -/
def recordsWithKey (table : Char → Char) (key : String) (models : List Model) : List Model :=
  models.filter (fun m => decide (toLower table m.ID = key))

/-- A model with the given identifier and category, all else at the zero value. -/
def modelOf (id category : String) : Model :=
  { (default : Model) with ID := id, Category := category }

/-- Thirteen records, eleven of them with the identifier `b`. -/
def thirteenRecords : List Model :=
  [modelOf "a" "0", modelOf "c" "1", modelOf "b" "2", modelOf "b" "3", modelOf "b" "4",
    modelOf "b" "5", modelOf "b" "6", modelOf "b" "7", modelOf "b" "8", modelOf "b" "9",
    modelOf "b" "10", modelOf "b" "11", modelOf "b" "12"]

end StabilityDefs

section ScanDefs

/-- The scanner with `rest` added to the end of its input. -/
def Scanner.extend (rest : List Char) (s : Scanner) : Scanner := ⟨s.buf, s.input ++ rest⟩

/-- The characters that `floatToken` accepts at one place or another. -/
def floatChars : List Char := "nNaAiIfF+-0123456789bBcCdDeE_xX.pP".data

end ScanDefs

section TotalDefs

/-- The byte values that `calculateTotalSize` adds up, in the order in which it
adds them: one for every entry of the manifest, then one for the project file
when there is one. -/
def byteValues (table : Char → Char) (files : Files) : List F64 :=
  files.Models.map (fun model => parseSizeToBytes table model.Size) ++
    (match files.Proj with
      | some proj => [parseSizeToBytes table proj.Size]
      | none => [])

end TotalDefs

section MalformedDefs

/-- The first whitespace-separated token of a text. -/
def firstToken (s : List Char) : List Char :=
  (s.dropWhile isSpace).takeWhile (fun c => !isSpace c)

/-- A text without the sign it starts with, if it starts with one. -/
def dropSign : List Char → List Char
  | [] => []
  | c :: rest => if c = '+' ∨ c = '-' then rest else c :: rest

/-- A decimal digit. -/
def isDigit (c : Char) : Bool := decide (0x30 ≤ c.toNat ∧ c.toNat ≤ 0x39)

/-- The text starts with a digit, or with a point and a digit. -/
def digitsAhead : List Char → Bool
  | c :: d :: _ => isDigit c || (c == '.' && isDigit d)
  | [c] => isDigit c
  | [] => false

/-- The text begins with a number: after the sign, if there is one, comes a
digit, or a point and a digit. -/
def beginsWithNumber (s : List Char) : Bool := digitsAhead (dropSign s)

/-- The text begins with `NaN`, or with `Inf` after the sign if there is one,
in any letter case. -/
def beginsWithSpecial (s : List Char) : Bool :=
  commonPrefixLenIgnoreCase s "nan".data == 3 ||
    commonPrefixLenIgnoreCase (dropSign s) "inf".data == 3

end MalformedDefs

section FloatDefs

/-- The form of the values that the operations on `float64` produce: the
mantissa is below 2^53, the exponent between -1074 and 971, and the mantissa
is at least 2^52 unless the exponent is -1074. -/
def F64.Valid : F64 → Prop
  | F64.nan => True
  | F64.inf _ => True
  | F64.fin _ m e => m < 2 ^ 53 ∧ -1074 ≤ e ∧ e ≤ 971 ∧ (e = -1074 ∨ 2 ^ 52 ≤ m)

/-- A value of that form other than negative zero. -/
def F64.Settled (x : F64) : Prop := x.Valid ∧ x ≠ F64.fin true 0 (-1074)

end FloatDefs

section RowDefs

/-- The thirteen operands of the `Fprintf` of the row loop of `main`, in the
order in which they are passed. -/
def rowCells (table : Char → Char) (model : Model) : List String :=
  ["[" ++ model.ID ++ "](" ++ model.WebPage ++ ")",
    model.Category,
    model.OwnedBy,
    calculateTotalSize table model.Files,
    formatContextWindow model.Config.ContextWindow,
    formatDate model.Metadata.Created,
    formatDescription model.Metadata.Description,
    boolToMark model.Capabilities.Audio,
    boolToMark model.GatedModel,
    boolToMark model.Capabilities.Reasoning,
    boolToMark model.Capabilities.Streaming,
    boolToMark model.Capabilities.Tooling,
    boolToMark model.Capabilities.Video]

/-- The names of the columns in the header row that `main` writes. -/
def columnNames : List String :=
  ["ID", "Category", "Owner", "Size", "Context", "Created", "Description",
    "a<br>u<br>d<br>i<br>o", "g<br>a<br>t<br>e<br>d", "r<br>e<br>a<br>s<br>o<br>n",
    "s<br>t<br>r<br>e<br>a<br>m", "t<br>o<br>o<br>l", "v<br>i<br>d<br>e<br>o"]

end RowDefs

section LineDefs

/-- The lines of a text: what stands before each newline, and what follows
the last newline when that is not empty. -/
def splitLines : List Char → List (List Char)
  | [] => []
  | c :: rest =>
    if c = '\n' then [] :: splitLines rest
    else
      match splitLines rest with
      | [] => [[c]]
      | line :: lines => (c :: line) :: lines

/-- The row of a model without the newline that ends it. -/
def rowLine (table : Char → Char) (model : Model) : String :=
  "| " ++ String.intercalate " | " (rowCells table model) ++ " |"

/-- The header row without the newline that ends it. -/
def headerLine : String := "| " ++ String.intercalate " | " columnNames ++ " |"

/-- The separator row without the newline that ends it. -/
def separatorLine : String :=
  "|" ++ String.intercalate "|" (List.replicate 7 "---" ++ List.replicate 6 ":---:") ++ "|"

end LineDefs

/-! # Properties

## `sort.Slice`: swaps and frames -/

section SortLemmas

variable {α : Type} [Inhabited α] (lt : α → α → Bool)

theorem get_eq_getElem (data : List α) (i : Nat) (h : i < data.length) :
    get data i = data[i] := by
  unfold get
  exact List.getD_eq_getElem _ _ h

theorem get_of_length_le (data : List α) (i : Nat) (h : data.length ≤ i) :
    get data i = default := by
  unfold get
  exact List.getD_eq_default _ _ h

@[simp] theorem length_swap (data : List α) (i j : Nat) :
    (swap data i j).length = data.length := by
  unfold swap
  split <;> simp

theorem get_swap (data : List α) (i j k : Nat) (hi : i < data.length) (hj : j < data.length) :
    get (swap data i j) k =
      if k = j then get data i else if k = i then get data j else get data k := by
  by_cases hk : k < data.length
  · rw [get_eq_getElem _ k (by rw [length_swap]; exact hk)]
    have hsw : swap data i j = (data.set i (get data j)).set j (get data i) := by
      unfold swap
      rw [if_pos ⟨hi, hj⟩]
    simp only [hsw, List.getElem_set]
    by_cases h1 : j = k
    · simp [h1]
    · by_cases h2 : i = k
      · rw [if_neg h1, if_pos h2, if_neg (Ne.symm h1), if_pos h2.symm]
      · rw [if_neg h1, if_neg h2, if_neg (Ne.symm h1), if_neg (Ne.symm h2),
          get_eq_getElem _ k hk]
  · have hkj : k ≠ j := by omega
    have hki : k ≠ i := by omega
    rw [if_neg hkj, if_neg hki, get_of_length_le _ _ (by rw [length_swap]; omega),
      get_of_length_le _ _ (by omega)]

theorem swap_perm (data : List α) (i j : Nat) : (swap data i j).Perm data := by
  classical
  unfold swap
  split
  · rename_i h
    obtain ⟨hi, hj⟩ := h
    rw [List.perm_iff_count]
    intro b
    have hx : get data i = data[i] := get_eq_getElem _ _ hi
    have hy : get data j = data[j] := get_eq_getElem _ _ hj
    rw [List.count_set _ _ _ _ (by simpa using hj), List.count_set _ _ _ _ hi, hx, hy]
    have hc : data[i] = b → 1 ≤ List.count b data := by
      intro h
      exact List.count_pos_iff.mpr (h ▸ List.getElem_mem _)
    have hc2 : data[j] = b → 1 ≤ List.count b data := by
      intro h
      exact List.count_pos_iff.mpr (h ▸ List.getElem_mem _)
    simp only [List.getElem_set, beq_iff_eq]
    by_cases hij : i = j
    · subst hij
      simp only [if_true]
      by_cases h1 : data[i] = b
      · have := hc h1
        simp [h1]; omega
      · simp [h1]
    · simp only [if_neg hij]
      by_cases h1 : data[i] = b <;> by_cases h2 : data[j] = b
      · have := hc h1
        simp [h1, h2]; omega
      · have := hc h1
        simp [h1, h2]; omega
      · have := hc2 h2
        simp [h1, h2]
      · simp [h1, h2]
  · exact List.Perm.refl _

theorem Frame.refl (data : List α) (a b : Nat) : Frame data data a b :=
  ⟨List.Perm.refl _, fun _ _ => rfl, fun k h1 h2 => ⟨k, h1, h2, rfl⟩⟩

theorem Frame.length {data data1 : List α} {a b : Nat} (h : Frame data data1 a b) :
    data1.length = data.length := h.1.length_eq

theorem Frame.trans {data data1 data2 : List α} {a b : Nat} (h1 : Frame data data1 a b)
    (h2 : Frame data1 data2 a b) : Frame data data2 a b := by
  refine ⟨h2.1.trans h1.1, fun k hk => (h2.2.1 k hk).trans (h1.2.1 k hk), fun k hk1 hk2 => ?_⟩
  obtain ⟨k1, h3, h4, h5⟩ := h2.2.2 k hk1 hk2
  obtain ⟨k0, h6, h7, h8⟩ := h1.2.2 k1 h3 h4
  exact ⟨k0, h6, h7, h5.trans h8⟩

theorem Frame.mono {data data1 : List α} {a b a0 b0 : Nat} (h : Frame data data1 a b)
    (ha : a0 ≤ a) (hb : b ≤ b0) : Frame data data1 a0 b0 := by
  refine ⟨h.1, fun k hk => h.2.1 k (by omega), fun k hk1 hk2 => ?_⟩
  by_cases hin : a ≤ k ∧ k < b
  · obtain ⟨k0, h3, h4, h5⟩ := h.2.2 k hin.1 hin.2
    exact ⟨k0, by omega, by omega, h5⟩
  · exact ⟨k, hk1, hk2, h.2.1 k (by omega)⟩

theorem frame_swap (data : List α) (a b i j : Nat) (hb : b ≤ data.length)
    (hi : a ≤ i) (hi1 : i < b) (hj : a ≤ j) (hj1 : j < b) :
    Frame data (swap data i j) a b := by
  refine ⟨swap_perm _ _ _, fun k hk => ?_, fun k hk1 hk2 => ?_⟩
  · rw [get_swap _ _ _ _ (by omega) (by omega), if_neg (by omega), if_neg (by omega)]
  · rw [get_swap _ _ _ _ (by omega) (by omega)]
    by_cases h1 : k = j
    · exact ⟨i, hi, hi1, by rw [if_pos h1]⟩
    · by_cases h2 : k = i
      · exact ⟨j, hj, hj1, by rw [if_neg h1, if_pos h2]⟩
      · exact ⟨k, hk1, hk2, by rw [if_neg h1, if_neg h2]⟩

/-- A property of all elements of `data[a:b]` carries over to a framed list. -/
theorem Frame.forall_range {data data1 : List α} {a b : Nat} (h : Frame data data1 a b)
    (P : α → Prop) (hP : ∀ k, a ≤ k → k < b → P (get data k)) :
    ∀ k, a ≤ k → k < b → P (get data1 k) := by
  intro k hk1 hk2
  obtain ⟨k0, h3, h4, h5⟩ := h.2.2 k hk1 hk2
  rw [h5]
  exact hP k0 h3 h4

/-- The inner loop of the insertion sort puts the element at `j` in its place. -/
theorem insertionSort_inner_spec (hw : StrictWeakOrder lt) (a i : Nat) :
    ∀ (j : Nat) (data : List α), a ≤ j → j ≤ i → i < data.length →
      (∀ p q, a ≤ p → p < q → q ≤ i → p ≠ j → q ≠ j → lt (get data q) (get data p) = false) →
      (∀ q, j < q → q ≤ i → lt (get data q) (get data j) = false) →
      Frame data (insertionSort_inner lt a data j) a (i + 1) ∧
        SortedOn lt (insertionSort_inner lt a data j) a (i + 1) := by
  intro j
  induction j with
  | zero =>
    intro data ha _ _ h1 h2
    have ha0 : a = 0 := by omega
    refine ⟨Frame.refl _ _ _, ?_⟩
    intro p q hp hpq hq
    simp only [insertionSort_inner]
    by_cases hp0 : p = 0
    · subst hp0
      exact h2 q (by omega) (by omega)
    · exact h1 p q hp hpq (by omega) hp0 (by omega)
  | succ j ih =>
    intro data ha hji hlen h1 h2
    simp only [insertionSort_inner]
    by_cases hc : j + 1 > a ∧ less lt data (j + 1) j = true
    · rw [if_pos hc]
      obtain ⟨hja, hless⟩ := hc
      simp only [less] at hless
      have hsw : ∀ k, get (swap data (j + 1) j) k =
          if k = j then get data (j + 1) else if k = j + 1 then get data j else get data k :=
        fun k => get_swap data (j + 1) j k (by omega) (by omega)
      have := ih (swap data (j + 1) j) (by omega) (by omega) (by simpa using hlen) ?_ ?_
      · exact ⟨(frame_swap data a (i + 1) (j + 1) j (by omega) (by omega) (by omega) (by omega)
          (by omega)).trans this.1, this.2⟩
      · intro p q hp hpq hq hpj hqj
        rw [hsw p, hsw q, if_neg hpj, if_neg hqj]
        by_cases hq1 : q = j + 1
        · rw [if_pos hq1, if_neg (by omega)]
          exact h1 p j hp (by omega) (by omega) (by omega) (by omega)
        · rw [if_neg hq1]
          by_cases hp1 : p = j + 1
          · rw [if_pos hp1]
            exact h1 j q (by omega) (by omega) hq (by omega) hq1
          · rw [if_neg hp1]
            exact h1 p q hp hpq hq hp1 hq1
      · intro q hjq hq
        rw [hsw q, hsw j, if_pos rfl, if_neg (by omega)]
        by_cases hq1 : q = j + 1
        · rw [if_pos hq1]
          exact hw.asymm _ _ hless
        · rw [if_neg hq1]
          exact h2 q (by omega) hq
    · rw [if_neg hc]
      refine ⟨Frame.refl _ _ _, ?_⟩
      intro p q hp hpq hq
      by_cases hqj : q = j + 1
      · subst hqj
        have hstop : j + 1 = a ∨ lt (get data (j + 1)) (get data j) = false := by
          by_cases hja : j + 1 > a
          · right
            by_contra hne
            exact hc ⟨hja, by simpa [less] using hne⟩
          · left; omega
        rcases hstop with hstop | hstop
        · omega
        · by_cases hpj : p = j
          · subst hpj; exact hstop
          · exact hw.ntrans _ _ _ hstop
              (h1 p j hp (by omega) (by omega) (by omega) (by omega))
      · by_cases hpj : p = j + 1
        · subst hpj
          exact h2 q (by omega) (by omega)
        · exact h1 p q hp hpq (by omega) hpj hqj

end SortLemmas

/-! ## `sort.Slice`: insertion sort and the scans -/

section InsertionSort

variable {α : Type} [Inhabited α] (lt : α → α → Bool)

theorem SortedOn.narrow {data : List α} {a b a0 b0 : Nat} (h : SortedOn lt data a b)
    (ha : a ≤ a0) (hb : b0 ≤ b) : SortedOn lt data a0 b0 :=
  fun p q hp hpq hq => h p q (by omega) hpq (by omega)

theorem insertionSort_outer_spec (hw : StrictWeakOrder lt) (a b : Nat) :
    ∀ (fuel : Nat) (data : List α) (i : Nat), a < i → b ≤ data.length → b - i ≤ fuel →
      SortedOn lt data a i →
      Frame data (insertionSort_outer lt a b fuel data i) a b ∧
        SortedOn lt (insertionSort_outer lt a b fuel data i) a b := by
  intro fuel
  induction fuel with
  | zero =>
    intro data i _ _ hf hs
    simp only [insertionSort_outer]
    exact ⟨Frame.refl _ _ _, hs.narrow lt (Nat.le_refl _) (by omega)⟩
  | succ fuel ih =>
    intro data i hai hb hf hs
    simp only [insertionSort_outer]
    by_cases hib : i < b
    · rw [if_pos hib]
      have hin := insertionSort_inner_spec lt hw a i i data (by omega) (Nat.le_refl _) (by omega)
        (fun p q hp hpq hq _ hqi => hs p q hp hpq (by omega))
        (fun q h1 h2 => by omega)
      have hlen := hin.1.length
      have hrec := ih (insertionSort_inner lt a data i) (i + 1) (by omega) (by omega) (by omega)
        hin.2
      exact ⟨(hin.1.mono (Nat.le_refl _) (by omega)).trans hrec.1, hrec.2⟩
    · rw [if_neg hib]
      exact ⟨Frame.refl _ _ _, hs.narrow lt (Nat.le_refl _) (by omega)⟩

/-- The insertion sort sorts `data[a:b]` in place. -/
theorem insertionSort_func_spec (hw : StrictWeakOrder lt) (data : List α) (a b : Nat)
    (hb : b ≤ data.length) :
    Frame data (insertionSort_func lt data a b) a b ∧
      SortedOn lt (insertionSort_func lt data a b) a b := by
  unfold insertionSort_func
  exact insertionSort_outer_spec lt hw a b (b - a) data (a + 1) (by omega) hb (by omega)
    (fun p q hp hpq hq => by omega)

end InsertionSort

section Scans

variable {α : Type} [Inhabited α] (lt : α → α → Bool)

theorem scanLess_spec (a j : Nat) (data : List α) :
    ∀ (fuel i : Nat), j + 1 - i ≤ fuel →
      i ≤ scanLess lt a j data fuel i ∧
      (i ≤ j + 1 → scanLess lt a j data fuel i ≤ j + 1) ∧
      (∀ k, i ≤ k → k < scanLess lt a j data fuel i → lt (get data k) (get data a) = true) ∧
      (scanLess lt a j data fuel i ≤ j →
        lt (get data (scanLess lt a j data fuel i)) (get data a) = false) := by
  intro fuel
  induction fuel with
  | zero =>
    intro i hf
    simp only [scanLess]
    exact ⟨Nat.le_refl _, fun h => h, fun k h1 h2 => by omega, fun h => by omega⟩
  | succ fuel ih =>
    intro i hf
    simp only [scanLess]
    by_cases hc : i ≤ j ∧ less lt data i a = true
    · rw [if_pos hc]
      obtain ⟨h1, h2, h3, h4⟩ := ih (i + 1) (by omega)
      refine ⟨by omega, fun _ => h2 (by omega), fun k hk1 hk2 => ?_, h4⟩
      by_cases hki : k = i
      · subst hki; exact hc.2
      · exact h3 k (by omega) hk2
    · rw [if_neg hc]
      refine ⟨Nat.le_refl _, fun h => h, fun k h1 h2 => by omega, fun h => ?_⟩
      by_contra hne
      exact hc ⟨h, by simpa [less] using hne⟩

theorem scanNotLess_spec (a i : Nat) (data : List α) (hi : 1 ≤ i) :
    ∀ (j : Nat),
      scanNotLess lt a i data j ≤ j ∧
      (i ≤ j + 1 → i ≤ scanNotLess lt a i data j + 1) ∧
      (∀ k, scanNotLess lt a i data j < k → k ≤ j → lt (get data k) (get data a) = false) ∧
      (i ≤ scanNotLess lt a i data j →
        lt (get data (scanNotLess lt a i data j)) (get data a) = true) := by
  intro j
  induction j with
  | zero =>
    simp only [scanNotLess]
    exact ⟨Nat.le_refl _, fun h => h, fun k h1 h2 => by omega, fun h => by omega⟩
  | succ j ih =>
    simp only [scanNotLess]
    by_cases hc : i ≤ j + 1 ∧ (!less lt data (j + 1) a) = true
    · rw [if_pos hc]
      obtain ⟨h1, h2, h3, h4⟩ := ih
      refine ⟨by omega, fun _ => ?_, fun k hk1 hk2 => ?_, h4⟩
      · by_cases hij : i ≤ j
        · exact h2 (by omega)
        · omega
      · by_cases hkj : k = j + 1
        · subst hkj
          simpa [less] using hc.2
        · exact h3 k hk1 (by omega)
    · rw [if_neg hc]
      refine ⟨Nat.le_refl _, fun h => by omega, fun k h1 h2 => by omega, fun h => ?_⟩
      by_contra hne
      exact hc ⟨h, by simpa [less] using hne⟩

end Scans

/-! ## `sort.Slice`: partition -/

section Partition
variable {α : Type} [Inhabited α] (lt : α → α → Bool)

theorem partition_step (data : List α) (a b i j fuel : Nat)
    (hinv : PartInv lt data a b i j) (hf : j + 1 - i ≤ fuel) :
    (scanLess lt a j data fuel i > scanNotLess lt a (scanLess lt a j data fuel i) data j →
      PartPost lt data a b (scanNotLess lt a (scanLess lt a j data fuel i) data j)) ∧
    (¬ scanLess lt a j data fuel i > scanNotLess lt a (scanLess lt a j data fuel i) data j →
      PartInv lt (swap data (scanLess lt a j data fuel i)
          (scanNotLess lt a (scanLess lt a j data fuel i) data j)) a b
        (scanLess lt a j data fuel i + 1)
        (scanNotLess lt a (scanLess lt a j data fuel i) data j - 1) ∧
      Frame data (swap data (scanLess lt a j data fuel i)
          (scanNotLess lt a (scanLess lt a j data fuel i) data j)) (a + 1) b ∧
      i ≤ scanLess lt a j data fuel i ∧
      scanLess lt a j data fuel i < scanNotLess lt a (scanLess lt a j data fuel i) data j ∧
      scanNotLess lt a (scanLess lt a j data fuel i) data j ≤ j) := by
  obtain ⟨h1, h2, h3, h4, hL, hR⟩ := hinv
  obtain ⟨s1, s2, s3, s4⟩ := scanLess_spec lt a j data fuel i hf
  generalize scanLess lt a j data fuel i = i1 at *
  obtain ⟨t1, t2, t3, t4⟩ := scanNotLess_spec lt a i1 data (by omega) j
  generalize scanNotLess lt a i1 data j = j1 at *
  have hi1 := s2 h2
  have hj1 := t2 hi1
  constructor
  · intro hgt
    refine ⟨by omega, by omega, fun k hk1 hk2 => ?_, fun k hk1 hk2 => ?_⟩
    · by_cases hki : k < i
      · exact hL k hk1 hki
      · exact s3 k (by omega) (by omega)
    · by_cases hkj : j < k
      · exact hR k hkj hk2
      · exact t3 k hk1 (by omega)
  · intro hle
    have hle1 : i1 ≤ j1 := by omega
    have hlo := s4 (by omega)
    have hhi := t4 hle1
    have hne : i1 ≠ j1 := by
      intro h
      rw [h] at hlo
      rw [hlo] at hhi
      exact Bool.false_ne_true hhi
    have hsw : ∀ k, get (swap data i1 j1) k =
        if k = j1 then get data i1 else if k = i1 then get data j1 else get data k :=
      fun k => get_swap data i1 j1 k (by omega) (by omega)
    refine ⟨⟨by omega, by omega, by omega, by simpa using h4, fun k hk1 hk2 => ?_,
      fun k hk1 hk2 => ?_⟩,
      frame_swap data (a + 1) b i1 j1 h4 (by omega) (by omega) (by omega) (by omega),
      s1, by omega, t1⟩
    · have ha1 : a ≠ j1 := by omega
      have ha2 : a ≠ i1 := by omega
      have hkj : k ≠ j1 := by omega
      rw [hsw k, hsw a, if_neg hkj, if_neg ha1, if_neg ha2]
      by_cases hk : k = i1
      · rw [if_pos hk]; exact hhi
      · rw [if_neg hk]
        by_cases hki : k < i
        · exact hL k hk1 hki
        · exact s3 k (by omega) (by omega)
    · have ha1 : a ≠ j1 := by omega
      have ha2 : a ≠ i1 := by omega
      rw [hsw k, hsw a, if_neg ha1, if_neg ha2]
      by_cases hk : k = j1
      · rw [if_pos hk]; exact hlo
      · have hki : k ≠ i1 := by omega
        rw [if_neg hk, if_neg hki]
        by_cases hkj : j < k
        · exact hR k hkj hk2
        · exact t3 k (by omega) (by omega)

theorem partition_loop_spec (a b : Nat) :
    ∀ (fuel : Nat) (data : List α) (i j : Nat), PartInv lt data a b i j → j + 1 - i ≤ fuel →
      Frame data (partition_loop lt a fuel data i j).1 (a + 1) b ∧
        PartPost lt (partition_loop lt a fuel data i j).1 a b (partition_loop lt a fuel data i j).2 := by
  intro fuel
  induction fuel with
  | zero =>
    intro data i j hinv hf
    simp only [partition_loop]
    obtain ⟨h1, h2, h3, h4, hL, hR⟩ := hinv
    exact ⟨Frame.refl _ _ _, by omega, h3, fun k hk1 hk2 => hL k hk1 (by omega), hR⟩
  | succ fuel ih =>
    intro data i j hinv hf
    simp only [partition_loop]
    obtain ⟨hbrk, hcont⟩ := partition_step lt data a b i j (j + 1 - i) hinv (Nat.le_refl _)
    by_cases hgt : scanLess lt a j data (j + 1 - i) i >
        scanNotLess lt a (scanLess lt a j data (j + 1 - i) i) data j
    · rw [if_pos hgt]
      exact ⟨Frame.refl _ _ _, hbrk hgt⟩
    · rw [if_neg hgt]
      obtain ⟨hinv1, hfr, e1, e2, e3⟩ := hcont hgt
      have := ih _ _ _ hinv1 (by omega)
      exact ⟨hfr.trans this.1, this.2⟩

/-- The partition: the pivot ends at the index returned, after the elements
less than it and before the others. -/
theorem partition_func_spec (data : List α) (a b pivot : Nat)
    (hb : b ≤ data.length) (hp1 : a ≤ pivot) (hp2 : pivot < b) :
    Frame data (partition_func lt data a b pivot).1 a b ∧
    a ≤ (partition_func lt data a b pivot).2.1 ∧ (partition_func lt data a b pivot).2.1 < b ∧
    (∀ k, a ≤ k → k < (partition_func lt data a b pivot).2.1 →
      lt (get (partition_func lt data a b pivot).1 k)
        (get (partition_func lt data a b pivot).1 (partition_func lt data a b pivot).2.1) = true) ∧
    (∀ k, (partition_func lt data a b pivot).2.1 < k → k < b →
      lt (get (partition_func lt data a b pivot).1 k)
        (get (partition_func lt data a b pivot).1 (partition_func lt data a b pivot).2.1) = false) := by
  have hfr0 : Frame data (swap data a pivot) a b :=
    frame_swap data a b a pivot hb (Nat.le_refl _) (by omega) hp1 hp2
  have hinv0 : PartInv lt (swap data a pivot) a b (a + 1) (b - 1) :=
    ⟨Nat.le_refl _, by omega, by omega, by simpa using hb, fun k h1 h2 => by omega,
      fun k h1 h2 => by omega⟩
  -- what the final `data.Swap(j, a)` achieves
  have hfinal : ∀ (d : List α) (j : Nat), Frame (swap data a pivot) d (a + 1) b →
      PartPost lt d a b j →
      Frame data (swap d j a) a b ∧ a ≤ j ∧ j < b ∧
      (∀ k, a ≤ k → k < j → lt (get (swap d j a) k) (get (swap d j a) j) = true) ∧
      (∀ k, j < k → k < b → lt (get (swap d j a) k) (get (swap d j a) j) = false) := by
    intro d j hfr hpost
    obtain ⟨p1, p2, p3, p4⟩ := hpost
    have hlen : d.length = data.length := by
      have := hfr.length
      simpa using this
    have hsw : ∀ k, get (swap d j a) k =
        if k = a then get d j else if k = j then get d a else get d k :=
      fun k => get_swap d j a k (by omega) (by omega)
    refine ⟨hfr0.trans ((hfr.mono (by omega) (Nat.le_refl _)).trans
      (frame_swap d a b j a (by omega) p1 p2 (Nat.le_refl _) (by omega))), p1, p2,
      fun k hk1 hk2 => ?_, fun k hk1 hk2 => ?_⟩
    · rw [hsw k, hsw j]
      by_cases hja : j = a
      · omega
      · rw [if_neg hja, if_pos rfl]
        by_cases hka : k = a
        · rw [if_pos hka]; exact p3 j (by omega) (Nat.le_refl _)
        · rw [if_neg hka, if_neg (by omega)]; exact p3 k (by omega) (by omega)
    · rw [hsw k, hsw j, if_neg (by omega : k ≠ a), if_neg (by omega : k ≠ j)]
      by_cases hja : j = a
      · rw [if_pos hja]
        subst hja
        exact p4 k hk1 hk2
      · rw [if_neg hja, if_pos rfl]; exact p4 k hk1 hk2
  obtain ⟨hbrk, hcont⟩ := partition_step lt (swap data a pivot) a b (a + 1) (b - 1)
    (b - 1 + 1 - (a + 1)) hinv0 (Nat.le_refl _)
  unfold partition_func
  simp only []
  generalize scanLess lt a (b - 1) (swap data a pivot) (b - 1 + 1 - (a + 1)) (a + 1) = i1 at *
  generalize scanNotLess lt a i1 (swap data a pivot) (b - 1) = j1 at *
  by_cases hgt : i1 > j1
  · rw [if_pos hgt]
    exact hfinal _ _ (Frame.refl _ _ _) (hbrk hgt)
  · rw [if_neg hgt]
    obtain ⟨hinv1, hfr, e1, e2, e3⟩ := hcont hgt
    have hl := partition_loop_spec lt a b (j1 + 1 - i1) _ _ _ hinv1 (by omega)
    exact hfinal _ _ (hfr.trans hl.1) hl.2

end Partition

/-! ## `sort.Slice`: partition around a least pivot -/

section OrderLemmas
variable {α : Type}

theorem StrictWeakOrder.irrefl {lt : α → α → Bool} (hw : StrictWeakOrder lt) (x : α) :
    lt x x = false := by
  by_contra h
  have h1 : lt x x = true := by simpa using h
  have h2 := hw.asymm x x h1
  rw [h1] at h2
  exact Bool.noConfusion h2

end OrderLemmas

section PartitionEqual
variable {α : Type} [Inhabited α] (lt : α → α → Bool)

theorem scanNotGreater_spec (a j : Nat) (data : List α) :
    ∀ (fuel i : Nat), j + 1 - i ≤ fuel →
      i ≤ scanNotGreater lt a j data fuel i ∧
      (i ≤ j + 1 → scanNotGreater lt a j data fuel i ≤ j + 1) ∧
      (∀ k, i ≤ k → k < scanNotGreater lt a j data fuel i →
        lt (get data a) (get data k) = false) ∧
      (scanNotGreater lt a j data fuel i ≤ j →
        lt (get data a) (get data (scanNotGreater lt a j data fuel i)) = true) := by
  intro fuel
  induction fuel with
  | zero =>
    intro i hf
    simp only [scanNotGreater]
    exact ⟨Nat.le_refl _, fun h => h, fun k h1 h2 => by omega, fun h => by omega⟩
  | succ fuel ih =>
    intro i hf
    simp only [scanNotGreater]
    by_cases hc : i ≤ j ∧ (!less lt data a i) = true
    · rw [if_pos hc]
      obtain ⟨h1, h2, h3, h4⟩ := ih (i + 1) (by omega)
      refine ⟨by omega, fun _ => h2 (by omega), fun k hk1 hk2 => ?_, h4⟩
      by_cases hki : k = i
      · subst hki; simpa [less] using hc.2
      · exact h3 k (by omega) hk2
    · rw [if_neg hc]
      refine ⟨Nat.le_refl _, fun h => h, fun k h1 h2 => by omega, fun h => ?_⟩
      by_contra hne
      exact hc ⟨h, by simpa [less] using hne⟩

theorem scanGreater_spec (a i : Nat) (data : List α) (hi : 1 ≤ i) :
    ∀ (j : Nat),
      scanGreater lt a i data j ≤ j ∧
      (i ≤ j + 1 → i ≤ scanGreater lt a i data j + 1) ∧
      (∀ k, scanGreater lt a i data j < k → k ≤ j → lt (get data a) (get data k) = true) ∧
      (i ≤ scanGreater lt a i data j →
        lt (get data a) (get data (scanGreater lt a i data j)) = false) := by
  intro j
  induction j with
  | zero =>
    simp only [scanGreater]
    exact ⟨Nat.le_refl _, fun h => h, fun k h1 h2 => by omega, fun h => by omega⟩
  | succ j ih =>
    simp only [scanGreater]
    by_cases hc : i ≤ j + 1 ∧ less lt data a (j + 1) = true
    · rw [if_pos hc]
      obtain ⟨h1, h2, h3, h4⟩ := ih
      refine ⟨by omega, fun _ => ?_, fun k hk1 hk2 => ?_, h4⟩
      · by_cases hij : i ≤ j
        · exact h2 (by omega)
        · omega
      · by_cases hkj : k = j + 1
        · subst hkj
          exact hc.2
        · exact h3 k hk1 (by omega)
    · rw [if_neg hc]
      refine ⟨Nat.le_refl _, fun h => by omega, fun k h1 h2 => by omega, fun h => ?_⟩
      by_contra hne
      exact hc ⟨h, by simpa [less] using hne⟩

theorem partitionEqual_loop_spec (a b : Nat) :
    ∀ (fuel : Nat) (data : List α) (i j : Nat), PartEqInv lt data a b i j → j + 1 - i ≤ fuel →
      Frame data (partitionEqual_loop lt a fuel data i j).1 (a + 1) b ∧
        PartEqPost lt (partitionEqual_loop lt a fuel data i j).1 a b
          (partitionEqual_loop lt a fuel data i j).2 := by
  intro fuel
  induction fuel with
  | zero =>
    intro data i j hinv hf
    simp only [partitionEqual_loop]
    obtain ⟨h1, h2, h3, h4, hL, hR⟩ := hinv
    exact ⟨Frame.refl _ _ _, h1, by omega, hL, fun k hk1 hk2 => hR k (by omega) hk2⟩
  | succ fuel ih =>
    intro data i j hinv hf
    simp only [partitionEqual_loop]
    obtain ⟨h1, h2, h3, h4, hL, hR⟩ := hinv
    obtain ⟨s1, s2, s3, s4⟩ := scanNotGreater_spec lt a j data (j + 1 - i) i (Nat.le_refl _)
    generalize scanNotGreater lt a j data (j + 1 - i) i = i1 at *
    obtain ⟨t1, t2, t3, t4⟩ := scanGreater_spec lt a i1 data (by omega) j
    generalize scanGreater lt a i1 data j = j1 at *
    have hi1 := s2 h2
    have hj1 := t2 hi1
    by_cases hgt : i1 > j1
    · rw [if_pos hgt]
      refine ⟨Frame.refl _ _ _, by omega, by omega, fun k hk1 hk2 => ?_, fun k hk1 hk2 => ?_⟩
      · by_cases hki : k < i
        · exact hL k hk1 hki
        · exact s3 k (by omega) (by omega)
      · by_cases hkj : j < k
        · exact hR k hkj hk2
        · exact t3 k (by omega) (by omega)
    · rw [if_neg hgt]
      have hle1 : i1 ≤ j1 := by omega
      have hlo := s4 (by omega)
      have hhi := t4 hle1
      have hne : i1 ≠ j1 := by
        intro h
        rw [h] at hlo
        rw [hlo] at hhi
        exact Bool.noConfusion hhi
      have hsw : ∀ k, get (swap data i1 j1) k =
          if k = j1 then get data i1 else if k = i1 then get data j1 else get data k :=
        fun k => get_swap data i1 j1 k (by omega) (by omega)
      have ha1 : a ≠ j1 := by omega
      have ha2 : a ≠ i1 := by omega
      have hinv1 : PartEqInv lt (swap data i1 j1) a b (i1 + 1) (j1 - 1) := by
        refine ⟨by omega, by omega, by omega, by simpa using h4, fun k hk1 hk2 => ?_,
          fun k hk1 hk2 => ?_⟩
        · have hkj : k ≠ j1 := by omega
          rw [hsw k, hsw a, if_neg hkj, if_neg ha1, if_neg ha2]
          by_cases hk : k = i1
          · rw [if_pos hk]; exact hhi
          · rw [if_neg hk]
            by_cases hki : k < i
            · exact hL k hk1 hki
            · exact s3 k (by omega) (by omega)
        · rw [hsw k, hsw a, if_neg ha1, if_neg ha2]
          by_cases hk : k = j1
          · rw [if_pos hk]; exact hlo
          · have hki : k ≠ i1 := by omega
            rw [if_neg hk, if_neg hki]
            by_cases hkj : j < k
            · exact hR k hkj hk2
            · exact t3 k (by omega) (by omega)
      have hfr := frame_swap data (a + 1) b i1 j1 h4 (by omega) (by omega) (by omega) (by omega)
      have := ih _ _ _ hinv1 (by omega)
      exact ⟨hfr.trans this.1, this.2⟩

/-- The partition for a pivot that is a least element: the elements that the
pivot is not less than come first, up to the index returned. -/
theorem partitionEqual_func_spec (hw : StrictWeakOrder lt) (data : List α) (a b pivot : Nat)
    (hb : b ≤ data.length) (hp1 : a ≤ pivot) (hp2 : pivot < b) :
    Frame data (partitionEqual_func lt data a b pivot).1 a b ∧
    a < (partitionEqual_func lt data a b pivot).2 ∧ (partitionEqual_func lt data a b pivot).2 ≤ b ∧
    (∀ k, a ≤ k → k < (partitionEqual_func lt data a b pivot).2 →
      lt (get data pivot) (get (partitionEqual_func lt data a b pivot).1 k) = false) ∧
    (∀ k, (partitionEqual_func lt data a b pivot).2 ≤ k → k < b →
      lt (get data pivot) (get (partitionEqual_func lt data a b pivot).1 k) = true) := by
  have hfr0 : Frame data (swap data a pivot) a b :=
    frame_swap data a b a pivot hb (Nat.le_refl _) (by omega) hp1 hp2
  have hinv0 : PartEqInv lt (swap data a pivot) a b (a + 1) (b - 1) :=
    ⟨Nat.le_refl _, by omega, by omega, by simpa using hb, fun k h1 h2 => by omega,
      fun k h1 h2 => by omega⟩
  have hl := partitionEqual_loop_spec lt a b (b - a) _ _ _ hinv0 (by omega)
  unfold partitionEqual_func
  simp only []
  obtain ⟨hfr, p1, p2, p3, p4⟩ := hl
  have hpa : get (partitionEqual_loop lt a (b - a) (swap data a pivot) (a + 1) (b - 1)).1 a =
      get data pivot := by
    rw [hfr.2.1 a (by omega), get_swap data a pivot a (by omega) (by omega)]
    by_cases h : a = pivot
    · rw [if_pos h, h]
    · rw [if_neg h, if_pos rfl]
  rw [hpa] at p3 p4
  refine ⟨hfr0.trans (hfr.mono (by omega) (Nat.le_refl _)), by omega, p2, fun k hk1 hk2 => ?_, p4⟩
  by_cases hka : k = a
  · rw [hka, hpa]; exact hw.irrefl _
  · exact p3 k (by omega) hk2

end PartitionEqual

/-! ## `sort.Slice`: pivot, shuffles and the partial insertion sort -/

section Pivot
variable {α : Type} [Inhabited α] (lt : α → α → Bool)

theorem order2_func_fst (data : List α) (a b s : Nat) :
    ((order2_func lt data a b s).1 = a ∧ (order2_func lt data a b s).2.1 = b) ∨
    ((order2_func lt data a b s).1 = b ∧ (order2_func lt data a b s).2.1 = a) := by
  unfold order2_func
  split
  · right; exact ⟨rfl, rfl⟩
  · left; exact ⟨rfl, rfl⟩

theorem median_func_mem (data : List α) (a b c s : Nat) :
    (median_func lt data a b c s).1 = a ∨ (median_func lt data a b c s).1 = b ∨
      (median_func lt data a b c s).1 = c := by
  unfold median_func
  simp only []
  have f1 := order2_func_fst lt data a b s
  generalize order2_func lt data a b s = r1 at *
  have f2 := order2_func_fst lt data r1.2.1 c r1.2.2
  generalize order2_func lt data r1.2.1 c r1.2.2 = r2 at *
  have f3 := order2_func_fst lt data r1.1 r2.1 r2.2.2
  generalize order2_func lt data r1.1 r2.1 r2.2.2 = r3 at *
  omega

theorem median_func_range (data : List α) (a b c s lo hi : Nat)
    (ha : lo ≤ a ∧ a < hi) (hb : lo ≤ b ∧ b < hi) (hc : lo ≤ c ∧ c < hi) :
    lo ≤ (median_func lt data a b c s).1 ∧ (median_func lt data a b c s).1 < hi := by
  rcases median_func_mem lt data a b c s with h | h | h <;> rw [h] <;> assumption

/-- The pivot chosen lies in the range. -/
theorem choosePivot_func_range (data : List α) (a b : Nat) (h : 8 ≤ b - a) :
    a ≤ (choosePivot_func lt data a b).1 ∧ (choosePivot_func lt data a b).1 < b := by
  have hfst : ∀ (r : Nat × Nat),
      (if r.2 = 0 then (r.1, sortedHint.increasingHint)
        else if r.2 = 12 then (r.1, sortedHint.decreasingHint)
        else (r.1, sortedHint.unknownHint)).1 = r.1 := by
    intro r
    split
    · rfl
    · split <;> rfl
  unfold choosePivot_func
  simp only []
  rw [hfst, if_pos h]
  have hq : (b - a) / 4 * 4 ≤ b - a := Nat.div_mul_le_self _ _
  have hq2 : 2 ≤ (b - a) / 4 := by omega
  by_cases h50 : b - a ≥ 50
  · rw [if_pos h50]
    have hq3 : 12 ≤ (b - a) / 4 := by omega
    unfold medianAdjacent_func
    apply median_func_range
    · exact median_func_range lt data _ _ _ _ a b ⟨by omega, by omega⟩ ⟨by omega, by omega⟩
        ⟨by omega, by omega⟩
    · exact median_func_range lt data _ _ _ _ a b ⟨by omega, by omega⟩ ⟨by omega, by omega⟩
        ⟨by omega, by omega⟩
    · exact median_func_range lt data _ _ _ _ a b ⟨by omega, by omega⟩ ⟨by omega, by omega⟩
        ⟨by omega, by omega⟩
  · rw [if_neg h50]
    exact median_func_range lt data _ _ _ _ a b ⟨by omega, by omega⟩ ⟨by omega, by omega⟩
      ⟨by omega, by omega⟩

end Pivot

section Shuffles
variable {α : Type} [Inhabited α]

theorem reverseRange_loop_frame (a b : Nat) :
    ∀ (fuel : Nat) (data : List α) (i j : Nat), a ≤ i → j < b → b ≤ data.length →
      Frame data (reverseRange_loop fuel data i j) a b := by
  intro fuel
  induction fuel with
  | zero => intro data i j _ _ _; exact Frame.refl _ _ _
  | succ fuel ih =>
    intro data i j hi hj hb
    simp only [reverseRange_loop]
    by_cases hij : i < j
    · rw [if_pos hij]
      exact (frame_swap data a b i j hb hi (by omega) (by omega) hj).trans
        (ih _ _ _ (by omega) (by omega) (by simpa using hb))
    · rw [if_neg hij]; exact Frame.refl _ _ _

theorem reverseRange_func_frame (data : List α) (a b : Nat) (hab : a < b)
    (hb : b ≤ data.length) : Frame data (reverseRange_func data a b) a b := by
  unfold reverseRange_func
  exact reverseRange_loop_frame a b _ data a (b - 1) (Nat.le_refl _) (by omega) hb

theorem two_pow_bitsLen_le : ∀ (fuel n : Nat), n < fuel → 1 ≤ n → 2 ^ bitsLen fuel n ≤ 2 * n := by
  intro fuel
  induction fuel with
  | zero => intro n h _; omega
  | succ fuel ih =>
    intro n hn h1
    simp only [bitsLen]
    rw [if_neg (by omega)]
    by_cases h2 : n / 2 = 0
    · have : bitsLen fuel (n / 2) = 0 := by
        rw [h2]
        cases fuel <;> simp [bitsLen]
      rw [this]
      omega
    · have := ih (n / 2) (by omega) (by omega)
      rw [Nat.pow_succ]
      omega

theorem breakPatterns_loop_frame (a b length modulus idx : Nat) (hl : 1 ≤ length)
    (hm : modulus ≤ 2 * length) (hlen : a + length = b) (hidx1 : a ≤ idx)
    (hidx2 : idx + 2 < b) :
    ∀ (n : Nat) (data : List α) (random i : Nat), i + n ≤ 3 → b ≤ data.length →
      Frame data (breakPatterns_loop a length modulus idx n data random i) a b := by
  intro n
  induction n with
  | zero => intro data random i _ _; exact Frame.refl _ _ _
  | succ n ih =>
    intro data random i hi hb
    simp only [breakPatterns_loop]
    have hand : xorshiftNext random &&& (modulus - 1) ≤ modulus - 1 := Nat.and_le_right
    refine (frame_swap data a b _ _ hb (by omega) (by omega) (by omega) ?_).trans
      (ih _ _ _ (by omega) (by simpa using hb))
    split <;> omega

theorem breakPatterns_func_frame (data : List α) (a b : Nat) (hb : b ≤ data.length) :
    Frame data (breakPatterns_func data a b) a b := by
  unfold breakPatterns_func
  simp only []
  by_cases h8 : b - a ≥ 8
  · rw [if_pos h8]
    have hq : (b - a) / 4 * 4 ≤ b - a := Nat.div_mul_le_self _ _
    have hq2 : 2 ≤ (b - a) / 4 := by omega
    exact breakPatterns_loop_frame a b (b - a) _ _ (by omega)
      (two_pow_bitsLen_le _ _ (by omega) (by omega)) (by omega) (by omega) (by omega) 3 data _ 0
      (by omega) hb
  · rw [if_neg h8]; exact Frame.refl _ _ _

end Shuffles

section PartialInsertion
variable {α : Type} [Inhabited α] (lt : α → α → Bool)

theorem Frame.lowerBnd {data data1 : List α} {a b : Nat} (h : Frame data data1 a b)
    (hl : LowerBnd lt data a b) : LowerBnd lt data1 a b := by
  intro k i hk hi1 hi2
  obtain ⟨i0, h1, h2, h3⟩ := h.2.2 i hi1 hi2
  rw [h3, h.2.1 k (by omega)]
  exact hl k i0 hk h1 h2

/-- Sortedness of a range survives changes outside it. -/
theorem Frame.sortedOn_outside {data data1 : List α} {a b c d : Nat} (h : Frame data data1 c d)
    (hout : b ≤ c ∨ d ≤ a) (hs : SortedOn lt data a b) : SortedOn lt data1 a b := by
  intro p q hp hpq hq
  rw [h.2.1 p (by omega), h.2.1 q (by omega)]
  exact hs p q hp hpq hq

theorem scanOrdered_spec (hw : StrictWeakOrder lt) (a b : Nat) (data : List α) :
    ∀ (fuel i : Nat), b - i ≤ fuel → a < i → i ≤ b → SortedOn lt data a i →
      i ≤ scanOrdered lt b data fuel i ∧ scanOrdered lt b data fuel i ≤ b ∧
      SortedOn lt data a (scanOrdered lt b data fuel i) ∧
      (scanOrdered lt b data fuel i < b →
        lt (get data (scanOrdered lt b data fuel i)) (get data (scanOrdered lt b data fuel i - 1))
          = true) := by
  intro fuel
  induction fuel with
  | zero =>
    intro i hf hai hib hs
    simp only [scanOrdered]
    exact ⟨Nat.le_refl _, hib, hs, fun h => by omega⟩
  | succ fuel ih =>
    intro i hf hai hib hs
    simp only [scanOrdered]
    by_cases hc : i < b ∧ (!less lt data i (i - 1)) = true
    · rw [if_pos hc]
      have hle : lt (get data i) (get data (i - 1)) = false := by simpa [less] using hc.2
      have hs1 : SortedOn lt data a (i + 1) := by
        intro p q hp hpq hq
        by_cases hqi : q = i
        · subst hqi
          by_cases hp1 : p = q - 1
          · subst hp1; exact hle
          · exact hw.ntrans _ _ _ hle (hs p (q - 1) hp (by omega) (by omega))
        · exact hs p q hp hpq (by omega)
      obtain ⟨h1, h2, h3, h4⟩ := ih (i + 1) (by omega) (by omega) (by omega) hs1
      exact ⟨by omega, h2, h3, h4⟩
    · rw [if_neg hc]
      refine ⟨Nat.le_refl _, hib, hs, fun h => ?_⟩
      by_contra hne
      exact hc ⟨h, by simpa [less] using hne⟩

theorem shiftLeft_eq_inner (a i : Nat) :
    ∀ (j : Nat) (data : List α), a ≤ j → j ≤ i → i < data.length →
      (1 ≤ a → ∀ k, a ≤ k → k ≤ i → lt (get data k) (get data (a - 1)) = false) →
      shiftLeft lt data j = insertionSort_inner lt a data j := by
  intro j
  induction j with
  | zero => intro data _ _ _ _; simp only [shiftLeft, insertionSort_inner]
  | succ j ih =>
    intro data haj hji hlen hlow
    simp only [shiftLeft, insertionSort_inner]
    by_cases hja : j + 1 > a
    · by_cases hless : less lt data (j + 1) j = true
      · have c1 : ¬ ((!less lt data (j + 1) j) = true) := by simp [hless]
        have c2 : j + 1 > a ∧ less lt data (j + 1) j = true := ⟨hja, hless⟩
        rw [if_neg c1, if_pos c2]
        apply ih _ (by omega) (by omega) (by simpa using hlen)
        intro ha1 k hk1 hk2
        have hsw : ∀ k, get (swap data (j + 1) j) k =
            if k = j then get data (j + 1) else if k = j + 1 then get data j else get data k :=
          fun k => get_swap data (j + 1) j k (by omega) (by omega)
        have hne1 : a - 1 ≠ j := by omega
        have hne2 : a - 1 ≠ j + 1 := by omega
        rw [hsw k, hsw (a - 1), if_neg hne1, if_neg hne2]
        by_cases h1 : k = j
        · rw [if_pos h1]; exact hlow ha1 (j + 1) (by omega) (by omega)
        · rw [if_neg h1]
          by_cases h2 : k = j + 1
          · rw [if_pos h2]; exact hlow ha1 j (by omega) (by omega)
          · rw [if_neg h2]; exact hlow ha1 k hk1 hk2
      · have c1 : (!less lt data (j + 1) j) = true := by simpa using hless
        have c2 : ¬ (j + 1 > a ∧ less lt data (j + 1) j = true) := fun h => hless h.2
        rw [if_pos c1, if_neg c2]
    · have hja1 : a = j + 1 := by omega
      have hl := hlow (by omega) (j + 1) (by omega) (by omega)
      have hl1 : less lt data (j + 1) j = false := by
        simp only [less]
        rw [hja1] at hl
        simpa using hl
      have c1 : (!less lt data (j + 1) j) = true := by simp [hl1]
      have c2 : ¬ (j + 1 > a ∧ less lt data (j + 1) j = true) := fun h => hja h.1
      rw [if_pos c1, if_neg c2]

theorem shiftRight_frame (lo b : Nat) :
    ∀ (fuel : Nat) (data : List α) (j : Nat), lo < j → b ≤ data.length →
      Frame data (shiftRight lt b fuel data j) lo b := by
  intro fuel
  induction fuel with
  | zero => intro data j _ _; exact Frame.refl _ _ _
  | succ fuel ih =>
    intro data j hj hb
    simp only [shiftRight]
    by_cases hjb : j < b
    · rw [if_pos hjb]
      by_cases hc : (!less lt data j (j - 1)) = true
      · rw [if_pos hc]; exact Frame.refl _ _ _
      · rw [if_neg hc]
        exact (frame_swap data lo b j (j - 1) hb (by omega) hjb (by omega) (by omega)).trans
          (ih _ _ (by omega) (by simpa using hb))
    · rw [if_neg hjb]; exact Frame.refl _ _ _

theorem partialInsertionSort_loop_spec (hw : StrictWeakOrder lt) (a b : Nat) :
    ∀ (steps : Nat) (data : List α) (i : Nat), a < i → i ≤ b → b ≤ data.length →
      LowerBnd lt data a b → SortedOn lt data a i →
      Frame data (partialInsertionSort_loop lt a b steps data i).1 a b ∧
      ((partialInsertionSort_loop lt a b steps data i).2 = true →
        SortedOn lt (partialInsertionSort_loop lt a b steps data i).1 a b) := by
  intro steps
  induction steps with
  | zero =>
    intro data i _ _ _ _ _
    simp only [partialInsertionSort_loop]
    exact ⟨Frame.refl _ _ _, fun h => Bool.noConfusion h⟩
  | succ steps ih =>
    intro data i hai hib hb hlow hs
    simp only [partialInsertionSort_loop]
    obtain ⟨s1, s2, s3, s4⟩ := scanOrdered_spec lt hw a b data (b - i) i (Nat.le_refl _) hai hib hs
    generalize scanOrdered lt b data (b - i) i = i1 at *
    by_cases hi1 : i1 = b
    · rw [if_pos hi1]
      exact ⟨Frame.refl _ _ _, fun _ => hi1 ▸ s3⟩
    · rw [if_neg hi1]
      by_cases h50 : b - a < 50
      · rw [if_pos h50]
        exact ⟨Frame.refl _ _ _, fun h => Bool.noConfusion h⟩
      · rw [if_neg h50]
        have hlt : i1 < b := by omega
        -- the swap
        have hfr1 : Frame data (swap data i1 (i1 - 1)) a b :=
          frame_swap data a b i1 (i1 - 1) hb (by omega) hlt (by omega) (by omega)
        have hlen1 : (swap data i1 (i1 - 1)).length = data.length := length_swap _ _ _
        have hlow1 := hfr1.lowerBnd lt hlow
        have hsw : ∀ k, get (swap data i1 (i1 - 1)) k =
            if k = i1 - 1 then get data i1 else if k = i1 then get data (i1 - 1) else get data k :=
          fun k => get_swap data i1 (i1 - 1) k (by omega) (by omega)
        -- the shift to the left
        have hleft : Frame (swap data i1 (i1 - 1))
              (if i1 - a ≥ 2 then shiftLeft lt (swap data i1 (i1 - 1)) (i1 - 1)
                else swap data i1 (i1 - 1)) a i1 ∧
            SortedOn lt (if i1 - a ≥ 2 then shiftLeft lt (swap data i1 (i1 - 1)) (i1 - 1)
                else swap data i1 (i1 - 1)) a i1 := by
          by_cases h2 : i1 - a ≥ 2
          · rw [if_pos h2]
            rw [shiftLeft_eq_inner lt a (i1 - 1) (i1 - 1) _ (by omega) (Nat.le_refl _)
              (by omega) (fun ha1 k hk1 hk2 => hlow1 (a - 1) k (by omega) hk1 (by omega))]
            have := insertionSort_inner_spec lt hw a (i1 - 1) (i1 - 1) (swap data i1 (i1 - 1))
              (by omega) (Nat.le_refl _) (by omega)
              (fun p q hp hpq hq hpj hqj => by
                have e1 : p ≠ i1 - 1 := hpj
                have e2 : p ≠ i1 := by omega
                have e3 : q ≠ i1 - 1 := hqj
                have e4 : q ≠ i1 := by omega
                rw [hsw p, hsw q, if_neg e1, if_neg e2, if_neg e3, if_neg e4]
                exact s3 p q hp hpq (by omega))
              (fun q hq1 hq2 => by omega)
            have e : i1 - 1 + 1 = i1 := by omega
            rw [e] at this
            exact this
          · rw [if_neg h2]
            exact ⟨Frame.refl _ _ _, fun p q hp hpq hq => by omega⟩
        generalize (if i1 - a ≥ 2 then shiftLeft lt (swap data i1 (i1 - 1)) (i1 - 1)
                else swap data i1 (i1 - 1)) = d2 at *
        have hlen2 : d2.length = data.length := by rw [hleft.1.length, hlen1]
        -- the shift to the right
        have hright : Frame d2 (if b - i1 ≥ 2 then shiftRight lt b (b - i1) d2 (i1 + 1) else d2)
            i1 b := by
          by_cases h2 : b - i1 ≥ 2
          · rw [if_pos h2]
            exact shiftRight_frame lt i1 b _ d2 (i1 + 1) (by omega) (by omega)
          · rw [if_neg h2]; exact Frame.refl _ _ _
        generalize (if b - i1 ≥ 2 then shiftRight lt b (b - i1) d2 (i1 + 1) else d2) = d3 at *
        have hfr3 : Frame data d3 a b :=
          hfr1.trans ((hleft.1.mono (Nat.le_refl _) (by omega)).trans
            (hright.mono (by omega) (Nat.le_refl _)))
        have hs3 : SortedOn lt d3 a i1 := hright.sortedOn_outside lt (Or.inl (Nat.le_refl _)) hleft.2
        have := ih d3 i1 (by omega) (by omega) (by rw [hfr3.length]; exact hb)
          (hfr3.lowerBnd lt hlow) hs3
        exact ⟨hfr3.trans this.1, this.2⟩

/-- The partial insertion sort only permutes `data[a:b]`, and reports `true`
only when it leaves the range sorted. -/
theorem partialInsertionSort_func_spec (hw : StrictWeakOrder lt) (data : List α) (a b : Nat)
    (hab : a < b) (hb : b ≤ data.length) (hlow : LowerBnd lt data a b) :
    Frame data (partialInsertionSort_func lt data a b).1 a b ∧
    ((partialInsertionSort_func lt data a b).2 = true →
      SortedOn lt (partialInsertionSort_func lt data a b).1 a b) := by
  unfold partialInsertionSort_func
  exact partialInsertionSort_loop_spec lt hw a b 5 data (a + 1) (by omega) (by omega) hb hlow
    (fun p q hp hpq hq => by omega)

end PartialInsertion

/-! ## `sort.Slice`: heap sort -/

section HeapSort
variable {α : Type} [Inhabited α] (lt : α → α → Bool)

theorem siftDown_loop_spec (hw : StrictWeakOrder lt) (hi first lo : Nat) :
    ∀ (fuel : Nat) (data : List α) (root : Nat), lo ≤ root → first + hi ≤ data.length →
      hi - root ≤ fuel → HeapExcept lt data first hi lo root → HeapSkip lt data first hi lo root →
      Frame data (siftDown_loop lt hi first fuel data root) first (first + hi) ∧
        Heap lt (siftDown_loop lt hi first fuel data root) first hi lo := by
  intro fuel
  induction fuel with
  | zero =>
    intro data root hlo hlen hf hex _
    simp only [siftDown_loop]
    refine ⟨Frame.refl _ _ _, fun k c hk hc hch => ?_⟩
    by_cases hkr : k = root
    · omega
    · exact hex k c hk hkr hc hch
  | succ fuel ih =>
    intro data root hlo hlen hf hex hskip
    simp only [siftDown_loop]
    by_cases hch : 2 * root + 1 ≥ hi
    · rw [if_pos hch]
      refine ⟨Frame.refl _ _ _, fun k c hk hc hc2 => ?_⟩
      by_cases hkr : k = root
      · omega
      · exact hex k c hk hkr hc hc2
    · rw [if_neg hch]
      -- the greater child
      have hbig : ∃ cs, (if 2 * root + 1 + 1 < hi ∧
            less lt data (first + (2 * root + 1)) (first + (2 * root + 1) + 1) = true
          then 2 * root + 1 + 1 else 2 * root + 1) = cs ∧
          (cs = 2 * root + 1 ∨ cs = 2 * root + 2) ∧ cs < hi ∧
          ∀ c, (c = 2 * root + 1 ∨ c = 2 * root + 2) → c < hi →
            lt (get data (first + cs)) (get data (first + c)) = false := by
        by_cases hc : 2 * root + 1 + 1 < hi ∧
            less lt data (first + (2 * root + 1)) (first + (2 * root + 1) + 1) = true
        · refine ⟨2 * root + 2, by rw [if_pos hc], Or.inr rfl, by omega, fun c hc1 hc2 => ?_⟩
          rcases hc1 with hc1 | hc1
          · subst hc1
            have := hc.2
            simp only [less] at this
            exact hw.asymm _ _ this
          · subst hc1; exact hw.irrefl _
        · refine ⟨2 * root + 1, by rw [if_neg hc], Or.inl rfl, by omega, fun c hc1 hc2 => ?_⟩
          rcases hc1 with hc1 | hc1
          · subst hc1; exact hw.irrefl _
          · subst hc1
            by_contra hne
            apply hc
            refine ⟨by omega, ?_⟩
            simp only [less]
            simpa using hne
      obtain ⟨cs, hcs, hcs1, hcs2, hcs3⟩ := hbig
      rw [hcs]
      by_cases hstop : (!less lt data (first + root) (first + cs)) = true
      · rw [if_pos hstop]
        have hle : lt (get data (first + root)) (get data (first + cs)) = false := by
          simpa [less] using hstop
        refine ⟨Frame.refl _ _ _, fun k c hk hc hc2 => ?_⟩
        by_cases hkr : k = root
        · subst hkr
          exact hw.ntrans _ _ _ hle (hcs3 c hc hc2)
        · exact hex k c hk hkr hc hc2
      · rw [if_neg hstop]
        have hlt : lt (get data (first + root)) (get data (first + cs)) = true := by
          simpa [less] using hstop
        have hsw : ∀ k, get (swap data (first + root) (first + cs)) k =
            if k = first + cs then get data (first + root)
            else if k = first + root then get data (first + cs) else get data k :=
          fun k => get_swap data (first + root) (first + cs) k (by omega) (by omega)
        have hfr := frame_swap data first (first + hi) (first + root) (first + cs) hlen
          (by omega) (by omega) (by omega) (by omega)
        have hrec := ih (swap data (first + root) (first + cs)) cs (by omega)
          (by simpa using hlen) (by omega) ?_ ?_
        · exact ⟨hfr.trans hrec.1, hrec.2⟩
        · -- every node but `cs` is in order after the swap
          intro k c hk hkcs hc hc2
          rw [hsw (first + k), hsw (first + c)]
          have e1 : first + k ≠ first + cs := by omega
          rw [if_neg e1]
          by_cases hkr : k = root
          · subst hkr
            rw [if_pos rfl]
            by_cases hccs : c = cs
            · subst hccs
              rw [if_pos rfl]
              exact hw.asymm _ _ hlt
            · have e2 : first + c ≠ first + cs := by omega
              have e3 : first + c ≠ first + k := by omega
              rw [if_neg e2, if_neg e3]
              exact hcs3 c hc hc2
          · have e2 : first + k ≠ first + root := by omega
            have e3 : first + c ≠ first + cs := by omega
            rw [if_neg e2, if_neg e3]
            by_cases hcr : c = root
            · subst hcr
              rw [if_pos rfl]
              exact hskip k cs hk hc hcs1 hcs2
            · have e4 : first + c ≠ first + root := by omega
              rw [if_neg e4]
              exact hex k c hk hkr hc hc2
        · -- the parent of `cs` is `root`
          intro p c hp hpc hc hc2
          have hpr : p = root := by omega
          subst hpr
          have e1 : first + p ≠ first + cs := by omega
          have e2 : first + c ≠ first + cs := by omega
          have e3 : first + c ≠ first + p := by omega
          rw [hsw (first + p), hsw (first + c), if_neg e1, if_pos rfl, if_neg e2, if_neg e3]
          exact hex cs c (by omega) (by omega) hc hc2

theorem siftDown_func_spec (hw : StrictWeakOrder lt) (data : List α) (lo hi first : Nat)
    (hlen : first + hi ≤ data.length) (hex : HeapExcept lt data first hi lo lo) :
    Frame data (siftDown_func lt data lo hi first) first (first + hi) ∧
      Heap lt (siftDown_func lt data lo hi first) first hi lo := by
  unfold siftDown_func
  exact siftDown_loop_spec lt hw hi first lo hi data lo (Nat.le_refl _) hlen (by omega) hex
    (fun p c hp hpc _ _ => by omega)

theorem heapSort_build_spec (hw : StrictWeakOrder lt) (hi first : Nat) :
    ∀ (i : Nat) (data : List α), first + hi ≤ data.length → Heap lt data first hi (i + 1) →
      Frame data (heapSort_build lt hi first data i) first (first + hi) ∧
        Heap lt (heapSort_build lt hi first data i) first hi 0 := by
  intro i
  induction i with
  | zero =>
    intro data hlen hheap
    simp only [heapSort_build]
    exact siftDown_func_spec lt hw data 0 hi first hlen
      (fun k c hk hk0 hc hc2 => hheap k c (by omega) hc hc2)
  | succ i ih =>
    intro data hlen hheap
    simp only [heapSort_build]
    have h1 := siftDown_func_spec lt hw data (i + 1) hi first hlen
      (fun k c hk hk0 hc hc2 => hheap k c (by omega) hc hc2)
    have h2 := ih _ (by rw [h1.1.length]; exact hlen) h1.2
    exact ⟨h1.1.trans h2.1, h2.2⟩

theorem heap_root_max (hw : StrictWeakOrder lt) (data : List α) (first n : Nat)
    (hheap : Heap lt data first n 0) :
    ∀ k, k < n → lt (get data first) (get data (first + k)) = false := by
  intro k
  induction k using Nat.strong_induction_on with
  | _ k ih =>
    intro hk
    by_cases hk0 : k = 0
    · subst hk0; exact hw.irrefl _
    · have h1 := ih ((k - 1) / 2) (by omega) (by omega)
      have h2 := hheap ((k - 1) / 2) k (Nat.zero_le _) (by omega) hk
      exact hw.ntrans _ _ _ h1 h2

theorem heapSort_pop_spec (hw : StrictWeakOrder lt) (first hi : Nat) :
    ∀ (n : Nat) (data : List α), n ≤ hi → first + hi ≤ data.length → Heap lt data first n 0 →
      SortedOn lt data (first + n) (first + hi) →
      (∀ p q, first ≤ p → p < first + n → first + n ≤ q → q < first + hi →
        lt (get data q) (get data p) = false) →
      Frame data (heapSort_pop lt first data n) first (first + hi) ∧
        SortedOn lt (heapSort_pop lt first data n) first (first + hi) := by
  intro n
  induction n with
  | zero =>
    intro data _ _ _ hs _
    simp only [heapSort_pop]
    exact ⟨Frame.refl _ _ _, hs⟩
  | succ i ih =>
    intro data hn hlen hheap hs hcross
    simp only [heapSort_pop]
    have hmax := heap_root_max lt hw data first (i + 1) hheap
    have hsw : ∀ k, get (swap data first (first + i)) k =
        if k = first + i then get data first
        else if k = first then get data (first + i) else get data k :=
      fun k => get_swap data first (first + i) k (by omega) (by omega)
    have hfr1 := frame_swap data first (first + hi) first (first + i) hlen (Nat.le_refl _)
      (by omega) (by omega) (by omega)
    have hlen1 : (swap data first (first + i)).length = data.length := length_swap _ _ _
    have hsift := siftDown_func_spec lt hw (swap data first (first + i)) 0 i first (by omega)
      (fun k c hk hk0 hc hc2 => by
        have e1 : first + k ≠ first + i := by omega
        have e2 : first + k ≠ first := by omega
        have e3 : first + c ≠ first + i := by omega
        have e4 : first + c ≠ first := by omega
        rw [hsw (first + k), hsw (first + c), if_neg e1, if_neg e2, if_neg e3, if_neg e4]
        exact hheap k c hk hc (by omega))
    obtain ⟨hfr2, hheap2⟩ := hsift
    generalize siftDown_func lt (swap data first (first + i)) 0 i first = d2 at *
    have hlen2 : d2.length = data.length := by rw [hfr2.length, hlen1]
    -- an element of the shrunk heap is an element of the old heap
    have hin : ∀ p, first ≤ p → p < first + i →
        ∃ p0, first ≤ p0 ∧ p0 < first + (i + 1) ∧ get d2 p = get data p0 := by
      intro p hp1 hp2
      obtain ⟨p1, h1, h2, h3⟩ := hfr2.2.2 p hp1 hp2
      rw [h3, hsw p1, if_neg (by omega)]
      by_cases hp : p1 = first
      · rw [if_pos hp]; exact ⟨first + i, by omega, by omega, rfl⟩
      · rw [if_neg hp]; exact ⟨p1, h1, by omega, rfl⟩
    have hout : ∀ q, first + i ≤ q → get d2 q =
        if q = first + i then get data first else get data q := by
      intro q hq
      rw [hfr2.2.1 q (by omega), hsw q]
      by_cases h : q = first + i
      · rw [if_pos h, if_pos h]
      · rw [if_neg h, if_neg h, if_neg (by omega)]
    have hrec := ih d2 (by omega) (by omega) hheap2 ?_ ?_
    · exact ⟨hfr1.trans ((hfr2.mono (Nat.le_refl _) (by omega)).trans hrec.1), hrec.2⟩
    · intro p q hp hpq hq
      rw [hout p hp, hout q (by omega), if_neg (by omega)]
      by_cases h : p = first + i
      · rw [if_pos h]
        exact hcross first q (Nat.le_refl _) (by omega) (by omega) hq
      · rw [if_neg h]
        exact hs p q (by omega) hpq hq
    · intro p q hp1 hp2 hq1 hq2
      obtain ⟨p0, h1, h2, h3⟩ := hin p hp1 hp2
      rw [h3, hout q hq1]
      by_cases h : q = first + i
      · rw [if_pos h]
        have := hmax (p0 - first) (by omega)
        have e : first + (p0 - first) = p0 := by omega
        rw [e] at this
        exact this
      · rw [if_neg h]
        exact hcross p0 q h1 h2 (by omega) hq2

/-- The heap sort sorts `data[a:b]` in place. -/
theorem heapSort_func_spec (hw : StrictWeakOrder lt) (data : List α) (a b : Nat) (hab : a ≤ b)
    (hb : b ≤ data.length) :
    Frame data (heapSort_func lt data a b) a b ∧ SortedOn lt (heapSort_func lt data a b) a b := by
  unfold heapSort_func
  simp only []
  have e : a + (b - a) = b := by omega
  have h1 := heapSort_build_spec lt hw (b - a) a ((b - a - 1) / 2) data (by omega)
    (fun k c hk hc hc2 => by omega)
  have h2 := heapSort_pop_spec lt hw a (b - a) (b - a) _ (Nat.le_refl _)
    (by rw [h1.1.length]; omega) h1.2 (fun p q hp hpq hq => by omega)
    (fun p q hp1 hp2 hq1 hq2 => by omega)
  rw [e] at h1 h2
  exact ⟨h1.1.trans h2.1, h2.2⟩

end HeapSort

/-! ## `sort.Slice`: the quicksort -/

section Pdqsort
variable {α : Type} [Inhabited α] (lt : α → α → Bool)

/-- Two frames on disjoint ranges, one after the other. -/
theorem Frame.two_ranges {x y z : List α} {a1 b1 a2 b2 : Nat} (h1 : Frame x y a1 b1)
    (h2 : Frame y z a2 b2) (hdisj : b1 ≤ a2 ∨ b2 ≤ a1) :
    (∀ k, a1 ≤ k → k < b1 → ∃ k0, a1 ≤ k0 ∧ k0 < b1 ∧ get z k = get x k0) ∧
    (∀ k, a2 ≤ k → k < b2 → ∃ k0, a2 ≤ k0 ∧ k0 < b2 ∧ get z k = get x k0) ∧
    (∀ k, (k < a1 ∨ b1 ≤ k) → (k < a2 ∨ b2 ≤ k) → get z k = get x k) := by
  refine ⟨fun k hk1 hk2 => ?_, fun k hk1 hk2 => ?_, fun k hk1 hk2 => ?_⟩
  · obtain ⟨k0, h3, h4, h5⟩ := h1.2.2 k hk1 hk2
    exact ⟨k0, h3, h4, by rw [h2.2.1 k (by omega), h5]⟩
  · obtain ⟨k0, h3, h4, h5⟩ := h2.2.2 k hk1 hk2
    exact ⟨k0, h3, h4, by rw [h5, h1.2.1 k0 (by omega)]⟩
  · rw [h2.2.1 k hk2, h1.2.1 k hk1]

/-- A range is sorted when its two sides around a pivot are sorted and made
of the elements that a partition put there. -/
theorem sortedOn_of_partition (hw : StrictWeakOrder lt) (base final : List α) (a mid b : Nat)
    (hleft : ∀ k, a ≤ k → k < mid → lt (get base k) (get base mid) = true)
    (hright : ∀ k, mid < k → k < b → lt (get base k) (get base mid) = false)
    (hL : ∀ k, a ≤ k → k < mid → ∃ k0, a ≤ k0 ∧ k0 < mid ∧ get final k = get base k0)
    (hM : get final mid = get base mid)
    (hR : ∀ k, mid + 1 ≤ k → k < b → ∃ k0, mid + 1 ≤ k0 ∧ k0 < b ∧ get final k = get base k0)
    (hs1 : SortedOn lt final a mid) (hs2 : SortedOn lt final (mid + 1) b) :
    SortedOn lt final a b := by
  intro p q hp hpq hq
  by_cases hqm : q < mid
  · exact hs1 p q hp hpq hqm
  · by_cases hpm : mid < p
    · exact hs2 p q (by omega) hpq hq
    · -- p ≤ mid ≤ q
      have hpP : lt (get base mid) (get final p) = false := by
        by_cases h : p = mid
        · rw [h, hM]; exact hw.irrefl _
        · obtain ⟨k0, h1, h2, h3⟩ := hL p hp (by omega)
          rw [h3]
          exact hw.asymm _ _ (hleft k0 h1 h2)
      have hqP : lt (get final q) (get base mid) = false := by
        by_cases h : q = mid
        · rw [h, hM]; exact hw.irrefl _
        · obtain ⟨k0, h1, h2, h3⟩ := hR q (by omega) hq
          rw [h3]
          exact hright k0 (by omega) h2
      exact hw.ntrans _ _ _ hqP hpP

/-- After a partition the elements from `mid + 1` on have the elements up to
`mid` as lower bounds, whatever order the left side is put in. -/
theorem lowerBnd_right_of_partition (hw : StrictWeakOrder lt) (base cur : List α)
    (a mid b : Nat) (hamid : a ≤ mid) (hlow : LowerBnd lt base a b)
    (hleft : ∀ k, a ≤ k → k < mid → lt (get base k) (get base mid) = true)
    (hright : ∀ k, mid < k → k < b → lt (get base k) (get base mid) = false)
    (hL : ∀ k, a ≤ k → k < mid → ∃ k0, a ≤ k0 ∧ k0 < mid ∧ get cur k = get base k0)
    (hO : ∀ k, (k < a ∨ mid ≤ k) → get cur k = get base k) :
    LowerBnd lt cur (mid + 1) b := by
  intro k i hk hi1 hi2
  rw [hO i (by omega)]
  by_cases hka : k < a
  · rw [hO k (Or.inl hka)]
    exact hlow k i hka (by omega) hi2
  · by_cases hkm : k = mid
    · rw [hO k (by omega), hkm]
      exact hright i (by omega) hi2
    · obtain ⟨k0, h1, h2, h3⟩ := hL k (by omega) (by omega)
      rw [h3]
      exact hw.ntrans _ _ _ (hright i (by omega) hi2) (hw.asymm _ _ (hleft k0 h1 h2))

theorem pdqsort_loop_spec (hw : StrictWeakOrder lt) :
    ∀ (fuel : Nat) (data : List α) (a b limit : Nat) (wasBalanced wasPartitioned : Bool),
      a ≤ b → b ≤ data.length → b - a < fuel → LowerBnd lt data a b →
      Frame data (pdqsort_loop lt fuel data a b limit wasBalanced wasPartitioned) a b ∧
        SortedOn lt (pdqsort_loop lt fuel data a b limit wasBalanced wasPartitioned) a b := by
  intro fuel
  induction fuel with
  | zero => intro data a b limit wb wp _ _ hf _; omega
  | succ fuel ih =>
    intro data a b limit wb wp hab hb hf hlow
    simp only [pdqsort_loop]
    by_cases h12 : b - a ≤ 12
    · rw [if_pos h12]
      exact insertionSort_func_spec lt hw data a b hb
    · rw [if_neg h12]
      by_cases hlim : limit = 0
      · rw [if_pos hlim]
        exact heapSort_func_spec lt hw data a b hab hb
      · rw [if_neg hlim]
        -- breaking the patterns
        have hfr1 : Frame data (if (!wb) = true then breakPatterns_func data a b else data) a b := by
          split
          · exact breakPatterns_func_frame data a b hb
          · exact Frame.refl _ _ _
        generalize (if (!wb) = true then breakPatterns_func data a b else data) = data1 at *
        generalize (if (!wb) = true then limit - 1 else limit) = limit1 at *
        -- the pivot
        have hpiv := choosePivot_func_range lt data1 a b (by omega)
        generalize choosePivot_func lt data1 a b = ph at *
        generalize decide (ph.2 = sortedHint.decreasingHint) = dec at *
        have hfr2 : Frame data1 (if dec = true then reverseRange_func data1 a b else data1) a b := by
          split
          · exact reverseRange_func_frame data1 a b (by omega) (by rw [hfr1.length]; exact hb)
          · exact Frame.refl _ _ _
        have hpiv2 : a ≤ (if dec = true then b - 1 - (ph.1 - a) else ph.1) ∧
            (if dec = true then b - 1 - (ph.1 - a) else ph.1) < b := by
          split <;> omega
        generalize (if dec = true then reverseRange_func data1 a b else data1) = data2 at *
        generalize (if dec = true then b - 1 - (ph.1 - a) else ph.1) = pivot at *
        generalize (if dec = true then sortedHint.increasingHint else ph.2) = hint at *
        generalize (wb && wp && decide (hint = sortedHint.increasingHint)) = cond at *
        have hfr12 : Frame data data2 a b := hfr1.trans hfr2
        have hlen2 : data2.length = data.length := hfr12.length
        have hlow2 : LowerBnd lt data2 a b := hfr12.lowerBnd lt hlow
        -- the partial insertion sort
        have hps : Frame data2 (if cond = true then partialInsertionSort_func lt data2 a b
              else (data2, false)).1 a b ∧
            ((if cond = true then partialInsertionSort_func lt data2 a b
              else (data2, false)).2 = true →
              SortedOn lt (if cond = true then partialInsertionSort_func lt data2 a b
                else (data2, false)).1 a b) := by
          split
          · exact partialInsertionSort_func_spec lt hw data2 a b (by omega) (by omega) hlow2
          · exact ⟨Frame.refl _ _ _, fun h => Bool.noConfusion h⟩
        generalize (if cond = true then partialInsertionSort_func lt data2 a b
              else (data2, false)) = ps at *
        obtain ⟨hfr3, hsorted3⟩ := hps
        by_cases hdone : ps.2 = true
        · rw [if_pos hdone]
          exact ⟨hfr12.trans hfr3, hsorted3 hdone⟩
        · rw [if_neg hdone]
          have hfr123 : Frame data ps.1 a b := hfr12.trans hfr3
          have hlen3 : ps.1.length = data.length := hfr123.length
          have hlow3 : LowerBnd lt ps.1 a b := hfr123.lowerBnd lt hlow
          generalize ps.1 = data3 at *
          by_cases heq : a > 0 ∧ (!less lt data3 (a - 1) pivot) = true
          · rw [if_pos heq]
            obtain ⟨hfe, he1, he2, he3, he4⟩ :=
              partitionEqual_func_spec lt hw data3 a b pivot (by omega) hpiv2.1 hpiv2.2
            have hD : lt (get data3 (a - 1)) (get data3 pivot) = false := by
              simpa [less] using heq.2
            generalize partitionEqual_func lt data3 a b pivot = pe at *
            have hlen4 : pe.1.length = data.length := by rw [hfe.length, hlen3]
            have hlow4 : LowerBnd lt pe.1 a b := hfe.lowerBnd lt hlow3
            have hlowm : LowerBnd lt pe.1 pe.2 b := by
              intro k i hk hi1 hi2
              by_cases hka : k < a
              · exact hlow4 k i hka (by omega) hi2
              · exact hw.ntrans _ _ _ (hw.asymm _ _ (he4 i hi1 hi2)) (he3 k (by omega) hk)
            have hrec := ih pe.1 pe.2 b limit1 wb wp he2 (by omega) (by omega) hlowm
            refine ⟨hfr123.trans (hfe.trans (hrec.1.mono (by omega) (Nat.le_refl _))), ?_⟩
            intro p q hp hpq hq
            by_cases hpm : pe.2 ≤ p
            · exact hrec.2 p q hpm hpq hq
            · rw [hrec.1.2.1 p (by omega)]
              have hxp : lt (get data3 pivot) (get pe.1 p) = false := he3 p hp (by omega)
              by_cases hqm : pe.2 ≤ q
              · obtain ⟨q0, h1, h2, h3⟩ := hrec.1.2.2 q hqm hq
                rw [h3]
                exact hw.ntrans _ _ _ (hw.asymm _ _ (he4 q0 h1 h2)) hxp
              · rw [hrec.1.2.1 q (by omega)]
                have h1 : lt (get pe.1 q) (get pe.1 (a - 1)) = false :=
                  hlow4 (a - 1) q (by omega) (by omega) hq
                have h2 : get pe.1 (a - 1) = get data3 (a - 1) := hfe.2.1 (a - 1) (by omega)
                rw [h2] at h1
                exact hw.ntrans _ _ _ (hw.ntrans _ _ _ h1 hD) hxp
          · rw [if_neg heq]
            obtain ⟨hfp, hm1, hm2, hleft, hright⟩ :=
              partition_func_spec lt data3 a b pivot (by omega) hpiv2.1 hpiv2.2
            generalize partition_func lt data3 a b pivot = pt at *
            have hlen4 : pt.1.length = data.length := by rw [hfp.length, hlen3]
            have hlow4 : LowerBnd lt pt.1 a b := hfp.lowerBnd lt hlow3
            by_cases hside : pt.2.1 - a < b - pt.2.1
            · rw [if_pos hside]
              have h1 := ih pt.1 a pt.2.1 limit1 true true hm1 (by omega) (by omega)
                (fun k i hk hi1 hi2 => hlow4 k i hk hi1 (by omega))
              have hlowR : LowerBnd lt (pdqsort_loop lt fuel pt.1 a pt.2.1 limit1 true true)
                  (pt.2.1 + 1) b :=
                lowerBnd_right_of_partition lt hw pt.1 _ a pt.2.1 b hm1 hlow4 hleft hright
                  h1.1.2.2 (fun k hk => h1.1.2.1 k hk)
              have h2 := ih _ (pt.2.1 + 1) b limit1
                (decide (pt.2.1 - a ≥ (b - a) / 8)) pt.2.2 (by omega)
                (by rw [h1.1.length]; omega) (by omega) hlowR
              obtain ⟨hL, hR, hO⟩ := Frame.two_ranges h1.1 h2.1 (Or.inl (by omega))
              exact ⟨hfr123.trans (hfp.trans ((h1.1.mono (Nat.le_refl _) (by omega)).trans
                  (h2.1.mono (by omega) (Nat.le_refl _)))),
                sortedOn_of_partition lt hw pt.1 _ a pt.2.1 b hleft hright hL
                  (hO pt.2.1 (by omega) (by omega)) hR
                  (h2.1.sortedOn_outside lt (Or.inl (by omega)) h1.2) h2.2⟩
            · rw [if_neg hside]
              have hlowR : LowerBnd lt pt.1 (pt.2.1 + 1) b :=
                lowerBnd_right_of_partition lt hw pt.1 pt.1 a pt.2.1 b hm1 hlow4 hleft hright
                  (fun k h1 h2 => ⟨k, h1, h2, rfl⟩) (fun k _ => rfl)
              have h1 := ih pt.1 (pt.2.1 + 1) b limit1 true true (by omega) (by omega) (by omega)
                hlowR
              have hlowL : LowerBnd lt (pdqsort_loop lt fuel pt.1 (pt.2.1 + 1) b limit1 true true)
                  a pt.2.1 := by
                intro k i hk hi1 hi2
                rw [h1.1.2.1 k (by omega), h1.1.2.1 i (by omega)]
                exact hlow4 k i hk hi1 (by omega)
              have h2 := ih _ a pt.2.1 limit1
                (decide (b - pt.2.1 ≥ (b - a) / 8)) pt.2.2 hm1
                (by rw [h1.1.length]; omega) (by omega) hlowL
              obtain ⟨hR, hL, hO⟩ := Frame.two_ranges h1.1 h2.1 (Or.inr (by omega))
              exact ⟨hfr123.trans (hfp.trans ((h1.1.mono (by omega) (Nat.le_refl _)).trans
                  (h2.1.mono (Nat.le_refl _) (by omega)))),
                sortedOn_of_partition lt hw pt.1 _ a pt.2.1 b hleft hright hL
                  (hO pt.2.1 (by omega) (by omega)) hR h2.2
                  (h2.1.sortedOn_outside lt (Or.inr (by omega)) h1.2)⟩

/-- The pattern-defeating quicksort sorts `data[a:b]` in place. -/
theorem pdqsort_func_spec (hw : StrictWeakOrder lt) (data : List α) (a b limit : Nat)
    (hab : a ≤ b) (hb : b ≤ data.length) (hlow : LowerBnd lt data a b) :
    Frame data (pdqsort_func lt data a b limit) a b ∧
      SortedOn lt (pdqsort_func lt data a b limit) a b := by
  unfold pdqsort_func
  exact pdqsort_loop_spec lt hw (b - a + 1) data a b limit true true hab hb (by omega) hlow

/-- `sort.Slice` permutes the slice and leaves it sorted: no element is less
than an element before it. -/
theorem sortSlice_spec (hw : StrictWeakOrder lt) (x : List α) :
    (sortSlice lt x).Perm x ∧ SortedOn lt (sortSlice lt x) 0 x.length := by
  unfold sortSlice
  have h := pdqsort_func_spec lt hw x 0 x.length (bitsLen (x.length + 1) x.length)
    (Nat.zero_le _) (Nat.le_refl _) (fun k i hk _ _ => by omega)
  exact ⟨h.1.1, h.2⟩

end Pdqsort

/-! ## The order of identifiers, and loading -/

section StringOrder

theorem ltChars_irrefl : ∀ (a : List Char), ltChars a a = false := by
  intro a
  induction a with
  | nil => rfl
  | cons c cs ih => simp [ltChars, ih]

theorem ltChars_asymm : ∀ (a b : List Char), ltChars a b = true → ltChars b a = false := by
  intro a
  induction a with
  | nil =>
    intro b _
    cases b <;> rfl
  | cons c cs ih =>
    intro b h
    cases b with
    | nil => simp [ltChars] at h
    | cons d ds =>
      simp only [ltChars] at h ⊢
      by_cases h1 : c.toNat < d.toNat
      · rw [if_neg (by omega), if_pos h1]
      · rw [if_neg h1] at h
        by_cases h2 : d.toNat < c.toNat
        · rw [if_pos h2] at h
          exact absurd h (by simp)
        · rw [if_neg h2] at h
          rw [if_neg h2, if_neg h1]
          exact ih ds h

theorem ltChars_ntrans : ∀ (a b c : List Char),
    ltChars a b = false → ltChars b c = false → ltChars a c = false := by
  intro a
  induction a with
  | nil =>
    intro b c h1 h2
    cases b with
    | nil => exact h2
    | cons d ds => simp [ltChars] at h1
  | cons x xs ih =>
    intro b c h1 h2
    cases c with
    | nil => rfl
    | cons z zs =>
      cases b with
      | nil => simp [ltChars] at h2
      | cons y ys =>
        simp only [ltChars] at h1 h2 ⊢
        by_cases hxy : x.toNat < y.toNat
        · rw [if_pos hxy] at h1
          exact absurd h1 (by simp)
        · rw [if_neg hxy] at h1
          by_cases hyz : y.toNat < z.toNat
          · rw [if_pos hyz] at h2
            exact absurd h2 (by simp)
          · rw [if_neg hyz] at h2
            by_cases hyx : y.toNat < x.toNat
            · rw [if_neg (by omega), if_pos (by omega)]
            · rw [if_neg hyx] at h1
              by_cases hzy : z.toNat < y.toNat
              · rw [if_neg (by omega), if_pos (by omega)]
              · rw [if_neg hzy] at h2
                rw [if_neg (by omega), if_neg (by omega)]
                exact ih ys zs h1 h2

theorem ltChars_total : ∀ (a b : List Char),
    ltChars a b = false → ltChars b a = false → a = b := by
  intro a
  induction a with
  | nil =>
    intro b h1 _
    cases b with
    | nil => rfl
    | cons d ds => simp [ltChars] at h1
  | cons x xs ih =>
    intro b h1 h2
    cases b with
    | nil => simp [ltChars] at h2
    | cons y ys =>
      simp only [ltChars] at h1 h2
      by_cases hxy : x.toNat < y.toNat
      · rw [if_pos hxy] at h1
        exact absurd h1 (by simp)
      · rw [if_neg hxy] at h1
        by_cases hyx : y.toNat < x.toNat
        · rw [if_pos hyx] at h2
          exact absurd h2 (by simp)
        · rw [if_neg hyx] at h1 h2
          rw [if_neg hxy] at h2
          have hc : x = y := by
            apply Char.ext
            apply UInt32.ext
            have : x.toNat = y.toNat := by omega
            exact this
          rw [hc, ih ys h1 h2]

/-- The comparison handed to `sort.Slice` is a strict weak order. -/
theorem modelLess_strictWeakOrder (table : Char → Char) : StrictWeakOrder (modelLess table) :=
  ⟨fun _ _ h => ltChars_asymm _ _ h, fun _ _ _ h1 h2 => ltChars_ntrans _ _ _ h1 h2⟩

/-- Two models that the comparison does not tell apart have the same
identifier in lower case. -/
theorem modelLess_tie (table : Char → Char) (x y : Model)
    (h1 : modelLess table x y = false) (h2 : modelLess table y x = false) :
    toLower table x.ID = toLower table y.ID := by
  have := ltChars_total _ _ h1 h2
  unfold toLower at *
  simp only [] at this
  rw [this]

theorem modelLess_of_eq (table : Char → Char) (x y : Model)
    (h : toLower table x.ID = toLower table y.ID) : modelLess table x y = false := by
  unfold modelLess stringLess
  rw [h]
  exact ltChars_irrefl _

end StringOrder

section Loading

theorem loadModels_parsed (docs : List Catalog) :
    ∀ (allModels : List Model),
      loadModels (docs.map Source.parsed) allModels =
        some (allModels ++ docs.flatMap (fun c => c.Models)) := by
  induction docs with
  | nil => intro allModels; simp [loadModels]
  | cons d ds ih =>
    intro allModels
    simp only [List.map_cons, loadModels, ih, List.flatMap_cons, List.append_assoc]

theorem loadModels_bad (files : List Source)
    (h : ∃ s ∈ files, s = Source.unreadable ∨ s = Source.malformed) :
    ∀ (allModels : List Model), loadModels files allModels = none := by
  induction files with
  | nil =>
    obtain ⟨s, hs, _⟩ := h
    simp at hs
  | cons f fs ih =>
    intro allModels
    cases f with
    | unreadable => rfl
    | malformed => rfl
    | parsed c =>
      simp only [loadModels]
      apply ih
      obtain ⟨s, hs, hbad⟩ := h
      rcases List.mem_cons.mp hs with h1 | h1
      · subst h1
        rcases hbad with h2 | h2 <;> cases h2
      · exact ⟨s, h1, hbad⟩

theorem sortModels_spec (table : Char → Char) (allModels : List Model) :
    (sortModels table allModels).Perm allModels ∧
      SortedOn (modelLess table) (sortModels table allModels) 0 allModels.length :=
  sortSlice_spec (modelLess table) (modelLess_strictWeakOrder table) allModels

end Loading

/-! ## The run of `main` -/

section MainLemmas

theorem main_parsed (table : Char → Char) (docs : List Catalog) (canCreate : Bool)
    (before : Option String) :
    main table (some (docs.map Source.parsed)) canCreate before =
      if canCreate then
        ⟨0, some (render table (sortModels table (docs.flatMap (fun c => c.Models)))),
          "Generated CATALOG.md with " ++
            Nat.repr (sortModels table (docs.flatMap (fun c => c.Models))).length ++ " models\n"⟩
      else ⟨1, before, ""⟩ := by
  unfold main
  simp only [loadModels_parsed, List.nil_append]

theorem get_of_getElem? {α : Type} [Inhabited α] (l : List α) (i : Nat) (x : α)
    (h : l[i]? = some x) : i < l.length ∧ get l i = x := by
  obtain ⟨hi, hx⟩ := List.getElem?_eq_some_iff.mp h
  exact ⟨hi, by rw [get_eq_getElem l i hi, hx]⟩

/-- A list that `sort.Slice` leaves sorted, as a chain: of two elements the
earlier is less than the later, or they are the same, when ties are only
between equal elements. -/
theorem pairwise_of_sortedOn {α : Type} [Inhabited α] (lt : α → α → Bool) (l : List α)
    (hs : SortedOn lt l 0 l.length)
    (hties : ∀ x ∈ l, ∀ y ∈ l, lt x y = false → lt y x = false → x = y) :
    l.Pairwise (fun x y => lt x y = true ∨ x = y) := by
  rw [List.pairwise_iff_getElem]
  intro i j hi hj hij
  have h := hs i j (Nat.zero_le _) hij hj
  rw [get_eq_getElem l i hi, get_eq_getElem l j hj] at h
  by_cases hlt : lt l[i] l[j] = true
  · exact Or.inl hlt
  · exact Or.inr (hties _ (List.getElem_mem _) _ (List.getElem_mem _) (by simpa using hlt) h)

/-- Two sorted permutations of each other are equal when ties are only
between equal elements. -/
theorem sorted_perm_unique {α : Type} [Inhabited α] (lt : α → α → Bool)
    (hw : StrictWeakOrder lt) (l1 l2 : List α) (hp : l1.Perm l2)
    (hs1 : SortedOn lt l1 0 l1.length) (hs2 : SortedOn lt l2 0 l2.length)
    (hties : ∀ x ∈ l1, ∀ y ∈ l1, lt x y = false → lt y x = false → x = y) :
    l1 = l2 := by
  have hanti : IsAntisymm α (fun x y => lt x y = true ∨ x = y) := by
    constructor
    intro x y h1 h2
    rcases h1 with h1 | h1
    · rcases h2 with h2 | h2
      · have := hw.asymm x y h1
        rw [h2] at this
        exact Bool.noConfusion this
      · exact h2.symm
    · exact h1
  have p1 := pairwise_of_sortedOn lt l1 hs1 hties
  have p2 := pairwise_of_sortedOn lt l2 hs2
    (fun x hx y hy => hties x (hp.mem_iff.mpr hx) y (hp.mem_iff.mpr hy))
  exact List.eq_of_perm_of_sorted hp p1 p2

theorem formatInt_eq_toString (n : Int) : formatInt n = toString n := by
  cases n <;> rfl

end MainLemmas

section Claims

set_option exponentiation.threshold 2000 in
set_option maxRecDepth 100000 in
/-- C1. For every list of catalog documents, the output of `main` is the
header followed by the rows of the sorted records; the sorted records are the
records of the documents, each as often as it is there; and in the sorted
order a record whose identifier in lower case is less than another's stands
before it: if `A` is at position `i`, `B` at position `j` and
`lowercase(A.ID) < lowercase(B.ID)`, then `i < j`. The records `delta`,
`Bravo`, `alpha`, `Charlie` of two documents are rendered in the order `alpha`,
`Bravo`, `Charlie`, `delta`. -/
theorem rows_in_order_of_lowercase_identifier (table : Char → Char) (docs : List Catalog)
    (before : Option String) :
    (main table (some (docs.map Source.parsed)) true before).outputFile =
      some (header ++ String.join
        ((sortModels table (docs.flatMap (fun c => c.Models))).map (renderRow table))) ∧
    (sortModels table (docs.flatMap (fun c => c.Models))).Perm
      (docs.flatMap (fun c => c.Models)) ∧
    (∀ (i j : Nat) (A B : Model),
      (sortModels table (docs.flatMap (fun c => c.Models)))[i]? = some A →
      (sortModels table (docs.flatMap (fun c => c.Models)))[j]? = some B →
      stringLess (toLower table A.ID) (toLower table B.ID) = true → i < j) ∧
    toLower table "Bravo-7" = "bravo-7" ∧
    stringLess "alpha" "bravo" = true ∧ stringLess "bravo" "alpha" = false ∧
    stringLess "Bravo" "alpha" = true ∧
    (main id (some [Source.parsed ⟨"one", [modelOf "delta" "1", modelOf "Bravo" "2"]⟩,
        Source.parsed ⟨"two", [modelOf "alpha" "3", modelOf "Charlie" "4"]⟩]) true none).outputFile =
      some (header ++
        "| [alpha]() | 3 |  | 0 MB | - | 0001-01-01 |  |  |  |  |  |  |  |\n" ++
        "| [Bravo]() | 2 |  | 0 MB | - | 0001-01-01 |  |  |  |  |  |  |  |\n" ++
        "| [Charlie]() | 4 |  | 0 MB | - | 0001-01-01 |  |  |  |  |  |  |  |\n" ++
        "| [delta]() | 1 |  | 0 MB | - | 0001-01-01 |  |  |  |  |  |  |  |\n") := by
  obtain ⟨hp, hs⟩ := sortModels_spec table (docs.flatMap (fun c => c.Models))
  refine ⟨by rw [main_parsed]; rfl, hp, ?_, rfl, by decide, by decide, by decide, by decide⟩
  intro i j A B hA hB hlt
  obtain ⟨hi, hgA⟩ := get_of_getElem? _ i A hA
  obtain ⟨hj, hgB⟩ := get_of_getElem? _ j B hB
  by_contra hij
  have hw := modelLess_strictWeakOrder table
  by_cases heq : i = j
  · subst heq
    rw [hgA] at hgB
    subst hgB
    have := hw.irrefl A
    unfold modelLess at this
    rw [hlt] at this
    exact Bool.noConfusion this
  · have := hs j i (Nat.zero_le _) (by omega) (by rw [← hp.length_eq]; exact hi)
    rw [hgA, hgB] at this
    unfold modelLess at this
    rw [hlt] at this
    exact Bool.noConfusion this

/-- C5. When reading or decoding fails for some file, whatever its position
among the files, `main` exits with status 1 and the output file is what it
was before the run. -/
theorem abort_before_output_on_bad_document (table : Char → Char) (files : List Source)
    (canCreate : Bool) (before : Option String)
    (h : ∃ s ∈ files, s = Source.unreadable ∨ s = Source.malformed) :
    (main table (some files) canCreate before).exitCode = 1 ∧
      (main table (some files) canCreate before).outputFile = before := by
  have hload := loadModels_bad files h []
  unfold main
  simp only [hload]
  exact ⟨trivial, trivial⟩

/-- Witness of C5: a malformed file after a good one, with an output file
already there. -/
theorem abort_before_output_on_bad_document_witness :
    (∃ s ∈ [Source.parsed docLower, Source.malformed, Source.parsed docUpper],
      s = Source.unreadable ∨ s = Source.malformed) ∧
    (main id (some [Source.parsed docLower, Source.malformed, Source.parsed docUpper]) true
      (some "old")).exitCode = 1 ∧
    (main id (some [Source.parsed docLower, Source.malformed, Source.parsed docUpper]) true
      (some "old")).outputFile = some "old" :=
  ⟨⟨Source.malformed, by simp, Or.inr rfl⟩,
    abort_before_output_on_bad_document id _ true (some "old")
      ⟨Source.malformed, by simp, Or.inr rfl⟩⟩

set_option maxRecDepth 100000 in
set_option exponentiation.threshold 2000 in
/-- Counterexample to C3: two documents whose models `a` and `A` have the same
identifier in lower case are rendered in the order of their enumeration. -/
theorem output_depends_on_enumeration_order :
    [docLower, docUpper].Perm [docUpper, docLower] ∧
    (main id (some ([docLower, docUpper].map Source.parsed)) true none).outputFile ≠
      (main id (some ([docUpper, docLower].map Source.parsed)) true none).outputFile :=
  ⟨List.Perm.swap _ _ _, by decide⟩

/-- C3, amended. When any two records whose identifiers are equal in lower
case are the same record, two runs on the same documents in two orders leave
the same result: the output document does not depend on the order of
enumeration. -/
theorem output_independent_of_enumeration_order (table : Char → Char)
    (docs1 docs2 : List Catalog) (canCreate : Bool) (before : Option String)
    (hperm : docs1.Perm docs2)
    (hties : ∀ x ∈ docs1.flatMap (fun c => c.Models), ∀ y ∈ docs1.flatMap (fun c => c.Models),
      toLower table x.ID = toLower table y.ID → x = y) :
    main table (some (docs1.map Source.parsed)) canCreate before =
      main table (some (docs2.map Source.parsed)) canCreate before := by
  have hflat : (docs1.flatMap (fun c => c.Models)).Perm (docs2.flatMap (fun c => c.Models)) :=
    hperm.flatMap_right _
  obtain ⟨hp1, hs1⟩ := sortModels_spec table (docs1.flatMap (fun c => c.Models))
  obtain ⟨hp2, hs2⟩ := sortModels_spec table (docs2.flatMap (fun c => c.Models))
  have heq : sortModels table (docs1.flatMap (fun c => c.Models)) =
      sortModels table (docs2.flatMap (fun c => c.Models)) := by
    apply sorted_perm_unique (modelLess table) (modelLess_strictWeakOrder table) _ _
      ((hp1.trans hflat).trans hp2.symm)
    · rw [hp1.length_eq]; exact hs1
    · rw [hp2.length_eq]; exact hs2
    · intro x hx y hy h1 h2
      exact hties x (hp1.mem_iff.mp hx) y (hp1.mem_iff.mp hy) (modelLess_tie table x y h1 h2)
  rw [main_parsed, main_parsed, heq]

/-- Witness of the amended C3: the documents of `a` and `b` in two orders. -/
theorem output_independent_of_enumeration_order_witness :
    [docLower, docOther].Perm [docOther, docLower] ∧
    main id (some ([docLower, docOther].map Source.parsed)) true none =
      main id (some ([docOther, docLower].map Source.parsed)) true none :=
  ⟨List.Perm.swap _ _ _,
    output_independent_of_enumeration_order id [docLower, docOther] [docOther, docLower] true none
      (List.Perm.swap _ _ _) (by decide)⟩

/-- C10. For every integer `n`, `formatContextWindow n` is `"-"` when `n = 0`,
the decimal rendering of the quotient `n / 1024` followed by `"K"` when
`n ≥ 1024`, and the decimal rendering of `n` otherwise; so `0` gives `"-"`,
`8192` gives `"8K"` and `512` gives `"512"`. -/
theorem formatContextWindow_spec (n : Int) :
    formatContextWindow n =
      (if n = 0 then "-"
        else if 1024 ≤ n then toString (n / 1024) ++ "K"
        else toString n) ∧
    formatContextWindow 0 = "-" ∧ formatContextWindow 8192 = "8K" ∧
    formatContextWindow 512 = "512" := by
  refine ⟨?_, by decide, by decide, by decide⟩
  unfold formatContextWindow
  by_cases h0 : n = 0
  · rw [if_pos h0, if_pos h0]
  · rw [if_neg h0, if_neg h0]
    have hKB : ((KB : Nat) : Int) = 1024 := by decide
    rw [hKB]
    by_cases h1 : (1024 : Int) ≤ n
    · rw [if_pos h1, if_pos h1, formatInt_eq_toString,
        Int.tdiv_eq_ediv (by omega) (by omega)]
    · rw [if_neg h1, if_neg h1, formatInt_eq_toString]

end Claims

/-! ## Stability of the sort -/

section Stability
variable {α : Type} [Inhabited α] (lt : α → α → Bool)

theorem swap_cons_succ (x : α) (xs : List α) (i j : Nat) :
    swap (x :: xs) (i + 1) (j + 1) = x :: swap xs i j := by
  unfold swap
  by_cases h : i < xs.length ∧ j < xs.length
  · rw [if_pos h, if_pos (by simpa using h)]
    simp [get]
  · rw [if_neg h, if_neg (by simpa using h)]

theorem swap_adjacent_filter (p : α → Bool) :
    ∀ (data : List α) (j : Nat), j + 1 < data.length →
      ¬ (p (get data (j + 1)) = true ∧ p (get data j) = true) →
      (swap data (j + 1) j).filter p = data.filter p := by
  intro data
  induction data with
  | nil => intro j h; simp at h
  | cons x xs ih =>
    intro j hj hp
    cases j with
    | zero =>
      cases xs with
      | nil => simp at hj
      | cons y ys =>
        have hsw : swap (x :: y :: ys) 1 0 = y :: x :: ys := by
          simp [swap, get]
        have hx : get (x :: y :: ys) 0 = x := by simp [get]
        have hy : get (x :: y :: ys) 1 = y := by simp [get]
        rw [hx, hy] at hp
        rw [hsw]
        simp only [List.filter_cons]
        by_cases h1 : p x = true <;> by_cases h2 : p y = true
        · exact absurd ⟨h2, h1⟩ hp
        · simp [h1, h2]
        · simp [h1, h2]
        · simp [h1, h2]
    | succ j =>
      rw [swap_cons_succ]
      have h1 : get (x :: xs) (j + 1 + 1) = get xs (j + 1) := by simp [get]
      have h2 : get (x :: xs) (j + 1) = get xs j := by simp [get]
      rw [h1, h2] at hp
      simp only [List.filter_cons]
      rw [ih j (by simpa using hj) hp]

theorem insertionSort_inner_filter (p : α → Bool)
    (hp : ∀ x y, lt x y = true → ¬ (p x = true ∧ p y = true)) (a : Nat) :
    ∀ (j : Nat) (data : List α), j < data.length →
      (insertionSort_inner lt a data j).filter p = data.filter p := by
  intro j
  induction j with
  | zero => intro data _; simp only [insertionSort_inner]
  | succ j ih =>
    intro data hj
    simp only [insertionSort_inner]
    by_cases hc : j + 1 > a ∧ less lt data (j + 1) j = true
    · rw [if_pos hc, ih _ (by rw [length_swap]; omega)]
      exact swap_adjacent_filter p data j hj (hp _ _ hc.2)
    · rw [if_neg hc]

theorem insertionSort_inner_length (a : Nat) :
    ∀ (j : Nat) (data : List α), (insertionSort_inner lt a data j).length = data.length := by
  intro j
  induction j with
  | zero => intro data; simp only [insertionSort_inner]
  | succ j ih =>
    intro data
    simp only [insertionSort_inner]
    split
    · rw [ih, length_swap]
    · rfl

theorem insertionSort_outer_filter (p : α → Bool)
    (hp : ∀ x y, lt x y = true → ¬ (p x = true ∧ p y = true)) (a b : Nat) :
    ∀ (fuel : Nat) (data : List α) (i : Nat), b ≤ data.length →
      (insertionSort_outer lt a b fuel data i).filter p = data.filter p := by
  intro fuel
  induction fuel with
  | zero => intro data i _; simp only [insertionSort_outer]
  | succ fuel ih =>
    intro data i hb
    simp only [insertionSort_outer]
    by_cases hi : i < b
    · rw [if_pos hi, ih _ _ (by rw [insertionSort_inner_length]; exact hb)]
      exact insertionSort_inner_filter lt p hp a i data (by omega)
    · rw [if_neg hi]

/-- `sort.Slice` on at most twelve elements is the insertion sort, which never
swaps two elements that are both picked by `p` when no element picked by `p`
is less than another. -/
theorem sortSlice_filter_of_short (p : α → Bool)
    (hp : ∀ x y, lt x y = true → ¬ (p x = true ∧ p y = true)) (x : List α)
    (hlen : x.length ≤ 12) : (sortSlice lt x).filter p = x.filter p := by
  unfold sortSlice pdqsort_func
  simp only [Nat.sub_zero, pdqsort_loop]
  rw [if_pos hlen]
  unfold insertionSort_func
  exact insertionSort_outer_filter lt p hp 0 x.length _ x 1 (Nat.le_refl _)

end Stability

section StabilityClaims

set_option maxRecDepth 100000 in
/-- Counterexample to C2: of thirteen records, eleven with the identifier `b`,
the one loaded seventh is rendered before the ones loaded third to sixth. -/
theorem sort_not_stable :
    (sortModels id thirteenRecords).map (fun m => m.Category) =
      ["0", "6", "2", "3", "4", "5", "7", "8", "9", "10", "11", "12", "1"] ∧
    recordsWithKey id "b" (sortModels id thirteenRecords) ≠
      recordsWithKey id "b" thirteenRecords := by
  decide

/-- C2, amended. For every list of at most twelve records, the records whose
identifiers are equal after lowercasing appear in the sorted output in the
order in which they were loaded. -/
theorem sort_stable_up_to_twelve (table : Char → Char) (allModels : List Model)
    (key : String) (hlen : allModels.length ≤ 12) :
    recordsWithKey table key (sortModels table allModels) =
      recordsWithKey table key allModels := by
  unfold recordsWithKey sortModels
  apply sortSlice_filter_of_short (modelLess table) _ _ allModels hlen
  intro x y hlt hxy
  have h1 : toLower table x.ID = key := by simpa using hxy.1
  have h2 : toLower table y.ID = key := by simpa using hxy.2
  have := modelLess_of_eq table x y (h1.trans h2.symm)
  rw [hlt] at this
  exact Bool.noConfusion this

set_option maxRecDepth 100000 in
/-- Witness of the amended C2: the first twelve of the thirteen records. -/
theorem sort_stable_up_to_twelve_witness :
    (thirteenRecords.take 12).length ≤ 12 ∧
    recordsWithKey id "b" (sortModels id (thirteenRecords.take 12)) =
      recordsWithKey id "b" (thirteenRecords.take 12) :=
  ⟨by decide, sort_stable_up_to_twelve id (thirteenRecords.take 12) "b" (by decide)⟩

end StabilityClaims

/-! ## Scanning a size -/

section ScanLemmas

theorem not_mem_of_isSpace (ok : List Char) (hok : ∀ x ∈ ok, isSpace x = false) (c : Char)
    (hc : isSpace c = true) : c ∉ ok := by
  intro h
  rw [hok c h] at hc
  exact Bool.noConfusion hc

theorem accept_extend (ok : List Char) (c : Char) (rest : List Char) (hc : c ∉ ok)
    (s : Scanner) :
    accept ok (s.extend (c :: rest)) =
      ((accept ok s).1, (accept ok s).2.extend (c :: rest)) := by
  obtain ⟨buf, inp⟩ := s
  cases inp with
  | nil => simp [accept, Scanner.extend, hc]
  | cons x xs =>
    by_cases hx : x ∈ ok
    · simp [accept, Scanner.extend, hx]
    · simp [accept, Scanner.extend, hx]

theorem acceptIf_extend (ok : List Char) (c : Char) (rest : List Char) (hc : c ∉ ok)
    (b : Bool) (s : Scanner) :
    (if b = true then accept ok (s.extend (c :: rest)) else (false, s.extend (c :: rest))) =
      ((if b = true then accept ok s else (false, s)).1,
        (if b = true then accept ok s else (false, s)).2.extend (c :: rest)) := by
  cases b
  · rfl
  · simp only [if_true]
    exact accept_extend ok c rest hc s

theorem acceptAll_extend (ok : List Char) (c : Char) (rest : List Char) (hc : c ∉ ok) :
    ∀ (inp buf : List Char),
      acceptAll ok buf (inp ++ c :: rest) = (acceptAll ok buf inp).extend (c :: rest) := by
  intro inp
  induction inp with
  | nil => intro buf; simp [acceptAll, Scanner.extend, hc]
  | cons x xs ih =>
    intro buf
    by_cases hx : x ∈ ok
    · simp only [List.cons_append, acceptAll, if_pos hx]
      exact ih _
    · simp [acceptAll, Scanner.extend, hx]

theorem acceptAll_extend_scanner (ok : List Char) (c : Char) (rest : List Char) (hc : c ∉ ok)
    (s : Scanner) :
    acceptAll ok (s.extend (c :: rest)).buf (s.extend (c :: rest)).input =
      (acceptAll ok s.buf s.input).extend (c :: rest) :=
  acceptAll_extend ok c rest hc s.input s.buf

theorem ite_extend (b : Prop) [Decidable b] (t : List Char) (s1 s2 : Scanner) :
    (if b then s1.extend t else s2.extend t) = (if b then s1 else s2).extend t := by
  split <;> rfl

theorem Scanner.extend_buf (t : List Char) (s : Scanner) : (s.extend t).buf = s.buf := rfl

theorem Scanner.extend_input (t : List Char) (s : Scanner) :
    (s.extend t).input = s.input ++ t := rfl

theorem accept3_extend (a b d : List Char) (c : Char) (rest : List Char)
    (ha : c ∉ a) (hb : c ∉ b) (hd : c ∉ d) (s : Scanner) :
    accept3 a b d (s.extend (c :: rest)) =
      ((accept3 a b d s).1, (accept3 a b d s).2.extend (c :: rest)) := by
  unfold accept3
  dsimp only
  rw [accept_extend a c rest ha s]
  dsimp only
  rw [acceptIf_extend b c rest hb]
  dsimp only
  rw [acceptIf_extend d c rest hd]

theorem floatDigits_extend (c : Char) (rest : List Char) (hc : c ∉ floatChars) (s : Scanner) :
    floatDigits (s.extend (c :: rest)) = (floatDigits s).extend (c :: rest) := by
  have k3 : c ∉ "+-".data := fun h => hc ((by decide : ∀ x ∈ "+-".data, x ∈ floatChars) c h)
  have k6 : c ∉ "0".data := fun h => hc ((by decide : ∀ x ∈ "0".data, x ∈ floatChars) c h)
  have k7 : c ∉ "xX".data := fun h => hc ((by decide : ∀ x ∈ "xX".data, x ∈ floatChars) c h)
  have k8 : c ∉ "0123456789aAbBcCdDeEfF_".data :=
    fun h => hc ((by decide : ∀ x ∈ "0123456789aAbBcCdDeEfF_".data, x ∈ floatChars) c h)
  have k9 : c ∉ "0123456789_".data :=
    fun h => hc ((by decide : ∀ x ∈ "0123456789_".data, x ∈ floatChars) c h)
  have k10 : c ∉ ".".data := fun h => hc ((by decide : ∀ x ∈ ".".data, x ∈ floatChars) c h)
  have k11 : c ∉ "pP".data := fun h => hc ((by decide : ∀ x ∈ "pP".data, x ∈ floatChars) c h)
  have k12 : c ∉ "eEpP".data :=
    fun h => hc ((by decide : ∀ x ∈ "eEpP".data, x ∈ floatChars) c h)
  unfold floatDigits
  dsimp only
  rw [accept_extend _ c rest k6 s]
  dsimp only
  rw [acceptIf_extend _ c rest k7]
  generalize (if (accept "0".data s).1 = true then accept "xX".data (accept "0".data s).2
    else (false, (accept "0".data s).2)) = x
  dsimp only
  have hd : c ∉ (if x.1 = true then "0123456789aAbBcCdDeEfF_".data else "0123456789_".data) := by
    split
    · exact k8
    · exact k9
  have he : c ∉ (if x.1 = true then "pP".data else "eEpP".data) := by
    split
    · exact k11
    · exact k12
  generalize (if x.1 = true then "0123456789aAbBcCdDeEfF_".data else "0123456789_".data) = digits
    at hd ⊢
  generalize (if x.1 = true then "pP".data else "eEpP".data) = exp at he ⊢
  rw [acceptAll_extend_scanner digits c rest hd x.2]
  rw [accept_extend _ c rest k10]
  dsimp only
  generalize accept ".".data (acceptAll digits x.2.buf x.2.input) = dot
  have h3 : (if dot.1 = true then
        acceptAll digits (dot.2.extend (c :: rest)).buf (dot.2.extend (c :: rest)).input
      else dot.2.extend (c :: rest)) =
      (if dot.1 = true then acceptAll digits dot.2.buf dot.2.input else dot.2).extend
        (c :: rest) := by
    split
    · exact acceptAll_extend_scanner digits c rest hd dot.2
    · rfl
  rw [h3, accept_extend _ c rest he]
  dsimp only
  generalize accept exp (if dot.1 = true then acceptAll digits dot.2.buf dot.2.input
    else dot.2) = ex
  split
  · rw [accept_extend _ c rest k3]
    dsimp only
    exact acceptAll_extend_scanner _ c rest k9 _
  · rfl

/-- The token that the verb reads does not change when the input goes on
after a character that no number has. -/
theorem floatToken_append (inp : List Char) (c : Char) (rest : List Char)
    (hc : c ∉ floatChars) :
    floatToken (inp ++ c :: rest) = ((floatToken inp).1, (floatToken inp).2 ++ c :: rest) := by
  have k1 : c ∉ "nN".data := fun h => hc ((by decide : ∀ x ∈ "nN".data, x ∈ floatChars) c h)
  have k2 : c ∉ "aA".data := fun h => hc ((by decide : ∀ x ∈ "aA".data, x ∈ floatChars) c h)
  have k3 : c ∉ "+-".data := fun h => hc ((by decide : ∀ x ∈ "+-".data, x ∈ floatChars) c h)
  have k4 : c ∉ "iI".data := fun h => hc ((by decide : ∀ x ∈ "iI".data, x ∈ floatChars) c h)
  have k5 : c ∉ "fF".data := fun h => hc ((by decide : ∀ x ∈ "fF".data, x ∈ floatChars) c h)
  have e0 : (⟨[], inp ++ c :: rest⟩ : Scanner) = Scanner.extend (c :: rest) ⟨[], inp⟩ := rfl
  unfold floatToken
  dsimp only
  rw [e0, accept3_extend _ _ _ c rest k1 k2 k1]
  dsimp only
  generalize accept3 "nN".data "aA".data "nN".data ⟨[], inp⟩ = n
  split
  · rfl
  · rw [accept_extend _ c rest k3, accept3_extend _ _ _ c rest k4 k1 k5]
    dsimp only
    generalize accept3 "iI".data "nN".data "fF".data (accept "+-".data n.2).2 = i
    split
    · rfl
    · rw [floatDigits_extend c rest hc]
      rfl

/-- A space is not a character of a number. -/
theorem not_mem_floatChars_of_isSpace (c : Char) (hc : isSpace c = true) : c ∉ floatChars :=
  not_mem_of_isSpace floatChars (by decide) c hc

theorem skipSpace_of_not_isSpace (c : Char) (rest : List Char) (hc : isSpace c = false) :
    skipSpace (c :: rest) = some (c :: rest) := by
  have hn : c ≠ '\n' := by
    intro h
    rw [h] at hc
    exact absurd hc (by decide)
  simp [skipSpace, hn, hc]

end ScanLemmas

section SizeClaims

end SizeClaims

/-! ## Units and totals -/

section UnitClaims

end UnitClaims

section TotalClaims

theorem totalBytes_eq_foldl (table : Char → Char) (files : Files) :
    totalBytes table files = (byteValues table files).foldl F64.add F64.zero := by
  unfold totalBytes byteValues
  rw [List.foldl_append, List.foldl_map]
  cases files.Proj <;> rfl

set_option maxRecDepth 100000 in
set_option exponentiation.threshold 2000 in
/-- C6. For every manifest, the total of `calculateTotalSize` is the sum, from
zero and in `float64` arithmetic, of the byte values of the entries and of the
project file when there is one; the result is the total divided by 1024^3
with one decimal and `" GB"` when the total is at least 1024^3, and the total
divided by 1024^2 with no decimals and `" MB"` otherwise. The entries
`500 MB` and `600 MB` give `1.1 GB`. -/
theorem calculateTotalSize_spec (table : Char → Char) (files : Files) :
    totalBytes table files = (byteValues table files).foldl F64.add F64.zero ∧
    calculateTotalSize table files =
      (if F64.ge ((byteValues table files).foldl F64.add F64.zero) (F64.ofNat (1024 ^ 3)) = true then
        formatFloat 1
          (F64.div ((byteValues table files).foldl F64.add F64.zero) (F64.ofNat (1024 ^ 3))) ++ " GB"
      else
        formatFloat 0
          (F64.div ((byteValues table files).foldl F64.add F64.zero) (F64.ofNat (1024 ^ 2))) ++ " MB") ∧
    calculateTotalSize id ⟨[⟨"", "500 MB"⟩, ⟨"", "600 MB"⟩], none⟩ = "1.1 GB" ∧
    calculateTotalSize id ⟨[⟨"", "500 MB"⟩], some ⟨"", "12 MB"⟩⟩ = "512 MB" := by
  refine ⟨totalBytes_eq_foldl table files, ?_, by decide, by decide⟩
  unfold calculateTotalSize
  rw [totalBytes_eq_foldl]
  rfl

end TotalClaims

/-! ## Malformed sizes -/

section ReadFloatLemmas

theorem readMantissa_underscores (base : Nat) :
    ∀ (s : List Char) (st : Mantissa), st.underscores = true →
      (readMantissa base st s).1.underscores = true := by
  intro s
  induction s with
  | nil => intro st h; exact h
  | cons c s ih =>
    intro st h
    unfold readMantissa
    split
    · exact ih _ rfl
    · split
      · split
        · exact h
        · exact ih _ h
      · split
        · split
          · exact ih _ h
          · exact ih _ h
        · split
          · exact ih _ h
          · exact h

theorem readMantissa_length (base : Nat) :
    ∀ (s : List Char) (st : Mantissa), (readMantissa base st s).2.length ≤ s.length := by
  intro s
  induction s with
  | nil => intro st; exact Nat.le_refl _
  | cons c s ih =>
    intro st
    unfold readMantissa
    have h1 : ∀ st1, (readMantissa base st1 s).2.length ≤ (c :: s).length :=
      fun st1 => Nat.le_trans (ih st1) (Nat.le_succ _)
    split
    · exact h1 _
    · split
      · split
        · exact Nat.le_refl _
        · exact h1 _
      · split
        · split
          · exact h1 _
          · exact h1 _
        · split
          · exact h1 _
          · exact Nat.le_refl _

theorem readExponent_underscores :
    ∀ (s : List Char) (e : Nat), (readExponent e true s).2.1 = true := by
  intro s
  induction s with
  | nil => intro e; rfl
  | cons c s ih =>
    intro e
    unfold readExponent
    split
    · exact ih _
    · split
      · exact ih _
      · rfl

theorem readExponent_length :
    ∀ (s : List Char) (e : Nat) (u : Bool), (readExponent e u s).2.2.length ≤ s.length := by
  intro s
  induction s with
  | nil => intro e u; exact Nat.le_refl _
  | cons c s ih =>
    intro e u
    unfold readExponent
    have h1 : ∀ e1 u1, (readExponent e1 u1 s).2.2.length ≤ (c :: s).length :=
      fun e1 u1 => Nat.le_trans (ih e1 u1) (Nat.le_succ _)
    split
    · exact h1 _ _
    · split
      · exact h1 _ _
      · exact Nat.le_refl _

/-- The exponent part of `readFloat` keeps the note of an underscore and
leaves no more text than it was given. -/
theorem readFloat_exponent_some (hex : Bool) (dp : Int) (rest : List Char) (dp1 : Int)
    (u1 : Bool) (left : List Char)
    (h : readFloat_exponent hex dp true rest = some (dp1, u1, left)) :
    u1 = true ∧ left.length ≤ rest.length := by
  cases rest with
  | nil =>
    simp only [readFloat_exponent] at h
    by_cases hh : hex = true
    · rw [if_pos hh] at h
      exact absurd h (by simp)
    · rw [if_neg hh] at h
      simp only [Option.some.injEq, Prod.mk.injEq] at h
      exact ⟨h.2.1.symm, by rw [← h.2.2]⟩
  | cons c s1 =>
    simp only [readFloat_exponent] at h
    by_cases hlow : lower c = (if hex = true then 'p' else 'e')
    · rw [if_pos hlow] at h
      cases s1 with
      | nil => exact absurd h (by simp)
      | cons c1 s2 =>
        dsimp only at h
        generalize hs3 : (if c1 = '+' ∨ c1 = '-' then s2 else c1 :: s2) = s3 at h
        have hlen : s3.length ≤ (c1 :: s2).length := by
          rw [← hs3]
          split
          · exact Nat.le_succ _
          · exact Nat.le_refl _
        cases s3 with
        | nil => exact absurd h (by simp)
        | cons c2 s4 =>
          dsimp only at h
          by_cases hd : 48 ≤ c2.toNat ∧ c2.toNat ≤ 57
          · rw [if_pos hd] at h
            simp only [Option.some.injEq, Prod.mk.injEq] at h
            obtain ⟨_, h2, h3⟩ := h
            refine ⟨?_, ?_⟩
            · rw [← h2]; exact readExponent_underscores _ _
            · rw [← h3]
              have := readExponent_length (c2 :: s4) 0 true
              simp only [List.length_cons] at this hlen ⊢
              omega
          · rw [if_neg hd] at h
            exact absurd h (by simp)
    · rw [if_neg hlow] at h
      by_cases hh : hex = true
      · rw [if_pos hh] at h
        exact absurd h (by simp)
      · rw [if_neg hh] at h
        simp only [Option.some.injEq, Prod.mk.injEq] at h
        exact ⟨h.2.1.symm, by rw [← h.2.2]⟩

theorem sign_strip_eq_dropSign (t : List Char) :
    (if t.head? = some '+' ∨ t.head? = some '-' then t.tail else t) = dropSign t := by
  cases t with
  | nil => simp [dropSign]
  | cons c r => simp [dropSign]

theorem dropSign_append (t : List Char) :
    ∃ pre, t = pre ++ dropSign t ∧ (pre = [] ∨ pre = ['+'] ∨ pre = ['-']) := by
  cases t with
  | nil => exact ⟨[], rfl, Or.inl rfl⟩
  | cons c r =>
    simp only [dropSign]
    by_cases h : c = '+' ∨ c = '-'
    · rw [if_pos h]
      rcases h with h | h
      · exact ⟨['+'], by rw [h]; rfl, Or.inr (Or.inl rfl)⟩
      · exact ⟨['-'], by rw [h]; rfl, Or.inr (Or.inr rfl)⟩
    · rw [if_neg h]
      exact ⟨[], rfl, Or.inl rfl⟩

theorem hasHexPrefix_of_not_digit (c : Char) (rest : List Char) (h : isDigit c = false) :
    hasHexPrefix (c :: rest) = false := by
  have hc : c ≠ '0' := by
    intro h0
    rw [h0] at h
    exact absurd h (by decide)
  match rest with
  | [] => rfl
  | [_] => rfl
  | _ :: _ :: _ => simp [hasHexPrefix, hc]

/-- The mantissa loop on a text that does not start with a number: it sees no
digit, or it has read an underscore at the start or right after a point. -/
theorem readMantissa_of_not_digitsAhead (s1 : List Char) (h : digitsAhead s1 = false) :
    (readMantissa 10 ⟨0, 0, 0, false, false, false⟩ s1).1.sawdigits = false ∨
    ((readMantissa 10 ⟨0, 0, 0, false, false, false⟩ s1).1.underscores = true ∧
      ∃ pre r1, s1 = pre ++ r1 ∧ (pre = ['_'] ∨ pre = ['.', '_']) ∧
        (readMantissa 10 ⟨0, 0, 0, false, false, false⟩ s1).2.length ≤ r1.length) := by
  cases s1 with
  | nil => exact Or.inl rfl
  | cons c rest =>
    have hc : ¬ (48 ≤ c.toNat ∧ c.toNat ≤ 57) := by
      intro hd
      have : isDigit c = true := by simpa [isDigit] using hd
      cases rest with
      | nil => simp [digitsAhead, this] at h
      | cons d r => simp [digitsAhead, this] at h
    by_cases h1 : c = '_'
    · right
      unfold readMantissa
      rw [if_pos h1]
      exact ⟨readMantissa_underscores 10 rest _ rfl, ['_'], rest, by rw [h1]; rfl, Or.inl rfl,
        readMantissa_length 10 rest _⟩
    · by_cases h2 : c = '.'
      · cases rest with
        | nil =>
          left
          simp [readMantissa, h1, h2]
        | cons d r =>
          have hd : ¬ (48 ≤ d.toNat ∧ d.toNat ≤ 57) := by
            intro hd
            have : isDigit d = true := by simpa [isDigit] using hd
            simp [digitsAhead, this, h2] at h
          by_cases h3 : d = '_'
          · right
            unfold readMantissa
            rw [if_neg h1, if_pos h2]
            dsimp only
            rw [if_neg (by simp)]
            unfold readMantissa
            rw [if_pos h3]
            exact ⟨readMantissa_underscores 10 r _ rfl, ['.', '_'], r, by rw [h2, h3]; rfl,
              Or.inr rfl, readMantissa_length 10 r _⟩
          · left
            by_cases h4 : d = '.'
            · simp [readMantissa, h1, h2, h4]
            · simp [readMantissa, h1, h2, h3, h4, hd]
      · left
        simp [readMantissa, h1, h2, hc]

theorem underscoreOK_bad (pre0 pre y : List Char)
    (h0 : pre0 = [] ∨ pre0 = ['+'] ∨ pre0 = ['-']) (h1 : pre = ['_'] ∨ pre = ['.', '_']) :
    underscoreOK (pre0 ++ (pre ++ y)) = false := by
  rcases h0 with rfl | rfl | rfl <;> rcases h1 with rfl | rfl <;> cases y <;>
    simp [underscoreOK, underscoreOK_loop]

theorem take_sub_length (pre l left : List Char) (h : left.length ≤ l.length) :
    (pre ++ l).take ((pre ++ l).length - left.length) =
      pre ++ l.take (l.length - left.length) := by
  have : (pre ++ l).length - left.length = pre.length + (l.length - left.length) := by
    rw [List.length_append]
    omega
  rw [this, List.take_append]

/-- A text that does not begin with a number is not read by `readFloat`. -/
theorem readFloat_of_not_beginsWithNumber (t : List Char) (h : beginsWithNumber t = false) :
    readFloat t = none := by
  unfold readFloat
  dsimp only
  rw [sign_strip_eq_dropSign]
  obtain ⟨pre0, hpre, hcases⟩ := dropSign_append t
  unfold beginsWithNumber at h
  generalize dropSign t = s1 at *
  have hhex : hasHexPrefix s1 = false := by
    cases s1 with
    | nil => rfl
    | cons c rest =>
      apply hasHexPrefix_of_not_digit
      cases rest with
      | nil => simpa [digitsAhead] using h
      | cons d r =>
        simp only [digitsAhead, Bool.or_eq_false_iff] at h
        exact h.1
  rw [hhex]
  simp only [Bool.false_eq_true, if_false]
  rcases readMantissa_of_not_digitsAhead s1 h with hs | ⟨hu, pre, r1, hs1, hprecases, hlen⟩
  · rw [hs]
    rfl
  · generalize readMantissa 10 ⟨0, 0, 0, false, false, false⟩ s1 = r at *
    split
    · rfl
    · rw [hu]
      split
      · rfl
      · rename_i dp u left hex
        obtain ⟨hu1, hleft⟩ := readFloat_exponent_some _ _ _ _ _ _ hex
        have hread : t.take (t.length - left.length) =
            pre0 ++ (pre ++ r1.take (r1.length - left.length)) := by
          rw [hpre, hs1, ← List.append_assoc, take_sub_length _ _ _ (by omega),
            List.append_assoc]
        rw [hread, underscoreOK_bad pre0 pre _ hcases hprecases, hu1]
        rfl

end ReadFloatLemmas

section SpecialLemmas

theorem commonPrefixLen_cons (c p : Char) (s pre : List Char) :
    commonPrefixLenIgnoreCase (c :: s) (p :: pre) =
      if (if 0x41 ≤ c.toNat ∧ c.toNat ≤ 0x5a then Char.ofNat (c.toNat + 0x20) else c) = p then
        commonPrefixLenIgnoreCase s pre + 1
      else 0 := rfl

theorem commonPrefixLen_nil (s : List Char) : commonPrefixLenIgnoreCase s [] = 0 := by
  cases s <;> rfl

theorem commonPrefixLen_le (pre : List Char) :
    ∀ (s : List Char), commonPrefixLenIgnoreCase s pre ≤ pre.length := by
  induction pre with
  | nil => intro s; rw [commonPrefixLen_nil]; exact Nat.le_refl _
  | cons p pre ih =>
    intro s
    cases s with
    | nil => exact Nat.zero_le _
    | cons c s =>
      rw [commonPrefixLen_cons]
      generalize (if 0x41 ≤ c.toNat ∧ c.toNat ≤ 0x5a then Char.ofNat (c.toNat + 0x20) else c) = c1
      by_cases hc : c1 = p
      · rw [if_pos hc]
        exact Nat.succ_le_succ (ih s)
      · rw [if_neg hc]
        exact Nat.zero_le _

/-- A text that starts with the pattern still does when it goes on. -/
theorem commonPrefixLen_append (pre : List Char) :
    ∀ (s r : List Char), commonPrefixLenIgnoreCase s pre = pre.length →
      commonPrefixLenIgnoreCase (s ++ r) pre = pre.length := by
  induction pre with
  | nil => intro s r _; rw [commonPrefixLen_nil]; rfl
  | cons p pre ih =>
    intro s r h
    cases s with
    | nil => exact absurd h (by simp [commonPrefixLenIgnoreCase])
    | cons c s =>
      rw [List.cons_append, commonPrefixLen_cons]
      rw [commonPrefixLen_cons] at h
      generalize (if 0x41 ≤ c.toNat ∧ c.toNat ≤ 0x5a then Char.ofNat (c.toNat + 0x20) else c) = c1
        at h ⊢
      by_cases hc : c1 = p
      · rw [if_pos hc] at h ⊢
        rw [ih s r (by simpa using h)]
        rfl
      · rw [if_neg hc] at h
        exact absurd h (by simp)

/-- A text that starts with three letters of `infinity` starts with `inf`. -/
theorem commonPrefixLen_inf (s : List Char)
    (h : commonPrefixLenIgnoreCase s "inf".data ≠ 3) :
    commonPrefixLenIgnoreCase s "infinity".data < 3 := by
  have e1 : "inf".data = ['i', 'n', 'f'] := rfl
  have e2 : "infinity".data = ['i', 'n', 'f', 'i', 'n', 'i', 't', 'y'] := rfl
  rw [e1] at h
  rw [e2]
  match s with
  | [] => exact Nat.zero_lt_succ _
  | a :: s1 =>
    rw [commonPrefixLen_cons] at h ⊢
    generalize (if 0x41 ≤ a.toNat ∧ a.toNat ≤ 0x5a then Char.ofNat (a.toNat + 0x20) else a) = a1
      at h ⊢
    by_cases h1 : a1 = 'i'
    · rw [if_pos h1] at h ⊢
      match s1 with
      | [] => exact Nat.lt_of_sub_eq_succ rfl
      | b :: s2 =>
        rw [commonPrefixLen_cons] at h ⊢
        generalize (if 0x41 ≤ b.toNat ∧ b.toNat ≤ 0x5a then Char.ofNat (b.toNat + 0x20) else b)
          = b1 at h ⊢
        by_cases h2 : b1 = 'n'
        · rw [if_pos h2] at h ⊢
          match s2 with
          | [] => exact Nat.lt_of_sub_eq_succ rfl
          | c :: s3 =>
            rw [commonPrefixLen_cons] at h ⊢
            generalize (if 0x41 ≤ c.toNat ∧ c.toNat ≤ 0x5a then Char.ofNat (c.toNat + 0x20)
              else c) = c1 at h ⊢
            by_cases h3 : c1 = 'f'
            · rw [if_pos h3, commonPrefixLen_nil] at h
              exact absurd rfl h
            · rw [if_neg h3]
              exact Nat.lt_of_sub_eq_succ rfl
        · rw [if_neg h2]
          exact Nat.lt_of_sub_eq_succ rfl
    · rw [if_neg h1]
      exact Nat.zero_lt_succ _

theorem special_of_not_beginsWithSpecial (t : List Char) (h : beginsWithSpecial t = false) :
    special t = none := by
  unfold beginsWithSpecial at h
  rw [Bool.or_eq_false_iff] at h
  have hnan : commonPrefixLenIgnoreCase t "nan".data ≠ 3 := ne_of_beq_false h.1
  have hinf : commonPrefixLenIgnoreCase (dropSign t) "inf".data ≠ 3 := ne_of_beq_false h.2
  cases t with
  | nil => rfl
  | cons c rest =>
    unfold special
    dsimp only
    by_cases hs : c = '+' ∨ c = '-'
    · rw [if_pos hs]
      have hd : dropSign (c :: rest) = rest := by simp [dropSign, hs]
      rw [hd] at hinf
      have h3 := commonPrefixLen_inf rest hinf
      have k1 : ¬ (3 < commonPrefixLenIgnoreCase rest "infinity".data ∧
          commonPrefixLenIgnoreCase rest "infinity".data < 8) := by omega
      rw [if_neg k1]
      have k2 : ¬ (commonPrefixLenIgnoreCase rest "infinity".data = 3 ∨
          commonPrefixLenIgnoreCase rest "infinity".data = 8) := by omega
      rw [if_neg k2]
    · rw [if_neg hs]
      have hd : dropSign (c :: rest) = c :: rest := by simp [dropSign, hs]
      rw [hd] at hinf
      have h3 := commonPrefixLen_inf (c :: rest) hinf
      by_cases hi : c = 'i' ∨ c = 'I'
      · rw [if_pos hi]
        have k1 : ¬ (3 < commonPrefixLenIgnoreCase (c :: rest) "infinity".data ∧
            commonPrefixLenIgnoreCase (c :: rest) "infinity".data < 8) := by omega
        rw [if_neg k1]
        have k2 : ¬ (commonPrefixLenIgnoreCase (c :: rest) "infinity".data = 3 ∨
            commonPrefixLenIgnoreCase (c :: rest) "infinity".data = 8) := by omega
        rw [if_neg k2]
      · rw [if_neg hi]
        by_cases hn : c = 'n' ∨ c = 'N'
        · rw [if_pos hn, if_neg hnan]
        · rw [if_neg hn]

/-- `strconv.ParseFloat` returns an error for a text that begins neither with
a number nor with a NaN or an infinity. -/
theorem parseFloat_of_not_begins (t : List Char) (h1 : beginsWithNumber t = false)
    (h2 : beginsWithSpecial t = false) : parseFloat t = none := by
  unfold parseFloat
  rw [special_of_not_beginsWithSpecial t h2, readFloat_of_not_beginsWithNumber t h1]

theorem dropSign_append_of_ne_nil (p r : List Char) (hp : p ≠ []) :
    dropSign (p ++ r) = dropSign p ++ r := by
  cases p with
  | nil => exact absurd rfl hp
  | cons c p =>
    simp only [dropSign, List.cons_append]
    split <;> rfl

theorem digitsAhead_append (p r : List Char) (h : digitsAhead p = true) :
    digitsAhead (p ++ r) = true := by
  match p with
  | [] => simp [digitsAhead] at h
  | [c] =>
    simp only [digitsAhead] at h
    cases r <;> simp [digitsAhead, h]
  | c :: d :: p1 => simpa [digitsAhead] using h

theorem beginsWithNumber_append (p r : List Char) (h : beginsWithNumber p = true) :
    beginsWithNumber (p ++ r) = true := by
  unfold beginsWithNumber at h ⊢
  have hp : p ≠ [] := by
    intro h0
    rw [h0] at h
    simp [dropSign, digitsAhead] at h
  rw [dropSign_append_of_ne_nil p r hp]
  exact digitsAhead_append _ r h

theorem beginsWithSpecial_append (p r : List Char) (h : beginsWithSpecial p = true) :
    beginsWithSpecial (p ++ r) = true := by
  unfold beginsWithSpecial at h ⊢
  have hp : p ≠ [] := by
    intro h0
    rw [h0] at h
    simp [dropSign, commonPrefixLenIgnoreCase] at h
  rw [dropSign_append_of_ne_nil p r hp]
  simp only [Bool.or_eq_true, beq_iff_eq] at h ⊢
  rcases h with h | h
  · exact Or.inl (commonPrefixLen_append "nan".data p r h)
  · exact Or.inr (commonPrefixLen_append "inf".data _ r h)

/-- No part of a text that begins neither with a number nor with a NaN or an
infinity begins with one. -/
theorem not_begins_of_append (p r : List Char) (h1 : beginsWithNumber (p ++ r) = false)
    (h2 : beginsWithSpecial (p ++ r) = false) :
    beginsWithNumber p = false ∧ beginsWithSpecial p = false := by
  constructor
  · by_contra h
    rw [beginsWithNumber_append p r (by simpa using h)] at h1
    exact Bool.noConfusion h1
  · by_contra h
    rw [beginsWithSpecial_append p r (by simpa using h)] at h2
    exact Bool.noConfusion h2

/-- The conversion of `Sscanf` fails on a token that begins neither with a
number nor with a NaN or an infinity. -/
theorem convertFloat_of_not_begins (t : List Char) (h1 : beginsWithNumber t = false)
    (h2 : beginsWithSpecial t = false) : convertFloat t = none := by
  unfold convertFloat
  split
  · have ht : t = t.takeWhile (fun c => c ≠ 'p') ++ t.dropWhile (fun c => c ≠ 'p') :=
      (List.takeWhile_append_dropWhile _ t).symm
    rw [ht] at h1 h2
    obtain ⟨k1, k2⟩ := not_begins_of_append _ _ h1 h2
    rw [parseFloat_of_not_begins _ k1 k2]
  · exact parseFloat_of_not_begins t h1 h2

end SpecialLemmas

section TokenLemmas

theorem accept_text (ok : List Char) (s : Scanner) :
    (accept ok s).2.buf ++ (accept ok s).2.input = s.buf ++ s.input := by
  obtain ⟨buf, inp⟩ := s
  cases inp with
  | nil => rfl
  | cons c rest =>
    by_cases hc : c ∈ ok
    · simp [accept, hc]
    · simp [accept, hc]

theorem acceptIf_text (ok : List Char) (b : Bool) (s : Scanner) :
    (if b = true then accept ok s else (false, s)).2.buf ++
        (if b = true then accept ok s else (false, s)).2.input = s.buf ++ s.input := by
  cases b
  · rfl
  · exact accept_text ok s

theorem acceptAll_text (ok : List Char) :
    ∀ (inp buf : List Char),
      (acceptAll ok buf inp).buf ++ (acceptAll ok buf inp).input = buf ++ inp := by
  intro inp
  induction inp with
  | nil => intro buf; rfl
  | cons c rest ih =>
    intro buf
    unfold acceptAll
    by_cases hc : c ∈ ok
    · rw [if_pos hc, ih]
      simp
    · rw [if_neg hc]

theorem accept3_text (a b d : List Char) (s : Scanner) :
    (accept3 a b d s).2.buf ++ (accept3 a b d s).2.input = s.buf ++ s.input := by
  unfold accept3
  dsimp only
  rw [acceptIf_text d, acceptIf_text b, accept_text a]

theorem floatDigits_text (s : Scanner) :
    (floatDigits s).buf ++ (floatDigits s).input = s.buf ++ s.input := by
  unfold floatDigits
  dsimp only
  generalize hz : accept "0".data s = z
  have kz : z.2.buf ++ z.2.input = s.buf ++ s.input := by rw [← hz]; exact accept_text _ s
  generalize hx : (if z.1 = true then accept "xX".data z.2 else (false, z.2)) = x
  have kx : x.2.buf ++ x.2.input = s.buf ++ s.input := by
    rw [← hx, acceptIf_text, kz]
  generalize (if x.1 = true then "0123456789aAbBcCdDeEfF_".data else "0123456789_".data) = digits
  generalize (if x.1 = true then "pP".data else "eEpP".data) = exp
  generalize hs2 : acceptAll digits x.2.buf x.2.input = s2
  have k2 : s2.buf ++ s2.input = s.buf ++ s.input := by
    rw [← hs2, acceptAll_text, kx]
  generalize hdot : accept ".".data s2 = dot
  have kdot : dot.2.buf ++ dot.2.input = s.buf ++ s.input := by
    rw [← hdot, accept_text, k2]
  generalize hs3 : (if dot.1 = true then acceptAll digits dot.2.buf dot.2.input else dot.2) = s3
  have k3 : s3.buf ++ s3.input = s.buf ++ s.input := by
    rw [← hs3]
    split
    · rw [acceptAll_text, kdot]
    · exact kdot
  generalize hex : accept exp s3 = ex
  have kex : ex.2.buf ++ ex.2.input = s.buf ++ s.input := by
    rw [← hex, accept_text, k3]
  split
  · rw [acceptAll_text, accept_text, kex]
  · exact kex

/-- The token that the verb reads and the input it leaves make up the input. -/
theorem floatToken_text (inp : List Char) : (floatToken inp).1 ++ (floatToken inp).2 = inp := by
  unfold floatToken
  dsimp only
  generalize hn : accept3 "nN".data "aA".data "nN".data ⟨[], inp⟩ = n
  have kn : n.2.buf ++ n.2.input = inp := by
    rw [← hn, accept3_text]
    rfl
  split
  · exact kn
  · generalize hi : accept3 "iI".data "nN".data "fF".data (accept "+-".data n.2).2 = i
    have ki : i.2.buf ++ i.2.input = inp := by
      rw [← hi, accept3_text, accept_text, kn]
    split
    · exact ki
    · rw [floatDigits_text, ki]

end TokenLemmas

section TrimLemmas

theorem head_dropWhile_false {α : Type} (p : α → Bool) :
    ∀ (l : List α) (c : α) (r : List α), l.dropWhile p = c :: r → p c = false := by
  intro l
  induction l with
  | nil => intro c r h; simp at h
  | cons x l ih =>
    intro c r h
    rw [List.dropWhile_cons] at h
    by_cases hx : p x = true
    · rw [if_pos hx] at h
      exact ih c r h
    · rw [if_neg hx] at h
      have : x = c := by injection h
      rw [← this]
      simpa using hx

theorem takeWhile_append_of_all_false {α : Type} (q : α → Bool) (sp : List α)
    (h : ∀ x ∈ sp, q x = false) :
    ∀ (t : List α), (t ++ sp).takeWhile q = t.takeWhile q := by
  intro t
  induction t with
  | nil =>
    cases sp with
    | nil => rfl
    | cons x sp => simp [List.takeWhile_cons, h x (by simp)]
  | cons c t ih =>
    simp only [List.cons_append, List.takeWhile_cons, ih]

/-- What `strings.TrimSpace` cuts off at the end is spaces. -/
theorem trimSpaceChars_parts (s : List Char) :
    ∃ sp, s.dropWhile isSpace = trimSpaceChars s ++ sp ∧ ∀ x ∈ sp, isSpace x = true := by
  refine ⟨((s.dropWhile isSpace).reverse.takeWhile isSpace).reverse, ?_, ?_⟩
  · unfold trimSpaceChars
    rw [← List.reverse_append, List.takeWhile_append_dropWhile, List.reverse_reverse]
  · intro x hx
    rw [List.mem_reverse] at hx
    exact List.mem_takeWhile_imp hx

/-- On a size string whose first token begins neither with a number nor with a
NaN or an infinity, the verb `%f` fails. -/
theorem scanFloat_of_not_begins (s : List Char)
    (h1 : beginsWithNumber (firstToken s) = false)
    (h2 : beginsWithSpecial (firstToken s) = false) :
    scanFloat (trimSpaceChars s) = none := by
  obtain ⟨sp, hd, hsp⟩ := trimSpaceChars_parts s
  have hw : firstToken s = (trimSpaceChars s).takeWhile (fun c => !isSpace c) := by
    unfold firstToken
    rw [hd, takeWhile_append_of_all_false]
    intro x hx
    simp [hsp x hx]
  rw [hw] at h1 h2
  generalize trimSpaceChars s = t at *
  cases t with
  | nil => rfl
  | cons c r =>
    have hc : isSpace c = false := head_dropWhile_false isSpace s c (r ++ sp) hd
    have htok : (floatToken (c :: r)).1 =
        (floatToken ((c :: r).takeWhile (fun c => !isSpace c))).1 := by
      have ht := (List.takeWhile_append_dropWhile (fun c => !isSpace c) (c :: r)).symm
      cases hrest : (c :: r).dropWhile (fun c => !isSpace c) with
      | nil =>
        rw [hrest, List.append_nil] at ht
        rw [← ht]
      | cons c1 r1 =>
        have hc1 : isSpace c1 = true := by
          have := head_dropWhile_false _ _ c1 r1 hrest
          simpa using this
        rw [hrest] at ht
        rw [ht, floatToken_append _ c1 r1 (not_mem_floatChars_of_isSpace c1 hc1)]
        rw [← ht]
    have hconv : convertFloat (floatToken (c :: r)).1 = none := by
      rw [htok]
      generalize (c :: r).takeWhile (fun c => !isSpace c) = w at *
      have hwt := floatToken_text w
      rw [← hwt] at h1 h2
      obtain ⟨k1, k2⟩ := not_begins_of_append _ _ h1 h2
      exact convertFloat_of_not_begins _ k1 k2
    unfold scanFloat
    rw [skipSpace_of_not_isSpace c r hc]
    dsimp only
    rw [hconv]

/-- On a size string whose first token begins neither with a number nor with a
NaN or an infinity, `parseSizeToBytes` returns zero. -/
theorem parseSizeToBytes_of_not_begins (table : Char → Char) (size : String)
    (h1 : beginsWithNumber (firstToken size.data) = false)
    (h2 : beginsWithSpecial (firstToken size.data) = false) :
    parseSizeToBytes table size = F64.zero := by
  unfold parseSizeToBytes trimSpace sscanfSize
  dsimp only
  rw [scanFloat_of_not_begins size.data h1 h2]
  rfl

end TrimLemmas

/-! ## Rounding and totals -/

section FloatLemmas

theorem lt_two_pow_bitsLen : ∀ (fuel n : Nat), n < fuel → n < 2 ^ bitsLen fuel n := by
  intro fuel
  induction fuel with
  | zero => intro n h; omega
  | succ fuel ih =>
    intro n hn
    simp only [bitsLen]
    by_cases h0 : n = 0
    · rw [if_pos h0, h0]
      exact Nat.one_pos
    · rw [if_neg h0, pow_succ]
      have := ih (n / 2) (by omega)
      omega

theorem bitsLen_bounds (n : Nat) (hn : 0 < n) :
    2 ^ bitsLen (n + 1) n ≤ 2 * n ∧ n < 2 ^ bitsLen (n + 1) n :=
  ⟨two_pow_bitsLen_le _ _ (Nat.lt_succ_self n) hn, lt_two_pow_bitsLen _ _ (Nat.lt_succ_self n)⟩

theorem two_zpow_toNat (k : Int) (hk : 0 ≤ k) : ((2 ^ k.toNat : Nat) : ℚ) = (2 : ℚ) ^ k := by
  rw [Nat.cast_pow, Nat.cast_ofNat, ← zpow_natCast, Int.toNat_of_nonneg hk]

/-- The value `floorLog2 n d` is the integer part of the binary logarithm of
`n / d`. -/
theorem floorLog2_spec (n d : Nat) (hn : 0 < n) (hd : 0 < d) :
    (2 : ℚ) ^ (floorLog2 n d) ≤ (n : ℚ) / d ∧ (n : ℚ) / d < (2 : ℚ) ^ (floorLog2 n d + 1) := by
  obtain ⟨hn1, hn2⟩ := bitsLen_bounds n hn
  obtain ⟨hd1, hd2⟩ := bitsLen_bounds d hd
  unfold floorLog2
  generalize bitsLen (n + 1) n = bn at *
  generalize bitsLen (d + 1) d = bd at *
  have qn1 : (2 : ℚ) ^ (bn : ℤ) ≤ 2 * n := by
    rw [zpow_natCast]
    exact_mod_cast hn1
  have qn2 : (n : ℚ) < (2 : ℚ) ^ (bn : ℤ) := by
    rw [zpow_natCast]
    exact_mod_cast hn2
  have qd1 : (2 : ℚ) ^ (bd : ℤ) ≤ 2 * d := by
    rw [zpow_natCast]
    exact_mod_cast hd1
  have qd2 : (d : ℚ) < (2 : ℚ) ^ (bd : ℤ) := by
    rw [zpow_natCast]
    exact_mod_cast hd2
  have hdpos : (0 : ℚ) < d := by exact_mod_cast hd
  have hnpos : (0 : ℚ) < n := by exact_mod_cast hn
  have hA : (0 : ℚ) < (2 : ℚ) ^ (bn : ℤ) := by positivity
  have hB : (0 : ℚ) < (2 : ℚ) ^ (bd : ℤ) := by positivity
  have e1 : (2 : ℚ) ^ ((bn : ℤ) - bd) = (2 : ℚ) ^ (bn : ℤ) / (2 : ℚ) ^ (bd : ℤ) :=
    zpow_sub₀ two_ne_zero _ _
  have e2 : (2 : ℚ) ^ ((bn : ℤ) - bd - 1) = (2 : ℚ) ^ (bn : ℤ) / (2 : ℚ) ^ (bd : ℤ) / 2 := by
    rw [zpow_sub₀ two_ne_zero, e1, zpow_one]
  have e3 : (2 : ℚ) ^ ((bn : ℤ) - bd + 1) = (2 : ℚ) ^ (bn : ℤ) / (2 : ℚ) ^ (bd : ℤ) * 2 := by
    rw [zpow_add₀ two_ne_zero, e1, zpow_one]
  generalize (2 : ℚ) ^ (bn : ℤ) = A at *
  generalize (2 : ℚ) ^ (bd : ℤ) = B at *
  have lo : (2 : ℚ) ^ ((bn : ℤ) - bd - 1) ≤ (n : ℚ) / d := by
    rw [e2, le_div_iff₀ hdpos, div_div, div_mul_eq_mul_div, div_le_iff₀ (by positivity)]
    nlinarith
  have hi : (n : ℚ) / d < (2 : ℚ) ^ ((bn : ℤ) - bd + 1) := by
    rw [e3, div_lt_iff₀ hdpos, div_mul_eq_mul_div, div_mul_eq_mul_div, lt_div_iff₀ hB]
    nlinarith
  dsimp only
  by_cases hk : (bn : ℤ) - bd ≥ 0
  · rw [if_pos hk]
    have key : n ≥ d * 2 ^ ((bn : ℤ) - bd).toNat ↔ (2 : ℚ) ^ ((bn : ℤ) - bd) ≤ (n : ℚ) / d := by
      rw [le_div_iff₀ hdpos, ← two_zpow_toNat _ hk, mul_comm]
      exact_mod_cast Iff.rfl
    by_cases ht : n ≥ d * 2 ^ ((bn : ℤ) - bd).toNat
    · rw [if_pos ht]
      exact ⟨key.mp ht, hi⟩
    · rw [if_neg ht]
      refine ⟨lo, ?_⟩
      rw [sub_add_cancel]
      exact lt_of_not_le (fun h => ht (key.mpr h))
  · rw [if_neg hk]
    have hk1 : 0 ≤ -((bn : ℤ) - bd) := by omega
    have key : n * 2 ^ (-((bn : ℤ) - bd)).toNat ≥ d ↔
        (2 : ℚ) ^ ((bn : ℤ) - bd) ≤ (n : ℚ) / d := by
      have : (2 : ℚ) ^ ((bn : ℤ) - bd) = ((2 : ℚ) ^ (-((bn : ℤ) - bd)))⁻¹ := by
        rw [zpow_neg, inv_inv]
      rw [this, ← two_zpow_toNat _ hk1, le_div_iff₀ hdpos, inv_mul_le_iff₀ (by positivity)]
      rw [mul_comm]
      exact_mod_cast Iff.rfl
    by_cases ht : n * 2 ^ (-((bn : ℤ) - bd)).toNat ≥ d
    · rw [if_pos ht]
      exact ⟨key.mp ht, hi⟩
    · rw [if_neg ht]
      refine ⟨lo, ?_⟩
      rw [sub_add_cancel]
      exact lt_of_not_le (fun h => ht (key.mpr h))

theorem roundHalfEven_ge (a b L : Nat) (hb : 0 < b) (h : L * b ≤ a) :
    L ≤ roundHalfEven a b := by
  unfold roundHalfEven
  dsimp only
  have : L ≤ a / b := (Nat.le_div_iff_mul_le hb).mpr h
  split <;> omega

theorem roundHalfEven_le (a b U : Nat) (hb : 0 < b) (h : a ≤ U * b) :
    roundHalfEven a b ≤ U := by
  unfold roundHalfEven
  dsimp only
  by_cases heq : a = U * b
  · rw [heq, Nat.mul_mod_left, Nat.mul_div_cancel _ hb]
    rw [if_neg (by omega)]
  · have : a / b < U := (Nat.div_lt_iff_lt_mul hb).mpr (by omega)
    split <;> omega

theorem roundHalfEven_exact (m b : Nat) (hb : 0 < b) : roundHalfEven (m * b) b = m :=
  Nat.le_antisymm (roundHalfEven_le _ _ _ hb (Nat.le_refl _))
    (roundHalfEven_ge _ _ _ hb (Nat.le_refl _))

theorem roundHalfEven_ge_of_ratio (a b L : Nat) (hb : 0 < b) (h : (L : ℚ) ≤ (a : ℚ) / b) :
    L ≤ roundHalfEven a b := by
  apply roundHalfEven_ge a b L hb
  have hbq : (0 : ℚ) < b := by exact_mod_cast hb
  rw [le_div_iff₀ hbq] at h
  exact_mod_cast h

theorem roundHalfEven_le_of_ratio (a b U : Nat) (hb : 0 < b) (h : (a : ℚ) / b ≤ (U : ℚ)) :
    roundHalfEven a b ≤ U := by
  apply roundHalfEven_le a b U hb
  have hbq : (0 : ℚ) < b := by exact_mod_cast hb
  rw [div_le_iff₀ hbq] at h
  exact_mod_cast h

/-- What `roundRatio` returns: an infinity, or a mantissa and an exponent in
the form of a `float64`; the mantissa is not zero when the ratio is at least
2^-1074. -/
theorem roundRatio_spec (neg : Bool) (num den : Nat) (hn : 0 < num) (hd : 0 < den) :
    ∃ m q, roundRatio neg num den = (if q > 971 then F64.inf neg else F64.fin neg m q) ∧
      m < 2 ^ 53 ∧ -1074 ≤ q ∧ (q = -1074 ∨ 2 ^ 52 ≤ m) ∧
      ((2 : ℚ) ^ (-1074 : ℤ) ≤ (num : ℚ) / den → 0 < m) := by
  obtain ⟨hlo, hhi⟩ := floorLog2_spec num den hn hd
  unfold roundRatio
  generalize floorLog2 num den = fl at *
  dsimp only
  generalize hq : max (fl - 52) (-1074) = q
  have hq1 : -1074 ≤ q := by rw [← hq]; exact le_max_right _ _
  have hq3 : q = fl - 52 ∨ (q = -1074 ∧ fl - 52 < -1074) := by rw [← hq]; omega
  generalize hm : (if q ≥ 0 then roundHalfEven num (den * 2 ^ q.toNat)
    else roundHalfEven (num * 2 ^ (-q).toNat) den) = m
  have hratio : ∃ a b : Nat, 0 < b ∧ m = roundHalfEven a b ∧
      (a : ℚ) / b = (num : ℚ) / den * (2 : ℚ) ^ (-q) := by
    have hdq : (den : ℚ) ≠ 0 := by exact_mod_cast hd.ne.symm
    by_cases hq0 : q ≥ 0
    · rw [if_pos hq0] at hm
      refine ⟨num, den * 2 ^ q.toNat, by positivity, hm.symm, ?_⟩
      rw [Nat.cast_mul, two_zpow_toNat q hq0, zpow_neg]
      field_simp
    · rw [if_neg hq0] at hm
      refine ⟨num * 2 ^ (-q).toNat, den, hd, hm.symm, ?_⟩
      rw [Nat.cast_mul, two_zpow_toNat (-q) (by omega)]
      ring
  obtain ⟨a, b, hb, hma, hab⟩ := hratio
  have h2 : (0 : ℚ) < (2 : ℚ) ^ (-q) := by positivity
  have hup : (a : ℚ) / b < (2 : ℚ) ^ (fl + 1 - q) := by
    rw [hab, sub_eq_add_neg, zpow_add₀ two_ne_zero]
    exact mul_lt_mul_of_pos_right hhi h2
  have hdown : (2 : ℚ) ^ (fl - q) ≤ (a : ℚ) / b := by
    rw [hab, sub_eq_add_neg, zpow_add₀ two_ne_zero]
    exact mul_le_mul_of_nonneg_right hlo h2.le
  have hm53 : m ≤ 2 ^ 53 := by
    rw [hma]
    apply roundHalfEven_le_of_ratio _ _ _ hb
    have : (2 : ℚ) ^ (fl + 1 - q) ≤ (2 : ℚ) ^ (53 : ℤ) :=
      zpow_le_zpow_right₀ (by norm_num) (by omega)
    have e : (((2 ^ 53 : Nat)) : ℚ) = (2 : ℚ) ^ (53 : ℤ) := by norm_num
    rw [e]
    exact le_trans hup.le this
  have hnormal : q = fl - 52 → 2 ^ 52 ≤ m := by
    intro hqe
    rw [hma]
    apply roundHalfEven_ge_of_ratio _ _ _ hb
    have e : (((2 ^ 52 : Nat)) : ℚ) = (2 : ℚ) ^ (fl - q) := by
      rw [hqe]
      norm_num
    rw [e]
    exact hdown
  have hsub : fl - 52 < -1074 → m ≤ 2 ^ 52 := by
    intro hlt
    rw [hma]
    apply roundHalfEven_le_of_ratio _ _ _ hb
    have : (2 : ℚ) ^ (fl + 1 - q) ≤ (2 : ℚ) ^ (52 : ℤ) :=
      zpow_le_zpow_right₀ (by norm_num) (by omega)
    have e : (((2 ^ 52 : Nat)) : ℚ) = (2 : ℚ) ^ (52 : ℤ) := by norm_num
    rw [e]
    exact le_trans hup.le this
  have hpos : (2 : ℚ) ^ (-1074 : ℤ) ≤ (num : ℚ) / den → 0 < m := by
    intro hy
    rcases hq3 with hqe | ⟨hqe, _⟩
    · exact Nat.lt_of_lt_of_le (by norm_num) (hnormal hqe)
    · rw [hma]
      apply roundHalfEven_ge_of_ratio _ _ 1 hb
      rw [hab, hqe]
      have : (2 : ℚ) ^ (-1074 : ℤ) * (2 : ℚ) ^ (-(-1074 : ℤ)) = 1 := by
        rw [← zpow_add₀ two_ne_zero]
        norm_num
      rw [Nat.cast_one, ← this]
      exact mul_le_mul_of_nonneg_right hy (by positivity)
  by_cases h53 : m = 2 ^ 53
  · rw [if_pos h53, if_pos h53]
    exact ⟨2 ^ 52, q + 1, rfl, by norm_num, by omega, Or.inr (Nat.le_refl _),
      fun _ => by norm_num⟩
  · rw [if_neg h53, if_neg h53]
    refine ⟨m, q, rfl, by omega, hq1, ?_, hpos⟩
    rcases hq3 with hqe | ⟨hqe, _⟩
    · exact Or.inr (hnormal hqe)
    · exact Or.inl hqe

theorem roundF64_valid (neg : Bool) (n d : Nat) (e : Int) (hd : 0 < d) :
    (roundF64 neg n d e).Valid := by
  unfold roundF64
  by_cases hn : n = 0
  · rw [if_pos hn]
    exact ⟨by norm_num, by norm_num, by norm_num, Or.inl rfl⟩
  · rw [if_neg hn]
    have hnum : 0 < (if e ≥ 0 then n * 2 ^ e.toNat else n) := by
      split
      · exact Nat.mul_pos (Nat.pos_of_ne_zero hn) (by positivity)
      · exact Nat.pos_of_ne_zero hn
    have hden : 0 < (if e ≥ 0 then d else d * 2 ^ (-e).toNat) := by
      split
      · exact hd
      · exact Nat.mul_pos hd (by positivity)
    obtain ⟨m, q, hr, h1, h2, h3, _⟩ := roundRatio_spec neg _ _ hnum hden
    rw [hr]
    by_cases hq : q > 971
    · rw [if_pos hq]
      trivial
    · rw [if_neg hq]
      exact ⟨h1, h2, by omega, h3⟩

/-- Rounding a multiple of 2^-1074 other than zero does not give a zero. -/
theorem roundF64_settled (neg : Bool) (n : Nat) (e : Int) (hn : 0 < n) (he : -1074 ≤ e) :
    (roundF64 neg n 1 e).Settled := by
  refine ⟨roundF64_valid neg n 1 e Nat.one_pos, ?_⟩
  unfold roundF64
  rw [if_neg (Nat.pos_iff_ne_zero.mp hn)]
  have hnq : (1 : ℚ) ≤ n := by exact_mod_cast hn
  have hnum : 0 < (if e ≥ 0 then n * 2 ^ e.toNat else n) := by
    split
    · exact Nat.mul_pos hn (by positivity)
    · exact hn
  have hden : 0 < (if e ≥ 0 then 1 else 1 * 2 ^ (-e).toNat) := by
    split
    · exact Nat.one_pos
    · exact Nat.mul_pos Nat.one_pos (by positivity)
  have hy : (2 : ℚ) ^ (-1074 : ℤ) ≤
      ((if e ≥ 0 then n * 2 ^ e.toNat else n : Nat) : ℚ) /
        ((if e ≥ 0 then 1 else 1 * 2 ^ (-e).toNat : Nat) : ℚ) := by
    by_cases h0 : e ≥ 0
    · rw [if_pos h0, if_pos h0, Nat.cast_one, div_one, Nat.cast_mul, two_zpow_toNat e h0]
      have h1 : (2 : ℚ) ^ (-1074 : ℤ) ≤ (2 : ℚ) ^ e := zpow_le_zpow_right₀ (by norm_num) he
      have h2 : (0 : ℚ) < (2 : ℚ) ^ e := by positivity
      nlinarith
    · have key : (n : ℚ) / (2 : ℚ) ^ (-e) = n * (2 : ℚ) ^ e := by
        rw [zpow_neg, div_inv_eq_mul]
      rw [if_neg h0, if_neg h0, Nat.cast_mul, Nat.cast_one, one_mul,
        two_zpow_toNat (-e) (by omega), key]
      have h1 : (2 : ℚ) ^ (-1074 : ℤ) ≤ (2 : ℚ) ^ e := zpow_le_zpow_right₀ (by norm_num) he
      have h2 : (0 : ℚ) < (2 : ℚ) ^ e := by positivity
      nlinarith
  obtain ⟨m, q, hr, _, _, _, h4⟩ := roundRatio_spec neg _ _ hnum hden
  rw [hr]
  have hm := h4 hy
  split
  · exact fun h => F64.noConfusion h
  · intro h
    injection h with _ hm0 _
    omega

set_option exponentiation.threshold 2000 in
/-- Rounding a `float64` gives it back. -/
theorem roundF64_scaled (s : Bool) (m : Nat) (e : Int) (hv : (F64.fin s m e).Valid)
    (hm : 0 < m) : roundF64 s (m * 2 ^ (e + 1074).toNat) 1 (-1074) = F64.fin s m e := by
  obtain ⟨h1, h2, h3, h4⟩ := hv
  unfold roundF64
  have hpos : 0 < m * 2 ^ (e + 1074).toNat := Nat.mul_pos hm (by positivity)
  rw [if_neg (Nat.pos_iff_ne_zero.mp hpos)]
  have e1 : (if (-1074 : ℤ) ≥ 0 then m * 2 ^ (e + 1074).toNat * 2 ^ (-1074 : ℤ).toNat
      else m * 2 ^ (e + 1074).toNat) = m * 2 ^ (e + 1074).toNat := rfl
  have e2 : (if (-1074 : ℤ) ≥ 0 then 1 else 1 * 2 ^ (-(-1074 : ℤ)).toNat) = 2 ^ 1074 := by
    rw [if_neg (by norm_num), Nat.one_mul]
    rfl
  rw [e1, e2]
  have hden : 0 < 2 ^ 1074 := by positivity
  obtain ⟨hlo, hhi⟩ := floorLog2_spec _ _ hpos hden
  have hy : ((m * 2 ^ (e + 1074).toNat : Nat) : ℚ) / ((2 ^ 1074 : Nat) : ℚ) =
      (m : ℚ) * (2 : ℚ) ^ e := by
    rw [Nat.cast_mul, two_zpow_toNat _ (by omega), zpow_add₀ two_ne_zero]
    have : (((2 ^ 1074 : Nat)) : ℚ) = (2 : ℚ) ^ (1074 : ℤ) := by norm_num
    rw [this]
    field_simp
    ring
  rw [hy] at hlo hhi
  have hmq : (m : ℚ) < (2 : ℚ) ^ (53 : ℤ) := by
    have e53 : ((2 ^ 53 : Nat) : ℚ) = (2 : ℚ) ^ (53 : ℤ) := by norm_num
    rw [← e53]
    exact_mod_cast h1
  have h2e : (0 : ℚ) < (2 : ℚ) ^ e := by positivity
  have hfl1 : floorLog2 (m * 2 ^ (e + 1074).toNat) (2 ^ 1074) < 53 + e := by
    have : (2 : ℚ) ^ (floorLog2 (m * 2 ^ (e + 1074).toNat) (2 ^ 1074)) < (2 : ℚ) ^ (53 + e) := by
      rw [zpow_add₀ two_ne_zero]
      exact lt_of_le_of_lt hlo (mul_lt_mul_of_pos_right hmq h2e)
    exact (zpow_lt_zpow_iff_right₀ (by norm_num)).mp this
  have hfl2 : 2 ^ 52 ≤ m → 52 + e < floorLog2 (m * 2 ^ (e + 1074).toNat) (2 ^ 1074) + 1 := by
    intro h52
    have hmq2 : (2 : ℚ) ^ (52 : ℤ) ≤ (m : ℚ) := by
      have e52 : ((2 ^ 52 : Nat) : ℚ) = (2 : ℚ) ^ (52 : ℤ) := by norm_num
      rw [← e52]
      exact_mod_cast h52
    have : (2 : ℚ) ^ (52 + e) <
        (2 : ℚ) ^ (floorLog2 (m * 2 ^ (e + 1074).toNat) (2 ^ 1074) + 1) := by
      rw [zpow_add₀ two_ne_zero]
      exact lt_of_le_of_lt (mul_le_mul_of_nonneg_right hmq2 h2e.le) hhi
    exact (zpow_lt_zpow_iff_right₀ (by norm_num)).mp this
  unfold roundRatio
  generalize floorLog2 (m * 2 ^ (e + 1074).toNat) (2 ^ 1074) = fl at *
  have hq : max (fl - 52) (-1074) = e := by
    rcases h4 with h4 | h4
    · omega
    · have := hfl2 h4
      omega
  dsimp only
  rw [hq]
  have hm1 : (if e ≥ 0 then roundHalfEven (m * 2 ^ (e + 1074).toNat) (2 ^ 1074 * 2 ^ e.toNat)
      else roundHalfEven (m * 2 ^ (e + 1074).toNat * 2 ^ (-e).toNat) (2 ^ 1074)) = m := by
    by_cases h0 : e ≥ 0
    · rw [if_pos h0]
      have : (e + 1074).toNat = 1074 + e.toNat := by omega
      rw [this, pow_add]
      have hb : 0 < 2 ^ 1074 * 2 ^ e.toNat := by positivity
      generalize 2 ^ 1074 * 2 ^ e.toNat = b at hb ⊢
      exact roundHalfEven_exact m b hb
    · rw [if_neg h0]
      have hj : (e + 1074).toNat + (-e).toNat = 1074 := by omega
      have : m * 2 ^ (e + 1074).toNat * 2 ^ (-e).toNat = m * 2 ^ 1074 := by
        rw [Nat.mul_assoc, ← pow_add, hj]
      rw [this]
      generalize 2 ^ 1074 = b at hden ⊢
      exact roundHalfEven_exact m b hden
  rw [hm1, if_neg (by omega), if_neg (by omega), if_neg (by omega)]

end FloatLemmas

section TotalLemmas

theorem scaled_false (k : Int) (m : Nat) (e : Int) :
    F64.scaled k false m e = ((m * 2 ^ (e - k).toNat : Nat) : Int) := rfl

theorem scaled_true (k : Int) (m : Nat) (e : Int) :
    F64.scaled k true m e = -((m * 2 ^ (e - k).toNat : Nat) : Int) := rfl

/-- Adding zero to a total leaves it as it is. -/
theorem add_zero_of_settled (x : F64) (hx : x.Settled) : F64.add x F64.zero = x := by
  obtain ⟨hv, hnz⟩ := hx
  cases x with
  | nan => rfl
  | inf s => rfl
  | fin s m e =>
    obtain ⟨h1, h2, h3, h4⟩ := hv
    have hk : min e (-1074) = -1074 := by omega
    have hz : F64.scaled (-1074) false 0 (-1074) = 0 := by
      rw [scaled_false]
      simp
    have he : e - -1074 = e + 1074 := by omega
    unfold F64.zero F64.add
    dsimp only
    rw [hk, hz, add_zero]
    by_cases hm : m = 0
    · have he0 : e = -1074 := by
        rcases h4 with h4 | h4
        · exact h4
        · rw [hm] at h4
          exact absurd h4 (by norm_num)
      have hs : s = false := by
        cases s
        · rfl
        · exact absurd (by rw [hm, he0]) hnz
      rw [hm, he0, hs]
      rfl
    · have hpos : 0 < m * 2 ^ (e + 1074).toNat :=
        Nat.mul_pos (Nat.pos_of_ne_zero hm) (by positivity)
      cases s
      · rw [scaled_false, he]
        rw [if_neg (by exact_mod_cast hpos.ne.symm)]
        have hd : decide (((m * 2 ^ (e + 1074).toNat : Nat) : Int) < 0) = false := by
          rw [decide_eq_false_iff_not]
          omega
        rw [hd, Int.natAbs_ofNat]
        exact roundF64_scaled false m e ⟨h1, h2, h3, h4⟩ (Nat.pos_of_ne_zero hm)
      · rw [scaled_true, he]
        rw [if_neg (by omega)]
        have hd : decide (-((m * 2 ^ (e + 1074).toNat : Nat) : Int) < 0) = true := by
          rw [decide_eq_true_iff]
          omega
        rw [hd, Int.natAbs_neg, Int.natAbs_ofNat]
        exact roundF64_scaled true m e ⟨h1, h2, h3, h4⟩ (Nat.pos_of_ne_zero hm)

theorem zero_settled : F64.zero.Settled :=
  ⟨⟨by norm_num, by norm_num, by norm_num, Or.inl rfl⟩, by decide⟩

/-- The sum of a total and a `float64` is a total again: it is not negative
zero. -/
theorem add_settled (x y : F64) (hx : x.Settled) (hy : y.Valid) : (F64.add x y).Settled := by
  obtain ⟨hv, hnz⟩ := hx
  have hnan : F64.nan.Settled := ⟨trivial, fun h => F64.noConfusion h⟩
  have hinf : ∀ b, (F64.inf b).Settled := fun b => ⟨trivial, fun h => F64.noConfusion h⟩
  cases x with
  | nan => cases y <;> exact hnan
  | inf s =>
    cases y with
    | nan => exact hnan
    | inf t =>
      simp only [F64.add]
      split
      · exact hinf s
      · exact hnan
    | fin t n f => exact hinf s
  | fin s m e =>
    cases y with
    | nan => exact hnan
    | inf t => exact hinf t
    | fin t n f =>
      obtain ⟨h1, h2, h3, h4⟩ := hv
      obtain ⟨k1, k2, k3, k4⟩ := hy
      unfold F64.add
      dsimp only
      by_cases hv0 : F64.scaled (min e f) s m e + F64.scaled (min e f) t n f = 0
      · rw [if_pos hv0]
        refine ⟨⟨by norm_num, by norm_num, by norm_num, Or.inl rfl⟩, ?_⟩
        intro hneg
        injection hneg with hst _ _
        have hs : s = true := by
          cases s
          · simp at hst
          · rfl
        have ht : t = true := by
          cases t
          · simp at hst
          · rfl
        rw [hs, ht, scaled_true, scaled_true] at hv0
        have hm0 : m * 2 ^ (e - min e f).toNat = 0 := by omega
        have hm : m = 0 := by
          rcases Nat.mul_eq_zero.mp hm0 with h | h
          · exact h
          · exact absurd h (by positivity)
        have he0 : e = -1074 := by
          rcases h4 with h4 | h4
          · exact h4
          · rw [hm] at h4
            exact absurd h4 (by norm_num)
        exact hnz (by rw [hs, hm, he0])
      · rw [if_neg hv0]
        exact roundF64_settled _ _ _ (Int.natAbs_pos.mpr hv0) (by omega)

theorem mul_valid (x y : F64) : (F64.mul x y).Valid := by
  cases x with
  | nan => cases y <;> trivial
  | inf s =>
    cases y with
    | nan => trivial
    | inf t => trivial
    | fin t n f =>
      simp only [F64.mul]
      split <;> trivial
  | fin s m e =>
    cases y with
    | nan => trivial
    | inf t =>
      simp only [F64.mul]
      split <;> trivial
    | fin t n f => exact roundF64_valid _ _ _ _ Nat.one_pos

theorem ldexp_valid (x : F64) (k : Int) (hx : x.Valid) : (F64.ldexp x k).Valid := by
  cases x with
  | nan => trivial
  | inf s => trivial
  | fin s m e =>
    simp only [F64.ldexp]
    split
    · exact hx
    · split
      · exact ⟨by norm_num, by norm_num, by norm_num, Or.inl rfl⟩
      · split
        · trivial
        · exact roundF64_valid _ _ _ _ Nat.one_pos

theorem special_valid (s : List Char) (v : F64) (n : Nat) (h : special s = some (v, n)) :
    v.Valid := by
  cases s with
  | nil => exact absurd h (by simp [special])
  | cons c rest =>
    simp only [special] at h
    split_ifs at h
    all_goals (injection h with h; injection h with h _; rw [← h]; trivial)

theorem parseFloat_valid (s : List Char) (v : F64) (h : parseFloat s = some v) : v.Valid := by
  unfold parseFloat at h
  split at h
  · rename_i v1 n hs
    split at h
    · injection h with h
      rw [← h]
      exact special_valid s v1 n hs
    · exact absurd h (by simp)
  · split at h
    · dsimp only at h
      split at h
      · injection h with h
        rw [← h]
        split
        · exact roundF64_valid _ _ _ _ Nat.one_pos
        · split
          · exact roundF64_valid _ _ _ _ Nat.one_pos
          · exact roundF64_valid _ _ _ _ (by positivity)
      · exact absurd h (by simp)
    · exact absurd h (by simp)

theorem convertFloat_valid (s : List Char) (v : F64) (h : convertFloat s = some v) :
    v.Valid := by
  unfold convertFloat at h
  split at h
  · split at h
    · exact absurd h (by simp)
    · rename_i f hf
      split at h
      · exact absurd h (by simp)
      · injection h with h
        rw [← h]
        exact ldexp_valid _ _ (parseFloat_valid _ f hf)
  · exact parseFloat_valid s v h

theorem sscanfSize_valid (input : List Char) : (sscanfSize input).1.Valid := by
  have hz : F64.zero.Valid := zero_settled.1
  unfold sscanfSize
  cases hs : scanFloat input with
  | none => exact hz
  | some r =>
    obtain ⟨value, rest⟩ := r
    have hval : value.Valid := by
      unfold scanFloat at hs
      split at hs
      · exact absurd hs (by simp)
      · exact absurd hs (by simp)
      · dsimp only at hs
        split at hs
        · exact absurd hs (by simp)
        · rename_i v hv
          injection hs with hs
          injection hs with hs _
          rw [← hs]
          exact convertFloat_valid _ v hv
    dsimp only
    split
    · exact hval
    · split
      · exact hval
      · exact hval

/-- Every value of `parseSizeToBytes` has the form of a `float64`. -/
theorem parseSizeToBytes_valid (table : Char → Char) (size : String) :
    (parseSizeToBytes table size).Valid := by
  unfold parseSizeToBytes
  dsimp only
  split
  · exact mul_valid _ _
  · split
    · exact mul_valid _ _
    · split
      · exact mul_valid _ _
      · exact sscanfSize_valid _

/-- Every running total of `calculateTotalSize` is a `float64` other than
negative zero. -/
theorem foldl_add_settled (table : Char → Char) :
    ∀ (models : List File) (acc : F64), acc.Settled →
      (models.foldl (fun acc model => F64.add acc (parseSizeToBytes table model.Size))
        acc).Settled := by
  intro models
  induction models with
  | nil => intro acc h; exact h
  | cons f fs ih =>
    intro acc h
    exact ih _ (add_settled acc _ h (parseSizeToBytes_valid table f.Size))

end TotalLemmas

section MalformedClaims

set_option maxRecDepth 100000 in
set_option exponentiation.threshold 2000 in
/-- Counterexample to C9: the token `nan` does not begin with a number, and
`parseSizeToBytes` returns NaN for it and not zero; with this entry the total
of a manifest is no longer `1.0 GB` but `NaN MB`. -/
theorem nan_size_is_not_zero :
    beginsWithNumber (firstToken "nan".data) = false ∧
    parseSizeToBytes id "nan" = F64.nan ∧
    parseSizeToBytes id "nan" ≠ F64.zero ∧
    calculateTotalSize id ⟨[⟨"", "1 GB"⟩], none⟩ = "1.0 GB" ∧
    calculateTotalSize id ⟨[⟨"", "1 GB"⟩, ⟨"", "nan"⟩], none⟩ = "NaN MB" := by
  decide

/-- C9, amended. For every size string whose first whitespace-separated token
begins neither with a number nor with `NaN` or a signed or unsigned `Inf` in
any letter case (the empty string is one), `parseSizeToBytes` returns zero,
and the entry contributes nothing to the total of `calculateTotalSize`:
wherever it stands in the manifest, and also as the project file, the total
and the result are what they are without it. -/
theorem malformed_size_contributes_nothing (table : Char → Char) (size : String)
    (hnum : beginsWithNumber (firstToken size.data) = false)
    (hspecial : beginsWithSpecial (firstToken size.data) = false) :
    parseSizeToBytes table size = F64.zero ∧
    (∀ (pre post : List File) (proj : Option File) (url : String),
      totalBytes table ⟨pre ++ ⟨url, size⟩ :: post, proj⟩ = totalBytes table ⟨pre ++ post, proj⟩ ∧
      calculateTotalSize table ⟨pre ++ ⟨url, size⟩ :: post, proj⟩ =
        calculateTotalSize table ⟨pre ++ post, proj⟩) ∧
    (∀ (models : List File) (url : String),
      totalBytes table ⟨models, some ⟨url, size⟩⟩ = totalBytes table ⟨models, none⟩ ∧
      calculateTotalSize table ⟨models, some ⟨url, size⟩⟩ =
        calculateTotalSize table ⟨models, none⟩) := by
  have hz := parseSizeToBytes_of_not_begins table size hnum hspecial
  have h1 : ∀ (pre post : List File) (proj : Option File) (url : String),
      totalBytes table ⟨pre ++ ⟨url, size⟩ :: post, proj⟩ =
        totalBytes table ⟨pre ++ post, proj⟩ := by
    intro pre post proj url
    unfold totalBytes
    dsimp only
    rw [List.foldl_append, List.foldl_append, List.foldl_cons, hz,
      add_zero_of_settled _ (foldl_add_settled table pre F64.zero zero_settled)]
  have h2 : ∀ (models : List File) (url : String),
      totalBytes table ⟨models, some ⟨url, size⟩⟩ = totalBytes table ⟨models, none⟩ := by
    intro models url
    unfold totalBytes
    dsimp only
    rw [hz, add_zero_of_settled _ (foldl_add_settled table models F64.zero zero_settled)]
  refine ⟨hz, fun pre post proj url => ⟨h1 pre post proj url, ?_⟩,
    fun models url => ⟨h2 models url, ?_⟩⟩
  · unfold calculateTotalSize
    rw [h1]
  · unfold calculateTotalSize
    rw [h2]

set_option maxRecDepth 100000 in
set_option exponentiation.threshold 2000 in
/-- Witness of the amended C9: the size `unknown`, between two entries of a
manifest. -/
theorem malformed_size_contributes_nothing_witness :
    beginsWithNumber (firstToken "unknown".data) = false ∧
    beginsWithSpecial (firstToken "unknown".data) = false ∧
    parseSizeToBytes id "unknown" = F64.zero ∧
    calculateTotalSize id ⟨[⟨"", "500 MB"⟩] ++ ⟨"", "unknown"⟩ :: [⟨"", "600 MB"⟩], none⟩ =
      calculateTotalSize id ⟨[⟨"", "500 MB"⟩] ++ [⟨"", "600 MB"⟩], none⟩ :=
  ⟨by decide, by decide,
    (malformed_size_contributes_nothing id "unknown" (by decide) (by decide)).1,
    ((malformed_size_contributes_nothing id "unknown" (by decide) (by decide)).2.1
      [⟨"", "500 MB"⟩] [⟨"", "600 MB"⟩] none "").2⟩

end MalformedClaims

/-! ## Descriptions -/

section DescriptionLemmas

/-- What `strings.TrimSpace` returns neither starts nor ends with a space, and
the string is what it returns between two runs of spaces. -/
theorem trimSpaceChars_spec (s : List Char) :
    ∃ lead trail : List Char, s = lead ++ trimSpaceChars s ++ trail ∧
      (∀ c ∈ lead, isSpace c = true) ∧ (∀ c ∈ trail, isSpace c = true) ∧
      (∀ c ∈ (trimSpaceChars s).head?, isSpace c = false) ∧
      (∀ c ∈ (trimSpaceChars s).getLast?, isSpace c = false) := by
  obtain ⟨sp, hd, hsp⟩ := trimSpaceChars_parts s
  refine ⟨s.takeWhile isSpace, sp, ?_, ?_, hsp, ?_, ?_⟩
  · rw [List.append_assoc, ← hd, List.takeWhile_append_dropWhile]
  · intro c hc
    exact List.mem_takeWhile_imp hc
  · intro c hc
    cases ht : trimSpaceChars s with
    | nil => rw [ht] at hc; simp at hc
    | cons x r =>
      rw [ht] at hc hd
      simp only [List.head?_cons, Option.mem_def, Option.some.injEq] at hc
      rw [← hc]
      exact head_dropWhile_false isSpace s x (r ++ sp) hd
  · intro c hc
    unfold trimSpaceChars at hc
    rw [List.getLast?_reverse] at hc
    cases hr : (s.dropWhile isSpace).reverse.dropWhile isSpace with
    | nil => rw [hr] at hc; simp at hc
    | cons x r =>
      rw [hr] at hc
      simp only [List.head?_cons, Option.mem_def, Option.some.injEq] at hc
      rw [← hc]
      exact head_dropWhile_false isSpace _ x r hr

theorem formatDescription_of_ne (d : String) (h : d ≠ "") :
    formatDescription d = "<details><summary>Show</summary>" ++
      String.mk ((trimSpaceChars d.data).map (fun c => if c = '\n' then ' ' else c)) ++
      "</details>" := by
  unfold formatDescription
  rw [if_neg h]
  rfl

theorem trimSpaceChars_of_all_space (s : List Char) (h : ∀ c ∈ s, isSpace c = true) :
    trimSpaceChars s = [] := by
  unfold trimSpaceChars
  have : s.dropWhile isSpace = [] := by
    rw [List.dropWhile_eq_nil_iff]
    exact h
  rw [this]
  rfl

end DescriptionLemmas

section DescriptionClaims

/-- C11. For every description `d`, `formatDescription d` is the empty string
when `d` is empty; otherwise `d` is a run of spaces, a body that neither
starts nor ends with a space, and a run of spaces, and the result is
`<details><summary>Show</summary>`, the body with every newline replaced by
one blank, and `</details>`. The description `line1`, newline, `line2` gives
the block with the body `line1 line2`. -/
theorem formatDescription_spec (d : String) :
    ((d = "" ∧ formatDescription d = "") ∨
      (d ≠ "" ∧ ∃ lead body trail : List Char,
        d.data = lead ++ body ++ trail ∧
        (∀ c ∈ lead, isSpace c = true) ∧ (∀ c ∈ trail, isSpace c = true) ∧
        (∀ c ∈ body.head?, isSpace c = false) ∧ (∀ c ∈ body.getLast?, isSpace c = false) ∧
        formatDescription d = "<details><summary>Show</summary>" ++
          String.mk (body.map (fun c => if c = '\n' then ' ' else c)) ++ "</details>")) ∧
    formatDescription "line1\nline2" =
      "<details><summary>Show</summary>line1 line2</details>" ∧
    formatDescription "  a\n\nb\n" = "<details><summary>Show</summary>a  b</details>" := by
  refine ⟨?_, by decide, by decide⟩
  by_cases h : d = ""
  · left
    refine ⟨h, ?_⟩
    rw [h]
    rfl
  · right
    obtain ⟨lead, trail, h1, h2, h3, h4, h5⟩ := trimSpaceChars_spec d.data
    exact ⟨h, lead, trimSpaceChars d.data, trail, h1, h2, h3, h4, h5,
      formatDescription_of_ne d h⟩

/-- C16. For every description, the result of `formatDescription` contains no
newline character. -/
theorem formatDescription_no_newline (d : String) : '\n' ∉ (formatDescription d).data := by
  by_cases h : d = ""
  · rw [h]
    decide
  · rw [formatDescription_of_ne d h]
    simp only [String.data_append, List.mem_append, not_or]
    refine ⟨⟨by decide, ?_⟩, by decide⟩
    intro hmem
    obtain ⟨c, _, hc⟩ := List.mem_map.mp hmem
    by_cases hn : c = '\n'
    · rw [if_pos hn] at hc
      exact absurd hc (by decide)
    · rw [if_neg hn] at hc
      exact hn hc

/-- C17. For every description `d`, `formatDescription d` is the empty string
if and only if `d` is the empty string; a description that is not empty and
consists of whitespace only gives the block with an empty body,
`<details><summary>Show</summary></details>`. -/
theorem formatDescription_empty_iff (d : String) :
    (formatDescription d = "" ↔ d = "") ∧
    (d ≠ "" → (∀ c ∈ d.data, isSpace c = true) →
      formatDescription d = "<details><summary>Show</summary></details>") ∧
    formatDescription " \n\t" = "<details><summary>Show</summary></details>" := by
  refine ⟨⟨?_, ?_⟩, ?_, by decide⟩
  · intro h
    by_contra hne
    rw [formatDescription_of_ne d hne] at h
    have hdata := congrArg String.data h
    rw [String.data_append, String.data_append] at hdata
    have h2 := (List.append_eq_nil.mp (List.append_eq_nil.mp hdata).1).1
    exact absurd h2 (by decide)
  · intro h
    rw [h]
    rfl
  · intro hne hsp
    rw [formatDescription_of_ne d hne, trimSpaceChars_of_all_space d.data hsp]
    rfl

end DescriptionClaims

/-! ## Rows and the document -/

section RowLemmas

/-- The row of a model is its cells between `| ` and ` |`, with ` | ` from one
cell to the next. -/
theorem renderRow_eq_cells (table : Char → Char) (model : Model) :
    renderRow table model =
      "| " ++ String.intercalate " | " (rowCells table model) ++ " |\n" := by
  simp only [renderRow, rowCells, String.intercalate, String.intercalate.go, String.append_assoc]

set_option maxRecDepth 100000 in
theorem header_eq :
    header = "# Model Catalog\n" ++ "\n" ++
      ("| " ++ String.intercalate " | " columnNames ++ " |\n") ++
      ("|" ++ String.intercalate "|" (List.replicate 7 "---" ++ List.replicate 6 ":---:") ++
        "|\n") := by
  decide

theorem digitChar_isDigit (k : Nat) (h : k < 10) : isDigit (Nat.digitChar k) = true := by
  interval_cases k <;> decide

theorem toDigitsCore_digits :
    ∀ (fuel n : Nat) (ds : List Char), (∀ c ∈ ds, isDigit c = true) →
      ∀ c ∈ Nat.toDigitsCore 10 fuel n ds, isDigit c = true := by
  intro fuel
  induction fuel with
  | zero => intro n ds h; exact h
  | succ fuel ih =>
    intro n ds h
    have hd : ∀ c ∈ Nat.digitChar (n % 10) :: ds, isDigit c = true := by
      intro c hc
      rcases List.mem_cons.mp hc with hc | hc
      · rw [hc]
        exact digitChar_isDigit _ (Nat.mod_lt _ (by norm_num))
      · exact h c hc
    simp only [Nat.toDigitsCore]
    split
    · exact hd
    · exact ih _ _ hd

theorem toDigitsCore_ne_nil :
    ∀ (fuel n : Nat) (ds : List Char), (0 < fuel ∨ ds ≠ []) → Nat.toDigitsCore 10 fuel n ds ≠ [] := by
  intro fuel
  induction fuel with
  | zero =>
    intro n ds h
    rcases h with h | h
    · exact absurd h (Nat.lt_irrefl 0)
    · exact h
  | succ fuel ih =>
    intro n ds _
    simp only [Nat.toDigitsCore]
    split
    · exact List.cons_ne_nil _ _
    · exact ih _ _ (Or.inr (List.cons_ne_nil _ _))

/-- The decimal rendering of a natural number is not empty and consists of
digits. -/
theorem repr_digits (n : Nat) :
    (Nat.repr n).data ≠ [] ∧ ∀ c ∈ (Nat.repr n).data, isDigit c = true :=
  ⟨toDigitsCore_ne_nil (n + 1) n [] (Or.inl (Nat.succ_pos n)),
    toDigitsCore_digits (n + 1) n [] (fun _ h => absurd h (List.not_mem_nil _))⟩

theorem repr_ne_dash (n : Nat) : Nat.repr n ≠ "-" := by
  intro h
  have := (repr_digits n).2 '-' (by rw [h]; decide)
  exact absurd this (by decide)

theorem dash_append_repr_ne_dash (n : Nat) : "-" ++ Nat.repr n ≠ "-" := by
  intro h
  have hdata := congrArg String.data h
  rw [String.data_append] at hdata
  have : (Nat.repr n).data = [] := by
    have e : "-".data = ['-'] := rfl
    rw [e] at hdata
    simpa using hdata
  exact (repr_digits n).1 this

theorem formatInt_ne_dash (n : Int) : formatInt n ≠ "-" := by
  cases n with
  | ofNat k => exact repr_ne_dash k
  | negSucc k => exact dash_append_repr_ne_dash (k + 1)

theorem append_K_ne_dash (x : String) : x ++ "K" ≠ "-" := by
  intro h
  have hdata := congrArg String.data h
  rw [String.data_append] at hdata
  have e1 : "K".data = ['K'] := rfl
  have e2 : "-".data = ['-'] := rfl
  rw [e1, e2] at hdata
  cases hx : x.data with
  | nil =>
    rw [hx] at hdata
    exact absurd hdata (by decide)
  | cons c r =>
    rw [hx] at hdata
    cases r <;> simp at hdata

end RowLemmas

section RowClaims

/-- C12. For every record, the eighth to thirteenth cells of its row are the
cells of audio, gated, reasoning, streaming, tooling and video, and each is
the checkmark when the flag of the record is true and the empty string when it
is false. A record with streaming set and audio not set has the checkmark in
the streaming cell and the empty string in the audio cell. -/
theorem capability_cells (table : Char → Char) (m : Model) :
    renderRow table m = "| " ++ String.intercalate " | " (rowCells table m) ++ " |\n" ∧
    (rowCells table m).length = 13 ∧
    (rowCells table m)[7]? = some (if m.Capabilities.Audio = true then "✓" else "") ∧
    (rowCells table m)[8]? = some (if m.GatedModel = true then "✓" else "") ∧
    (rowCells table m)[9]? = some (if m.Capabilities.Reasoning = true then "✓" else "") ∧
    (rowCells table m)[10]? = some (if m.Capabilities.Streaming = true then "✓" else "") ∧
    (rowCells table m)[11]? = some (if m.Capabilities.Tooling = true then "✓" else "") ∧
    (rowCells table m)[12]? = some (if m.Capabilities.Video = true then "✓" else "") ∧
    (∀ b : Bool, (boolToMark b = "✓" ↔ b = true) ∧ (boolToMark b = "" ↔ b = false)) ∧
    (m.Capabilities.Streaming = true → m.Capabilities.Audio = false →
      (rowCells table m)[10]? = some "✓" ∧ (rowCells table m)[7]? = some "") := by
  refine ⟨renderRow_eq_cells table m, rfl, rfl, rfl, rfl, rfl, rfl, rfl, by decide, ?_⟩
  intro hs ha
  simp only [rowCells, boolToMark, hs, ha]
  exact ⟨rfl, rfl⟩

/-- C13. For every record, its row is `| `, then thirteen cells with ` | `
from one to the next, then ` |` and a newline; the cells are, in this order,
the link `[identifier](web page)`, the category, the owner, the size, the
context window, the date of creation, the description, and the marks of audio,
gated, reasoning, streaming, tooling and video. -/
theorem row_layout (table : Char → Char) (m : Model) :
    renderRow table m =
      "| " ++ String.intercalate " | "
        ["[" ++ m.ID ++ "](" ++ m.WebPage ++ ")",
          m.Category,
          m.OwnedBy,
          calculateTotalSize table m.Files,
          formatContextWindow m.Config.ContextWindow,
          formatDate m.Metadata.Created,
          formatDescription m.Metadata.Description,
          boolToMark m.Capabilities.Audio,
          boolToMark m.GatedModel,
          boolToMark m.Capabilities.Reasoning,
          boolToMark m.Capabilities.Streaming,
          boolToMark m.Capabilities.Tooling,
          boolToMark m.Capabilities.Video] ++ " |\n" ∧
    renderRow table m =
      "| " ++ "[" ++ m.ID ++ "](" ++ m.WebPage ++ ")" ++ " | " ++ m.Category ++ " | " ++
        m.OwnedBy ++ " | " ++ calculateTotalSize table m.Files ++ " | " ++
        formatContextWindow m.Config.ContextWindow ++ " | " ++ formatDate m.Metadata.Created ++
        " | " ++ formatDescription m.Metadata.Description ++ " | " ++
        boolToMark m.Capabilities.Audio ++ " | " ++ boolToMark m.GatedModel ++ " | " ++
        boolToMark m.Capabilities.Reasoning ++ " | " ++ boolToMark m.Capabilities.Streaming ++
        " | " ++ boolToMark m.Capabilities.Tooling ++ " | " ++ boolToMark m.Capabilities.Video ++
        " |" ++ "\n" := by
  refine ⟨renderRow_eq_cells table m, ?_⟩
  simp only [renderRow, String.append_assoc]
  rfl

/-- C15. The flags images, embedding and rerank are not rendered: for every
record and every three values of these flags, the row of the record with the
flags set to these values is the row of the record; so two records that
differ in these flags only have the same row. -/
theorem unrendered_flags (table : Char → Char) (m : Model) (images embedding rerank : Bool) :
    renderRow table
        { m with Capabilities :=
          { m.Capabilities with Images := images, Embedding := embedding, Rerank := rerank } } =
      renderRow table m ∧
    ∀ (m1 m2 : Model),
      m1.ID = m2.ID → m1.Category = m2.Category → m1.OwnedBy = m2.OwnedBy →
      m1.GatedModel = m2.GatedModel → m1.WebPage = m2.WebPage → m1.Files = m2.Files →
      m1.Metadata = m2.Metadata → m1.Config = m2.Config →
      m1.Capabilities.Streaming = m2.Capabilities.Streaming →
      m1.Capabilities.Reasoning = m2.Capabilities.Reasoning →
      m1.Capabilities.Audio = m2.Capabilities.Audio →
      m1.Capabilities.Video = m2.Capabilities.Video →
      m1.Capabilities.Tooling = m2.Capabilities.Tooling →
      renderRow table m1 = renderRow table m2 := by
  refine ⟨rfl, ?_⟩
  intro m1 m2 h1 h2 h3 h4 h5 h6 h7 h8 h9 h10 h11 h12 h13
  unfold renderRow
  rw [h1, h2, h3, h4, h5, h6, h7, h8, h9, h10, h11, h12, h13]

/-- C18. For every integer `n`, `formatContextWindow n` is `-` if and only
if `n` is zero; for a negative `n` it is the minus sign followed by the
decimal rendering of the absolute value of `n`, which is not empty. -/
theorem formatContextWindow_dash_iff (n : Int) :
    (formatContextWindow n = "-" ↔ n = 0) ∧
    (n < 0 → formatContextWindow n = "-" ++ Nat.repr n.natAbs ∧
      (Nat.repr n.natAbs).data ≠ [] ∧ ∀ c ∈ (Nat.repr n.natAbs).data, isDigit c = true) ∧
    formatContextWindow (-1) = "-1" ∧ formatContextWindow (-2048) = "-2048" := by
  refine ⟨⟨?_, ?_⟩, ?_, by decide, by decide⟩
  · intro h
    by_contra h0
    unfold formatContextWindow at h
    rw [if_neg h0] at h
    split at h
    · exact append_K_ne_dash _ h
    · exact formatInt_ne_dash _ h
  · intro h
    rw [h]
    rfl
  · intro hneg
    refine ⟨?_, (repr_digits _).1, (repr_digits _).2⟩
    unfold formatContextWindow
    have hKB : ((KB : Nat) : Int) = 1024 := by decide
    rw [if_neg (by omega), hKB, if_neg (by omega)]
    cases n with
    | ofNat k => exact absurd hneg (by simp)
    | negSucc k => rfl

end RowClaims

/-! ## The lines of the document -/

section LineLemmas

theorem splitLines_append_newline (rest : List Char) :
    ∀ (l : List Char), '\n' ∉ l → splitLines (l ++ '\n' :: rest) = l :: splitLines rest := by
  intro l
  induction l with
  | nil => intro _; simp [splitLines]
  | cons c l ih =>
    intro h
    have hc : c ≠ '\n' := fun e => h (by rw [e]; exact List.mem_cons_self _ _)
    have hl : '\n' ∉ l := fun e => h (List.mem_cons_of_mem _ e)
    rw [List.cons_append]
    simp only [splitLines]
    rw [if_neg hc, ih hl]

theorem not_mem_data_append (c : Char) (a b : String) (ha : c ∉ a.data) (hb : c ∉ b.data) :
    c ∉ (a ++ b).data := by
  rw [String.data_append, List.mem_append]
  exact fun h => h.elim ha hb

theorem repr_no_newline (n : Nat) : '\n' ∉ (Nat.repr n).data := by
  intro h
  have := (repr_digits n).2 '\n' h
  exact absurd this (by decide)

theorem zeroPad_no_newline (width n : Nat) : '\n' ∉ (zeroPad width n).data := by
  unfold zeroPad
  apply not_mem_data_append _ _ _ _ (repr_no_newline n)
  intro h
  have := List.eq_of_mem_replicate h
  exact absurd this (by decide)

theorem formatFloat_no_newline (prec : Nat) (x : F64) : '\n' ∉ (formatFloat prec x).data := by
  cases x with
  | nan => exact (by decide : '\n' ∉ "NaN".data)
  | inf s =>
    cases s
    · exact (by decide : '\n' ∉ "+Inf".data)
    · exact (by decide : '\n' ∉ "-Inf".data)
  | fin neg m e =>
    simp only [formatFloat]
    apply not_mem_data_append
    · apply not_mem_data_append _ _ _ _ (repr_no_newline _)
      split <;> decide
    · split
      · decide
      · exact not_mem_data_append _ _ _ (by decide) (zeroPad_no_newline _ _)

theorem calculateTotalSize_no_newline (table : Char → Char) (files : Files) :
    '\n' ∉ (calculateTotalSize table files).data := by
  unfold calculateTotalSize
  dsimp only
  split
  · exact not_mem_data_append _ _ _ (formatFloat_no_newline _ _) (by decide)
  · exact not_mem_data_append _ _ _ (formatFloat_no_newline _ _) (by decide)

theorem formatInt_no_newline (n : Int) : '\n' ∉ (formatInt n).data := by
  cases n with
  | ofNat k => exact repr_no_newline k
  | negSucc k => exact not_mem_data_append _ _ _ (by decide) (repr_no_newline _)

theorem formatContextWindow_no_newline (n : Int) : '\n' ∉ (formatContextWindow n).data := by
  unfold formatContextWindow
  split
  · decide
  · split
    · exact not_mem_data_append _ _ _ (formatInt_no_newline _) (by decide)
    · exact formatInt_no_newline _

theorem formatDate_no_newline (t : Time) : '\n' ∉ (formatDate t).data := by
  unfold formatDate
  refine not_mem_data_append _ _ _ (not_mem_data_append _ _ _ (not_mem_data_append _ _ _
    (not_mem_data_append _ _ _ ?_ (by decide)) (zeroPad_no_newline _ _)) (by decide))
    (zeroPad_no_newline _ _)
  split
  · exact zeroPad_no_newline _ _
  · exact not_mem_data_append _ _ _ (by decide) (zeroPad_no_newline _ _)

theorem formatDescription_newline_free (d : String) : '\n' ∉ (formatDescription d).data := by
  by_cases h : d = ""
  · rw [h]
    decide
  · rw [formatDescription_of_ne d h]
    refine not_mem_data_append _ _ _ (not_mem_data_append _ _ _ (by decide) ?_) (by decide)
    intro hmem
    obtain ⟨c, _, hc⟩ := List.mem_map.mp hmem
    by_cases hn : c = '\n'
    · rw [if_pos hn] at hc
      exact absurd hc (by decide)
    · rw [if_neg hn] at hc
      exact hn hc

theorem boolToMark_no_newline (b : Bool) : '\n' ∉ (boolToMark b).data := by
  cases b <;> decide

theorem intercalate_go_no_newline (sep : String) (hsep : '\n' ∉ sep.data) :
    ∀ (cells : List String) (acc : String), '\n' ∉ acc.data →
      (∀ c ∈ cells, '\n' ∉ c.data) → '\n' ∉ (String.intercalate.go acc sep cells).data := by
  intro cells
  induction cells with
  | nil => intro acc h _; exact h
  | cons c cells ih =>
    intro acc h hc
    simp only [String.intercalate.go]
    exact ih _ (not_mem_data_append _ _ _ (not_mem_data_append _ _ _ h hsep)
      (hc c (List.mem_cons_self _ _))) (fun x hx => hc x (List.mem_cons_of_mem _ hx))

theorem intercalate_no_newline (sep : String) (hsep : '\n' ∉ sep.data) (cells : List String)
    (hc : ∀ c ∈ cells, '\n' ∉ c.data) : '\n' ∉ (String.intercalate sep cells).data := by
  cases cells with
  | nil => exact List.not_mem_nil _
  | cons c cells =>
    simp only [String.intercalate]
    exact intercalate_go_no_newline sep hsep cells c (hc c (List.mem_cons_self _ _))
      (fun x hx => hc x (List.mem_cons_of_mem _ hx))

/-- The row of a model is its line and a newline. -/
theorem renderRow_eq_rowLine (table : Char → Char) (m : Model) :
    renderRow table m = rowLine table m ++ "\n" := by
  have e : (" |\n" : String) = " |" ++ "\n" := by decide
  rw [renderRow_eq_cells, e, ← String.append_assoc]
  rfl

/-- The line of a record whose identifier, web page, category and owner hold
no newline holds none. -/
theorem rowLine_no_newline (table : Char → Char) (m : Model)
    (h : '\n' ∉ m.ID.data ∧ '\n' ∉ m.WebPage.data ∧ '\n' ∉ m.Category.data ∧
      '\n' ∉ m.OwnedBy.data) : '\n' ∉ (rowLine table m).data := by
  obtain ⟨h1, h2, h3, h4⟩ := h
  unfold rowLine
  refine not_mem_data_append _ _ _ (not_mem_data_append _ _ _ (by decide) ?_) (by decide)
  apply intercalate_no_newline _ (by decide)
  intro c hc
  simp only [rowCells, List.mem_cons, List.mem_singleton, List.not_mem_nil, or_false] at hc
  rcases hc with hc | hc | hc | hc | hc | hc | hc | hc | hc | hc | hc | hc | hc <;> rw [hc]
  · exact not_mem_data_append _ _ _ (not_mem_data_append _ _ _ (not_mem_data_append _ _ _
      (not_mem_data_append _ _ _ (by decide) h1) (by decide)) h2) (by decide)
  · exact h3
  · exact h4
  · exact calculateTotalSize_no_newline _ _
  · exact formatContextWindow_no_newline _
  · exact formatDate_no_newline _
  · exact formatDescription_newline_free _
  · exact boolToMark_no_newline _
  · exact boolToMark_no_newline _
  · exact boolToMark_no_newline _
  · exact boolToMark_no_newline _
  · exact boolToMark_no_newline _
  · exact boolToMark_no_newline _

theorem rowLine_ne_nil (table : Char → Char) (m : Model) : (rowLine table m).data ≠ [] := by
  unfold rowLine
  rw [String.data_append, String.data_append]
  intro h
  have h2 := (List.append_eq_nil.mp (List.append_eq_nil.mp h).1).1
  exact absurd h2 (by decide)

theorem splitLines_rows (table : Char → Char) :
    ∀ (models : List Model),
      (∀ m ∈ models, '\n' ∉ m.ID.data ∧ '\n' ∉ m.WebPage.data ∧ '\n' ∉ m.Category.data ∧
        '\n' ∉ m.OwnedBy.data) →
      splitLines (String.join (renderRows table models)).data =
        models.map (fun m => (rowLine table m).data) := by
  intro models
  induction models with
  | nil => intro _; rfl
  | cons m ms ih =>
    intro h
    have hm := rowLine_no_newline table m (h m (List.mem_cons_self _ _))
    have e : (String.join (renderRows table (m :: ms))).data =
        (rowLine table m).data ++ '\n' :: (String.join (renderRows table ms)).data := by
      simp only [renderRows, String.data_join, List.map_cons, List.flatten_cons,
        renderRow_eq_rowLine, String.data_append]
      rw [List.append_assoc]
      rfl
    rw [e, splitLines_append_newline _ _ hm, ih (fun x hx => h x (List.mem_cons_of_mem _ hx))]
    rfl

set_option maxRecDepth 100000 in
theorem header_data :
    header.data = "# Model Catalog".data ++ '\n' :: ([] ++ '\n' :: (headerLine.data ++ '\n' ::
      (separatorLine.data ++ '\n' :: []))) := by
  decide

set_option maxRecDepth 100000 in
theorem header_lines_no_newline :
    '\n' ∉ "# Model Catalog".data ∧ '\n' ∉ headerLine.data ∧ '\n' ∉ separatorLine.data := by
  decide

theorem render_data (table : Char → Char) (models : List Model) :
    (render table models).data =
      "# Model Catalog".data ++ '\n' :: ([] ++ '\n' :: (headerLine.data ++ '\n' ::
        (separatorLine.data ++ '\n' :: (String.join (renderRows table models)).data))) := by
  unfold render
  rw [String.data_append, header_data]
  simp only [List.append_assoc, List.cons_append, List.nil_append]

/-- The lines of the document rendered for records whose identifier, web page,
category and owner hold no newline. -/
theorem splitLines_render (table : Char → Char) (models : List Model)
    (h : ∀ m ∈ models, '\n' ∉ m.ID.data ∧ '\n' ∉ m.WebPage.data ∧ '\n' ∉ m.Category.data ∧
      '\n' ∉ m.OwnedBy.data) :
    splitLines (render table models).data =
      ["# Model Catalog".data, [], headerLine.data, separatorLine.data] ++
        models.map (fun m => (rowLine table m).data) := by
  obtain ⟨k1, k2, k3⟩ := header_lines_no_newline
  rw [render_data, splitLines_append_newline _ _ k1, splitLines_append_newline _ [] (List.not_mem_nil _),
    splitLines_append_newline _ _ k2, splitLines_append_newline _ _ k3,
    splitLines_rows table models h]
  rfl

end LineLemmas

section LineClaims

set_option maxRecDepth 100000 in
set_option exponentiation.threshold 2000 in
/-- Counterexample to C14: for the one record `x` whose category is `a`, a
newline and `b`, the document that `main` writes has two lines after the
separator row, not one row, and neither is the row of a record. -/
theorem newline_in_category_breaks_row :
    (main id (some [Source.parsed ⟨"one", [modelOf "x" "a\nb"]⟩]) true none).outputFile =
      some (render id [modelOf "x" "a\nb"]) ∧
    splitLines (render id [modelOf "x" "a\nb"]).data =
      ["# Model Catalog".data, [], headerLine.data, separatorLine.data,
        "| [x]() | a".data,
        "b |  | 0 MB | - | 0001-01-01 |  |  |  |  |  |  |  |".data] ∧
    (splitLines (render id [modelOf "x" "a\nb"]).data).length ≠ 4 + [modelOf "x" "a\nb"].length := by
  decide

/-- C14, amended. For every list of `n` records whose identifier, web page,
category and owner hold no newline, the lines of the rendered document are
the title line `# Model Catalog`, an empty line, the header row of the
thirteen column names, the separator row of seven markers `---` and six
markers `:---:`, and then `n` lines, one for each record in the order of the
list: line `4 + i` is the row of record `i`, which is `| `, the thirteen
cells of the record with ` | ` between them, and ` |`, and is not empty. The
document that `main` writes is the one rendered for the sorted records. -/
theorem document_lines (table : Char → Char) (models : List Model)
    (hfree : ∀ m ∈ models, '\n' ∉ m.ID.data ∧ '\n' ∉ m.WebPage.data ∧
      '\n' ∉ m.Category.data ∧ '\n' ∉ m.OwnedBy.data) :
    splitLines (render table models).data =
      ["# Model Catalog".data, [],
        ("| " ++ String.intercalate " | " columnNames ++ " |").data,
        ("|" ++ String.intercalate "|" (List.replicate 7 "---" ++ List.replicate 6 ":---:") ++
          "|").data] ++
      models.map (fun m => ("| " ++ String.intercalate " | " (rowCells table m) ++ " |").data) ∧
    (splitLines (render table models).data).length = 4 + models.length ∧
    columnNames.length = 13 ∧
    (∀ (i : Nat) (m : Model), models[i]? = some m →
      (splitLines (render table models).data)[4 + i]? =
        some ("| " ++ String.intercalate " | " (rowCells table m) ++ " |").data ∧
      ("| " ++ String.intercalate " | " (rowCells table m) ++ " |").data ≠ [] ∧
      '\n' ∉ ("| " ++ String.intercalate " | " (rowCells table m) ++ " |").data ∧
      (rowCells table m).length = 13 ∧
      renderRow table m = "| " ++ String.intercalate " | " (rowCells table m) ++ " |" ++ "\n") ∧
    ∀ (docs : List Catalog) (before : Option String),
      (main table (some (docs.map Source.parsed)) true before).outputFile =
        some (render table (sortModels table (docs.flatMap (fun c => c.Models)))) := by
  have hlines := splitLines_render table models hfree
  refine ⟨hlines, ?_, rfl, ?_, ?_⟩
  · rw [hlines, List.length_append, List.length_map]
    rfl
  · intro i m hm
    refine ⟨?_, rowLine_ne_nil table m, ?_, rfl, renderRow_eq_rowLine table m⟩
    · rw [hlines]
      have h4 : ["# Model Catalog".data, [], headerLine.data, separatorLine.data].length = 4 := rfl
      rw [List.getElem?_append_right (by rw [h4]; omega), h4, Nat.add_sub_cancel_left,
        List.getElem?_map, hm]
      rfl
    · obtain ⟨_, hmem⟩ := List.getElem?_eq_some_iff.mp hm
      exact rowLine_no_newline table m (hfree m (hmem ▸ List.getElem_mem _))
  · intro docs before
    rw [main_parsed]
    rfl

set_option maxRecDepth 100000 in
set_option exponentiation.threshold 2000 in
/-- Witness of the amended C14: two records, with the lines of their
document. -/
theorem document_lines_witness :
    (∀ m ∈ [modelOf "a" "chat", modelOf "b" "code"], '\n' ∉ m.ID.data ∧ '\n' ∉ m.WebPage.data ∧
      '\n' ∉ m.Category.data ∧ '\n' ∉ m.OwnedBy.data) ∧
    splitLines (render id [modelOf "a" "chat", modelOf "b" "code"]).data =
      ["# Model Catalog".data, [],
        ("| " ++ String.intercalate " | " columnNames ++ " |").data,
        ("|" ++ String.intercalate "|" (List.replicate 7 "---" ++ List.replicate 6 ":---:") ++
          "|").data] ++
      [modelOf "a" "chat", modelOf "b" "code"].map
        (fun m => ("| " ++ String.intercalate " | " (rowCells id m) ++ " |").data) ∧
    [modelOf "a" "chat", modelOf "b" "code"].map
        (fun m => ("| " ++ String.intercalate " | " (rowCells id m) ++ " |").data) =
      ["| [a]() | chat |  | 0 MB | - | 0001-01-01 |  |  |  |  |  |  |  |".data,
        "| [b]() | code |  | 0 MB | - | 0001-01-01 |  |  |  |  |  |  |  |".data] :=
  ⟨by decide,
    (document_lines id [modelOf "a" "chat", modelOf "b" "code"] (by decide)).1, by decide⟩

end LineClaims

end GenCatalog
